import Mathlib

/-!
A shallow embedding of the `binary` package's decode engine
(`decoder.go` and `decoder_reader.go`), together with proofs about the
claims of its specification.

Bytes are modelled as natural numbers (the code's masking operations are
kept explicit).  The buffer backend (`Decoder`) carries a byte buffer and
a position; the stream backend (`decoderReader`) carries the remaining
bytes of the stream.  A primitive short read panics in Go; we model a
panic as `none` of the underlying `Option`.
-/

set_option maxHeartbeats 1000000

/-- Byte order of fixed-width scalar reads.  Modelled from the spec:
the byte-order primitives (`Endian`) live outside the reviewed sources. -/
inductive Endian where
  | little
  | big
deriving DecidableEq, Repr

/-- Modelled from the spec: interpret a byte group as an unsigned integer
in the given byte order (the `Endian.Uint16/32/64` collaborator). -/
def Endian.toUint : Endian → List Nat → Nat
  | .little, bs => bs.foldr (fun b acc => acc * 256 + b) 0
  | .big, bs => bs.foldl (fun acc b => acc * 256 + b) 0

/-- State of the buffer-backed `Decoder`: the `coder` struct's buffer,
position and endian. -/
structure DState where
  buff : List Nat
  pos : Nat
  endian : Endian
deriving DecidableEq, Repr

/-- State of the stream-backed `decoderReader`: the bytes the underlying
reader will still deliver, plus the endian.  (The scratch buffer only
amortizes allocation and has no semantic content.) -/
structure RState where
  rem : List Nat
  endian : Endian
deriving DecidableEq, Repr

/-- Monad of the buffer-backed decoder: state plus panic (`none`). -/
abbrev DecM (α : Type) : Type := StateT DState Option α

/-- Monad of the stream-backed decoder. -/
abbrev RdM (α : Type) : Type := StateT RState Option α

/-- Modelled from the spec: `coder.reserve` (not among the reviewed
sources) returns the next `size` bytes of the buffer and advances the
position, or fails with EndOfData (a panic) if fewer are available. -/
def dReserve (size : Nat) : DecM (List Nat) := fun s =>
  if s.pos + size ≤ s.buff.length then
    some ((s.buff.drop s.pos).take size, ⟨s.buff, s.pos + size, s.endian⟩)
  else none

/-- `decoderReader.reserve`: one read request for `size` bytes; a short
read panics with `io.ErrUnexpectedEOF`. -/
def rReserve (size : Nat) : RdM (List Nat) := fun r =>
  if size ≤ r.rem.length then
    some (r.rem.take size, ⟨r.rem.drop size, r.endian⟩)
  else none

/-- `Decoder.Skip` (via `reserve`): skip sizes are Go `int`s, negative
requests panic inside `make`. -/
def dSkip (size : Int) : DecM Int := fun s =>
  if size < 0 then none
  else (dReserve size.toNat).run s >>= fun (_, s1) => some (size, s1)

/-- `decoderReader.Skip`. -/
def rSkip (size : Int) : RdM Int := fun r =>
  if size < 0 then none
  else (rReserve size.toNat).run r >>= fun (_, r1) => some (size, r1)

/-- `Decoder.Bool`. -/
def dBool : DecM Bool := do
  let b ← dReserve 1
  pure (b.headD 0 ≠ 0)

/-- `Decoder.Uint8`. -/
def dUint8 : DecM Nat := do
  let b ← dReserve 1
  pure (b.headD 0)

/-- Two's-complement reading of a `w`-bit pattern as a signed integer
(the meaning of Go's `int8(...)`, `int16(...)`, ... conversions). -/
def toSigned (w : Nat) (n : Nat) : Int :=
  if n % 2 ^ w < 2 ^ (w - 1) then ((n % 2 ^ w : Nat) : Int)
  else ((n % 2 ^ w : Nat) : Int) - (2 ^ w : Nat)

/-- `Decoder.Int8`. -/
def dInt8 : DecM Int := do
  let x ← dUint8
  pure (toSigned 8 x)

/-- `Decoder.Uint16`. -/
def dUint16 : DecM Nat := fun s => do
  let (b, s1) ← (dReserve 2).run s
  pure (s.endian.toUint b, s1)

/-- `Decoder.Int16`. -/
def dInt16 : DecM Int := do
  let x ← dUint16
  pure (toSigned 16 x)

/-- `Decoder.Uint32`. -/
def dUint32 : DecM Nat := fun s => do
  let (b, s1) ← (dReserve 4).run s
  pure (s.endian.toUint b, s1)

/-- `Decoder.Int32`. -/
def dInt32 : DecM Int := do
  let x ← dUint32
  pure (toSigned 32 x)

/-- `Decoder.Uint64`. -/
def dUint64 : DecM Nat := fun s => do
  let (b, s1) ← (dReserve 8).run s
  pure (s.endian.toUint b, s1)

/-- `Decoder.Int64`. -/
def dInt64 : DecM Int := do
  let x ← dUint64
  pure (toSigned 64 x)

/-- `Decoder.Float32` (the value is identified with its bit pattern;
`math.Float32frombits` is injective). -/
def dFloat32 : DecM Nat := dUint32

/-- `Decoder.Float64`. -/
def dFloat64 : DecM Nat := dUint64

/-- `Decoder.Complex64`: two consecutive 32-bit floats (real, imaginary). -/
def dComplex64 : DecM (Nat × Nat) := do
  let re ← dFloat32
  let im ← dFloat32
  pure (re, im)

/-- `Decoder.Complex128`. -/
def dComplex128 : DecM (Nat × Nat) := do
  let re ← dFloat64
  let im ← dFloat64
  pure (re, im)

/-- `MaxVarintLen64` from the package. -/
def MaxVarintLen64 : Nat := 10

/-- The loop of `Decoder.Uvarint`; `fuel = MaxVarintLen64 - i`. -/
def dUvarintGo (fuel : Nat) (x : Nat) (bit : Nat) (i : Nat) : DecM (Nat × Int) :=
  match fuel with
  | 0 => pure (0, 0)
  | fuel + 1 => do
      let b ← dUint8
      let x := x ||| ((b &&& 0x7f) <<< bit)
      if b < 0x80 then
        if 9 < i ∨ (i = 9 ∧ 1 < b) then pure (0, -((i : Int) + 1))
        else pure (x, (i : Int) + 1)
      else dUvarintGo fuel x (bit + 7) (i + 1)

/-- `Decoder.Uvarint`: uvarint decode, with `n ≤ 0` on varint error. -/
def dUvarint : DecM (Nat × Int) := dUvarintGo MaxVarintLen64 0 0 0

/-- Modelled from the spec: `ToVarint`, the reversible signed↔unsigned
transform applied after unsigned varint decode (the zigzag decode of
`encoding/binary`, which this package mirrors). -/
def ToVarint (ux : Nat) : Int :=
  if ux % 2 = 0 then (ux / 2 : Nat) else -((ux / 2 : Nat) : Int) - 1

/-- `Decoder.Varint`. -/
def dVarint : DecM (Int × Int) := do
  let (ux, n) ← dUvarint
  pure (ToVarint ux, n)

/-- `Decoder.String`: uvarint byte-length prefix (failure ignored), then
that many raw bytes. -/
def dString : DecM (List Nat) := do
  let (s, _) ← dUvarint
  let b ← dReserve s
  pure b

/-- `Decoder.Int`: varint decode, error ignored. -/
def dInt : DecM Int := do
  let (n, _) ← dVarint
  pure n

/-- `Decoder.Uint`: uvarint decode, error ignored. -/
def dUint : DecM Nat := do
  let (n, _) ← dUvarint
  pure n

/-- `decoderReader.Bool`. -/
def rBool : RdM Bool := do
  let b ← rReserve 1
  pure (b.headD 0 ≠ 0)

/-- `decoderReader.Uint8`. -/
def rUint8 : RdM Nat := do
  let b ← rReserve 1
  pure (b.headD 0)

/-- `decoderReader.Int8`. -/
def rInt8 : RdM Int := do
  let x ← rUint8
  pure (toSigned 8 x)

/-- `decoderReader.Uint16`. -/
def rUint16 : RdM Nat := fun r => do
  let (b, r1) ← (rReserve 2).run r
  pure (r.endian.toUint b, r1)

/-- `decoderReader.Int16`. -/
def rInt16 : RdM Int := do
  let x ← rUint16
  pure (toSigned 16 x)

/-- `decoderReader.Uint32`. -/
def rUint32 : RdM Nat := fun r => do
  let (b, r1) ← (rReserve 4).run r
  pure (r.endian.toUint b, r1)

/-- `decoderReader.Int32`. -/
def rInt32 : RdM Int := do
  let x ← rUint32
  pure (toSigned 32 x)

/-- `decoderReader.Uint64`. -/
def rUint64 : RdM Nat := fun r => do
  let (b, r1) ← (rReserve 8).run r
  pure (r.endian.toUint b, r1)

/-- `decoderReader.Int64`. -/
def rInt64 : RdM Int := do
  let x ← rUint64
  pure (toSigned 64 x)

/-- `decoderReader.Float32`. -/
def rFloat32 : RdM Nat := rUint32

/-- `decoderReader.Float64`. -/
def rFloat64 : RdM Nat := rUint64

/-- `decoderReader.Complex64`. -/
def rComplex64 : RdM (Nat × Nat) := do
  let re ← rFloat32
  let im ← rFloat32
  pure (re, im)

/-- `decoderReader.Complex128`. -/
def rComplex128 : RdM (Nat × Nat) := do
  let re ← rFloat64
  let im ← rFloat64
  pure (re, im)

/-- The loop of `decoderReader.Uvarint` (the overflow test precedes the
accumulation there, unlike the buffer decoder). -/
def rUvarintGo (fuel : Nat) (x : Nat) (bit : Nat) (i : Nat) : RdM (Nat × Int) :=
  match fuel with
  | 0 => pure (0, 0)
  | fuel + 1 => do
      let b ← rUint8
      if b < 0x80 then
        if 9 < i ∨ (i = 9 ∧ 1 < b) then pure (0, -((i : Int) + 1))
        else pure (x ||| (b <<< bit), (i : Int) + 1)
      else rUvarintGo fuel (x ||| ((b &&& 0x7f) <<< bit)) (bit + 7) (i + 1)

/-- `decoderReader.Uvarint`. -/
def rUvarint : RdM (Nat × Int) := rUvarintGo MaxVarintLen64 0 0 0

/-- `decoderReader.Varint`. -/
def rVarint : RdM (Int × Int) := do
  let (ux, n) ← rUvarint
  pure (ToVarint ux, n)

/-- `decoderReader.String`. -/
def rString : RdM (List Nat) := do
  let (s, _) ← rUvarint
  let b ← rReserve s
  pure b

/-- The destination shapes the decode engine dispatches on
(`reflect.Kind` as used by `value`/`skipByType`).  A record (struct) is
represented as a chain of fields: `fnil`/`fcons` together form the
struct kind; each field carries the inclusion flag that the missing
`validField` collaborator would compute for it. -/
inductive Ty where
  | bool
  | int8
  | uint8
  | int16
  | uint16
  | int32
  | uint32
  | int64
  | uint64
  | float32
  | float64
  | complex64
  | complex128
  | str
  | int
  | uint
  | slice (elem : Ty)
  | array (len : Nat) (elem : Ty)
  | map (key : Ty) (value : Ty)
  | fnil
  | fcons (field : Ty) (included : Bool) (rest : Ty)
  | ptr (elem : Ty)
deriving DecidableEq, Repr

/-- Decoded Go values.  Floats and complex numbers are identified with
their bit patterns (`math.Float32frombits`/`Float64frombits` are
injective), maps with their insertion sequence. -/
inductive Val where
  | bool (b : Bool)
  | i8 (n : Int)
  | u8 (n : Nat)
  | i16 (n : Int)
  | u16 (n : Nat)
  | i32 (n : Int)
  | u32 (n : Nat)
  | i64 (n : Int)
  | u64 (n : Nat)
  | f32 (bits : Nat)
  | f64 (bits : Nat)
  | c64 (re : Nat) (im : Nat)
  | c128 (re : Nat) (im : Nat)
  | str (bytes : List Nat)
  | int (n : Int)
  | uint (n : Nat)
  | list (xs : List Val)
  | mapv (entries : List (Val × Val))
  | structv (fields : List Val)
  | ptrv (p : Option Val)

/-- The Go zero value of each shape (what `reflect.New`/`MakeSlice`
produce). -/
def defaultVal : Ty → Val
  | .bool => .bool false
  | .int8 => .i8 0
  | .uint8 => .u8 0
  | .int16 => .i16 0
  | .uint16 => .u16 0
  | .int32 => .i32 0
  | .uint32 => .u32 0
  | .int64 => .i64 0
  | .uint64 => .u64 0
  | .float32 => .f32 0
  | .float64 => .f64 0
  | .complex64 => .c64 0 0
  | .complex128 => .c128 0 0
  | .str => .str []
  | .int => .int 0
  | .uint => .uint 0
  | .slice _ => .list []
  | .array n e => .list (List.replicate n (defaultVal e))
  | .map _ _ => .mapv []
  | .fnil => .structv []
  | .fcons f _ rest =>
      match defaultVal rest with
      | .structv vs => .structv (defaultVal f :: vs)
      | _ => .structv [defaultVal f]
  | .ptr _ => .ptrv none

/-- Modelled from the spec: `_fixTypeSize` (not among the reviewed
sources) returns the constant wire size of fixed-size kinds and a
non-positive number otherwise (bool and fixed-width scalars are the
fixed-size kinds; natural int/uint are varint-encoded). -/
def _fixTypeSize : Ty → Int
  | .bool => 1
  | .int8 => 1
  | .uint8 => 1
  | .int16 => 2
  | .uint16 => 2
  | .int32 => 4
  | .uint32 => 4
  | .float32 => 4
  | .int64 => 8
  | .uint64 => 8
  | .float64 => 8
  | .complex64 => 8
  | .complex128 => 16
  | _ => -1

/-- Modelled from the spec: the minimal LEB128-style varint encoding of
an unsigned value (the encoder collaborator).  7 payload bits per byte,
least-significant group first, continuation bit 0x80.  Ten bytes suffice
for every value below `2 ^ 64`, which is the encoder's domain. -/
def uvarintEncAux : Nat → Nat → List Nat
  | 0, _ => []
  | fuel + 1, v =>
      if v < 0x80 then [v]
      else (v % 0x80 + 0x80) :: uvarintEncAux fuel (v / 0x80)

/-- Minimal uvarint encoding (ten bytes of fuel). -/
def uvarintEncode (v : Nat) : List Nat := uvarintEncAux 10 v

/-- Modelled from the spec: `SizeofUvarint`, the byte length of the
minimal uvarint encoding. -/
def SizeofUvarint (v : Nat) : Nat := (uvarintEncode v).length

/-- Modelled from the spec: `sizeofBoolArray cnt` is the uvarint prefix
length plus `ceil(cnt/8)` bit-packed data bytes. -/
def sizeofBoolArray (cnt : Nat) : Nat := SizeofUvarint cnt + (cnt + 7) / 8

/-- Element loop of the buffer skip engine for sequences of non-fixed
element size: sum starts at the count's byte length, a negative inner
skip aborts with `-1`. -/
def dSkipLoop (act : DecM Int) : Nat → Int → DecM Int
  | 0, sum => pure sum
  | n + 1, sum => do
      let s ← act
      if s < 0 then pure (-1)
      else dSkipLoop act n (sum + s)

/-- Entry loop of the buffer skip engine for mappings (inner results are
summed without a negative check, as in the source). -/
def dSkipMapLoop (actK actV : DecM Int) : Nat → Int → DecM Int
  | 0, sum => pure sum
  | n + 1, sum => do
      let a ← actK
      let b ← actV
      dSkipMapLoop actK actV n (sum + a + b)

/-- The `reflect.Slice, reflect.Array` case of `Decoder.skipByType`
(identical for both kinds in the source): read the element count, then
either skip the fixed-size payload in one step (bit-packed for bool) or
loop the element skip. -/
def dSkipSeq (e : Ty) (skipE : DecM Int) : DecM Int := do
  let (s, sLen) ← dUvarint
  if 0 < _fixTypeSize e then
    match e with
    | .bool => do
        let totalSize := sizeofBoolArray s
        let size := totalSize - SizeofUvarint s
        let _ ← dSkip (size : Int)
        pure (totalSize : Int)
    | _ => do
        let size := s * (_fixTypeSize e).toNat
        let _ ← dSkip (size : Int)
        pure (size : Int)
  else dSkipLoop skipE s sLen

/-- `Decoder.skipByType`: consume the encoding of a value of shape `t`
without materializing it. -/
def dSkipByType (t : Ty) : DecM Int :=
  if 0 < _fixTypeSize t then do
    let _ ← dSkip (_fixTypeSize t)
    pure (_fixTypeSize t)
  else
    match t with
    | .int => do
        let (_, n) ← dVarint
        pure n
    | .uint => do
        let (_, n) ← dUvarint
        pure n
    | .str => do
        let (s, n) ← dUvarint
        let _ ← dSkip (s : Int)
        pure ((s : Int) + n)
    | .slice e => dSkipSeq e (dSkipByType e)
    | .array _ e => dSkipSeq e (dSkipByType e)
    | .map kt vt => do
        let (s, sLen) ← dUvarint
        dSkipMapLoop (dSkipByType kt) (dSkipByType vt) s sLen
    | .fnil => pure 0
    | .fcons f _ rest => do
        let s1 ← dSkipByType f
        if s1 < 0 then pure (-1)
        else do
          let s2 ← dSkipByType rest
          if s2 < 0 then pure (-1) else pure (s1 + s2)
    | _ => pure (-1)

/-- Element loop of the stream skip engine. -/
def rSkipLoop (act : RdM Int) : Nat → Int → RdM Int
  | 0, sum => pure sum
  | n + 1, sum => do
      let s ← act
      if s < 0 then pure (-1)
      else rSkipLoop act n (sum + s)

/-- Mapping loop of the stream skip engine. -/
def rSkipMapLoop (actK actV : RdM Int) : Nat → Int → RdM Int
  | 0, sum => pure sum
  | n + 1, sum => do
      let a ← actK
      let b ← actV
      rSkipMapLoop actK actV n (sum + a + b)

/-- The sequence case of `decoderReader.skipByType`; in the bool branch
the actually consumed prefix length `sLen` is subtracted (unlike the
buffer decoder, which subtracts `SizeofUvarint`). -/
def rSkipSeq (e : Ty) (skipE : RdM Int) : RdM Int := do
  let (s, sLen) ← rUvarint
  if 0 < _fixTypeSize e then
    match e with
    | .bool => do
        let totalSize := sizeofBoolArray s
        let size := (totalSize : Int) - sLen
        let _ ← rSkip size
        pure (totalSize : Int)
    | _ => do
        let size := s * (_fixTypeSize e).toNat
        let _ ← rSkip (size : Int)
        pure (size : Int)
  else rSkipLoop skipE s sLen

/-- `decoderReader.skipByType`.  It has no natural int/uint cases, its
string case returns only the data length (omitting the prefix length),
and its bool-sequence case subtracts the actually consumed prefix length
`sLen` from `sizeofBoolArray`. -/
def rSkipByType (t : Ty) : RdM Int :=
  if 0 < _fixTypeSize t then do
    let _ ← rSkip (_fixTypeSize t)
    pure (_fixTypeSize t)
  else
    match t with
    | .str => do
        let (s, _) ← rUvarint
        let _ ← rSkip (s : Int)
        pure (s : Int)
    | .slice e => rSkipSeq e (rSkipByType e)
    | .array _ e => rSkipSeq e (rSkipByType e)
    | .map kt vt => do
        let (s, sLen) ← rUvarint
        rSkipMapLoop (rSkipByType kt) (rSkipByType vt) s sLen
    | .fnil => pure 0
    | .fcons f _ rest => do
        let s1 ← rSkipByType f
        if s1 < 0 then pure (-1)
        else do
          let s2 ← rSkipByType rest
          if s2 < 0 then pure (-1) else pure (s1 + s2)
    | _ => pure (-1)

/-- The list underlying a sequence value (`v.Index`, `v.Len`). -/
def valList : Val → List Val
  | .list xs => xs
  | _ => []

/-- The field list of a record value. -/
def valFields : Val → List Val
  | .structv vs => vs
  | _ => []

/-- Shape-dispatch errors returned (not panicked) by the decode engine. -/
inductive GoErr where
  | unsupportedType
  | nonPointer
deriving DecidableEq, Repr

/-- The bit-extraction loop shared by `boolArray` and the `*[]bool` fast
path: one fresh data byte is reserved whenever `i % 8 = 0`; bit `i % 8`
(LSB-first) of the current byte becomes element `i`.  Writing past the
end of the destination (a fixed array shorter than the element count)
is a reflect panic. -/
def dBoolBits : Nat → Nat → Nat → List Val → DecM (List Val)
  | 0, _, _, xs => pure xs
  | n + 1, i, curByte, xs => do
      let b ← (if i % 8 = 0 then do
                  let bs ← dReserve 1
                  pure (bs.headD 0)
                else pure curByte)
      let x := b &&& (1 <<< (i % 8)) ≠ 0
      if _h : i < xs.length then
        dBoolBits n (i + 1) b (xs.set i (.bool x))
      else fun _ => none

/-- `Decoder.boolArray`: decode a bit-packed bool sequence, returning
`sizeofBoolArray count`, or `-1` (reading nothing) when the destination
is not a bool sequence.  A slice destination is reallocated only when
the count is positive. -/
def dBoolArray (t : Ty) (cur : Val) : DecM (Int × Val) :=
  match t with
  | .slice .bool => do
      let (l, _) ← dUvarint
      let xs0 := if 0 < l then List.replicate l (Val.bool false) else valList cur
      let xs ← dBoolBits l 0 0 xs0
      pure ((sizeofBoolArray l : Int), .list xs)
  | .array _ .bool => do
      let (l, _) ← dUvarint
      let xs ← dBoolBits l 0 0 (valList cur)
      pure ((sizeofBoolArray l : Int), .list xs)
  | _ => pure (-1, cur)

/-- Element loop of `value` for sequences: elements within the
destination's length are decoded in place (inner errors dropped, as in
the source); surplus elements are fed to the skip engine. -/
def dValueElems (dec : Val → DecM (Val × Option GoErr)) (skip : DecM Int) :
    Nat → Nat → List Val → DecM (List Val)
  | 0, _, xs => pure xs
  | n + 1, i, xs =>
      if h : i < xs.length then do
        let (v, _) ← dec xs[i]
        dValueElems dec skip n (i + 1) (xs.set i v)
      else do
        let _ ← skip
        dValueElems dec skip n (i + 1) xs

/-- Entry loop of `value` for mappings: each iteration decodes a fresh
default-initialized key and value (errors dropped) and inserts the pair. -/
def dMapElems (decK decV : Val → DecM (Val × Option GoErr)) (kd vd : Val) :
    Nat → List (Val × Val) → DecM (List (Val × Val))
  | 0, acc => pure acc
  | n + 1, acc => do
      let (k, _) ← decK kd
      let (v, _) ← decV vd
      dMapElems decK decV kd vd n (acc ++ [(k, v)])

/-- Head and tail of a record destination's field values. -/
def structHeadTail : Val → Val × List Val
  | .structv (v :: vs) => (v, vs)
  | _ => (.structv [], [])

/-- `Decoder.value`: the recursive shape dispatch of the buffer decoder.
The result is the value written into the destination plus the returned
error.  The reference (pointer) case goes through the package-level
`newPtr`, which is not among the reviewed sources and is modelled from
the spec: a reference destination is always populated — a nil pointer
gets fresh default storage, a non-nil one is decoded into. -/
def dValue (t : Ty) (cur : Val) : DecM (Val × Option GoErr) :=
  match t with
  | .int => do
      let n ← dInt
      pure (.int n, none)
  | .uint => do
      let n ← dUint
      pure (.uint n, none)
  | .bool => do
      let b ← dBool
      pure (.bool b, none)
  | .int8 => do
      let n ← dInt8
      pure (.i8 n, none)
  | .int16 => do
      let n ← dInt16
      pure (.i16 n, none)
  | .int32 => do
      let n ← dInt32
      pure (.i32 n, none)
  | .int64 => do
      let n ← dInt64
      pure (.i64 n, none)
  | .uint8 => do
      let n ← dUint8
      pure (.u8 n, none)
  | .uint16 => do
      let n ← dUint16
      pure (.u16 n, none)
  | .uint32 => do
      let n ← dUint32
      pure (.u32 n, none)
  | .uint64 => do
      let n ← dUint64
      pure (.u64 n, none)
  | .float32 => do
      let n ← dFloat32
      pure (.f32 n, none)
  | .float64 => do
      let n ← dFloat64
      pure (.f64 n, none)
  | .complex64 => do
      let (re, im) ← dComplex64
      pure (.c64 re im, none)
  | .complex128 => do
      let (re, im) ← dComplex128
      pure (.c128 re im, none)
  | .str => do
      let bs ← dString
      pure (.str bs, none)
  | .slice e => do
      let (r, cur1) ← dBoolArray (.slice e) cur
      if r < 0 then do
        let (s, _) ← dUvarint
        let xs ← dValueElems (dValue e) (dSkipByType e) s 0
          (List.replicate s (defaultVal e))
        pure (.list xs, none)
      else pure (cur1, none)
  | .array n e => do
      let (r, cur1) ← dBoolArray (.array n e) cur
      if r < 0 then do
        let (s, _) ← dUvarint
        let xs ← dValueElems (dValue e) (dSkipByType e) s 0 (valList cur)
        pure (.list xs, none)
      else pure (cur1, none)
  | .map kt vt => do
      let (s, _) ← dUvarint
      let entries ← dMapElems (dValue kt) (dValue vt) (defaultVal kt) (defaultVal vt) s []
      pure (.mapv entries, none)
  | .fnil => pure (.structv [], none)
  | .fcons f incl rest => do
      let (hd, tl) := structHeadTail cur
      let hd1 ← (if incl then do
                    let (v, _) ← dValue f hd
                    pure v
                  else pure hd)
      let (restv, _) ← dValue rest (.structv tl)
      pure (.structv (hd1 :: valFields restv), none)
  | .ptr e => do
      let inner := match cur with
        | .ptrv (some v) => v
        | _ => defaultVal e
      let (v, err) ← dValue e inner
      pure (.ptrv (some v), err)

/-- The concrete destination types with a `fastValue` case in the buffer
decoder, as element types: every scalar kind, natural int/uint, and
string (`*T` and `*[]T` cases exist for each). -/
def isFastElem : Ty → Bool
  | .bool | .int | .uint | .int8 | .uint8 | .int16 | .uint16 | .int32 | .uint32
  | .int64 | .uint64 | .float32 | .float64 | .complex64 | .complex128 | .str => true
  | _ => false

/-- Destination types handled by `Decoder.fastValue`. -/
def dFastHandled : Ty → Bool
  | .slice e => isFastElem e
  | t => isFastElem t

/-- The primitive decode a fast-path case performs for a scalar/string
destination — the same primitive call the corresponding `value` case
performs. -/
def dScalarVal : Ty → DecM Val
  | .bool => do
      let b ← dBool
      pure (.bool b)
  | .int => do
      let n ← dInt
      pure (.int n)
  | .uint => do
      let n ← dUint
      pure (.uint n)
  | .int8 => do
      let n ← dInt8
      pure (.i8 n)
  | .int16 => do
      let n ← dInt16
      pure (.i16 n)
  | .int32 => do
      let n ← dInt32
      pure (.i32 n)
  | .int64 => do
      let n ← dInt64
      pure (.i64 n)
  | .uint8 => do
      let n ← dUint8
      pure (.u8 n)
  | .uint16 => do
      let n ← dUint16
      pure (.u16 n)
  | .uint32 => do
      let n ← dUint32
      pure (.u32 n)
  | .uint64 => do
      let n ← dUint64
      pure (.u64 n)
  | .float32 => do
      let n ← dFloat32
      pure (.f32 n)
  | .float64 => do
      let n ← dFloat64
      pure (.f64 n)
  | .complex64 => do
      let (re, im) ← dComplex64
      pure (.c64 re im)
  | .complex128 => do
      let (re, im) ← dComplex128
      pure (.c128 re im)
  | .str => do
      let bs ← dString
      pure (.str bs)
  | _ => pure (.structv [])

/-- Element loop of the fast slice cases: `make([]T, l)` then decode each
element with the scalar primitive. -/
def dFastLoop (act : DecM Val) : Nat → List Val → DecM (List Val)
  | 0, acc => pure acc
  | n + 1, acc => do
      let v ← act
      dFastLoop act n (acc ++ [v])

/-- `Decoder.fastValue` (on the types it handles): the `*[]bool` case
always allocates a fresh `make([]bool, l)` — also for `l = 0` — and runs
the same bit loop as `boolArray`; the other slice cases read a count and
loop the scalar primitive. -/
def dFastValue (t : Ty) : DecM Val :=
  match t with
  | .slice .bool => do
      let (l, _) ← dUvarint
      let xs ← dBoolBits l 0 0 (List.replicate l (Val.bool false))
      pure (.list xs)
  | .slice e => do
      let (l, _) ← dUvarint
      let xs ← dFastLoop (dScalarVal e) l []
      pure (.list xs)
  | t => dScalarVal t

/-- Outcome of a top-level `Value` call: a decoded value with nil error,
an explicit shape error, an explicit EndOfData error (buffer backend), or
an uncaught panic escaping `Value` (stream backend). -/
inductive VRes where
  | okVal (v : Val)
  | errVal (e : GoErr)
  | eofErr
  | panicked

/-- The body of `Decoder.Value` before the deferred recover: fast path
first, otherwise the reflection path (the argument is a non-nil pointer
to the destination, so `value` lands in its pointee). -/
def dValueTop (t : Ty) (cur : Val) : DecM (Val × Option GoErr) :=
  if dFastHandled t then do
    let v ← dFastValue t
    pure (v, none)
  else dValue t cur

/-- `Decoder.Value` decoding into a `*t` destination holding `cur`:
a panic anywhere inside is recovered here and surfaced as the explicit
`io.ErrUnexpectedEOF` (EndOfData) error. -/
def DecoderValue (t : Ty) (cur : Val) (s : DState) : VRes :=
  match (dValueTop t cur).run s with
  | none => .eofErr
  | some ((v, none), _) => .okVal v
  | some ((_, some e), _) => .errVal e

/-- Bit-extraction loop of the stream backend (same code as the buffer
one, against the stream cursor). -/
def rBoolBits : Nat → Nat → Nat → List Val → RdM (List Val)
  | 0, _, _, xs => pure xs
  | n + 1, i, curByte, xs => do
      let b ← (if i % 8 = 0 then do
                  let bs ← rReserve 1
                  pure (bs.headD 0)
                else pure curByte)
      let x := b &&& (1 <<< (i % 8)) ≠ 0
      if _h : i < xs.length then
        rBoolBits n (i + 1) b (xs.set i (.bool x))
      else fun _ => none

/-- `decoderReader.boolArray`. -/
def rBoolArray (t : Ty) (cur : Val) : RdM (Int × Val) :=
  match t with
  | .slice .bool => do
      let (l, _) ← rUvarint
      let xs0 := if 0 < l then List.replicate l (Val.bool false) else valList cur
      let xs ← rBoolBits l 0 0 xs0
      pure ((sizeofBoolArray l : Int), .list xs)
  | .array _ .bool => do
      let (l, _) ← rUvarint
      let xs ← rBoolBits l 0 0 (valList cur)
      pure ((sizeofBoolArray l : Int), .list xs)
  | _ => pure (-1, cur)

/-- Element loop of the stream backend's `value` for sequences. -/
def rValueElems (dec : Val → RdM (Val × Option GoErr)) (skip : RdM Int) :
    Nat → Nat → List Val → RdM (List Val)
  | 0, _, xs => pure xs
  | n + 1, i, xs =>
      if h : i < xs.length then do
        let (v, _) ← dec xs[i]
        rValueElems dec skip n (i + 1) (xs.set i v)
      else do
        let _ ← skip
        rValueElems dec skip n (i + 1) xs

/-- Mapping loop of the stream backend's `value`. -/
def rMapElems (decK decV : Val → RdM (Val × Option GoErr)) (kd vd : Val) :
    Nat → List (Val × Val) → RdM (List (Val × Val))
  | 0, acc => pure acc
  | n + 1, acc => do
      let (k, _) ← decK kd
      let (v, _) ← decV vd
      rMapElems decK decV kd vd n (acc ++ [(k, v)])

/-- The pointee kinds `decoderReader.newPtr` allocates for (natural
int/uint and nested pointers are absent from its kind list). -/
def rPtrSupported : Ty → Bool
  | .int | .uint | .ptr _ => false
  | _ => true

/-- `decoderReader.value`.  Unlike the buffer decoder it has no
`reflect.Int`/`reflect.Uint` cases, so those destinations fall through to
the default branch, where `newPtr` (which allocates only for nil
pointers of supported pointee kind) fails and an unsupported-type error
is returned without consuming input. -/
def rValue (t : Ty) (cur : Val) : RdM (Val × Option GoErr) :=
  match t with
  | .int => pure (cur, some .unsupportedType)
  | .uint => pure (cur, some .unsupportedType)
  | .bool => do
      let b ← rBool
      pure (.bool b, none)
  | .int8 => do
      let n ← rInt8
      pure (.i8 n, none)
  | .int16 => do
      let n ← rInt16
      pure (.i16 n, none)
  | .int32 => do
      let n ← rInt32
      pure (.i32 n, none)
  | .int64 => do
      let n ← rInt64
      pure (.i64 n, none)
  | .uint8 => do
      let n ← rUint8
      pure (.u8 n, none)
  | .uint16 => do
      let n ← rUint16
      pure (.u16 n, none)
  | .uint32 => do
      let n ← rUint32
      pure (.u32 n, none)
  | .uint64 => do
      let n ← rUint64
      pure (.u64 n, none)
  | .float32 => do
      let n ← rFloat32
      pure (.f32 n, none)
  | .float64 => do
      let n ← rFloat64
      pure (.f64 n, none)
  | .complex64 => do
      let re ← rFloat32
      let im ← rFloat32
      pure (.c64 re im, none)
  | .complex128 => do
      let re ← rFloat64
      let im ← rFloat64
      pure (.c128 re im, none)
  | .str => do
      let bs ← rString
      pure (.str bs, none)
  | .slice e => do
      let (r, cur1) ← rBoolArray (.slice e) cur
      if r < 0 then do
        let (s, _) ← rUvarint
        let xs ← rValueElems (rValue e) (rSkipByType e) s 0
          (List.replicate s (defaultVal e))
        pure (.list xs, none)
      else pure (cur1, none)
  | .array n e => do
      let (r, cur1) ← rBoolArray (.array n e) cur
      if r < 0 then do
        let (s, _) ← rUvarint
        let xs ← rValueElems (rValue e) (rSkipByType e) s 0 (valList cur)
        pure (.list xs, none)
      else pure (cur1, none)
  | .map kt vt => do
      let (s, _) ← rUvarint
      let entries ← rMapElems (rValue kt) (rValue vt) (defaultVal kt) (defaultVal vt) s []
      pure (.mapv entries, none)
  | .fnil => pure (.structv [], none)
  | .fcons f incl rest => do
      let (hd, tl) := structHeadTail cur
      let hd1 ← (if incl then do
                    let (v, _) ← rValue f hd
                    pure v
                  else pure hd)
      let (restv, _) ← rValue rest (.structv tl)
      pure (.structv (hd1 :: valFields restv), none)
  | .ptr e =>
      match cur with
      | .ptrv (some _) => pure (cur, some .unsupportedType)
      | _ =>
          if rPtrSupported e then do
            let (v, err) ← rValue e (defaultVal e)
            pure (.ptrv (some v), err)
          else pure (cur, some .unsupportedType)

/-- Element types with a fast case in `decoderReader.fastValue`: the
buffer decoder's set minus natural int and uint. -/
def isRFastElem : Ty → Bool
  | .int | .uint => false
  | t => isFastElem t

/-- Destination types handled by `decoderReader.fastValue`. -/
def rFastHandled : Ty → Bool
  | .slice e => isRFastElem e
  | t => isRFastElem t

/-- Scalar/string primitive of the stream fast path. -/
def rScalarVal : Ty → RdM Val
  | .bool => do
      let b ← rBool
      pure (.bool b)
  | .int8 => do
      let n ← rInt8
      pure (.i8 n)
  | .int16 => do
      let n ← rInt16
      pure (.i16 n)
  | .int32 => do
      let n ← rInt32
      pure (.i32 n)
  | .int64 => do
      let n ← rInt64
      pure (.i64 n)
  | .uint8 => do
      let n ← rUint8
      pure (.u8 n)
  | .uint16 => do
      let n ← rUint16
      pure (.u16 n)
  | .uint32 => do
      let n ← rUint32
      pure (.u32 n)
  | .uint64 => do
      let n ← rUint64
      pure (.u64 n)
  | .float32 => do
      let n ← rFloat32
      pure (.f32 n)
  | .float64 => do
      let n ← rFloat64
      pure (.f64 n)
  | .complex64 => do
      let (re, im) ← rComplex64
      pure (.c64 re im)
  | .complex128 => do
      let (re, im) ← rComplex128
      pure (.c128 re im)
  | .str => do
      let bs ← rString
      pure (.str bs)
  | _ => pure (.structv [])

/-- Element loop of the stream fast slice cases. -/
def rFastLoop (act : RdM Val) : Nat → List Val → RdM (List Val)
  | 0, acc => pure acc
  | n + 1, acc => do
      let v ← act
      rFastLoop act n (acc ++ [v])

/-- `decoderReader.fastValue` on the types it handles. -/
def rFastValue (t : Ty) : RdM Val :=
  match t with
  | .slice .bool => do
      let (l, _) ← rUvarint
      let xs ← rBoolBits l 0 0 (List.replicate l (Val.bool false))
      pure (.list xs)
  | .slice e => do
      let (l, _) ← rUvarint
      let xs ← rFastLoop (rScalarVal e) l []
      pure (.list xs)
  | t => rScalarVal t

/-- The body of `decoderReader.Value`: fast path first, otherwise
`value(reflect.Indirect(v))`. -/
def rValueTop (t : Ty) (cur : Val) : RdM (Val × Option GoErr) :=
  if rFastHandled t then do
    let v ← rFastValue t
    pure (v, none)
  else rValue t cur

/-- `decoderReader.Value` decoding into a `*t` destination holding
`cur`.  There is no deferred recover here: a short-read panic escapes
`Value` uncaught. -/
def ReaderValue (t : Ty) (cur : Val) (r : RState) : VRes :=
  match (rValueTop t cur).run r with
  | none => .panicked
  | some ((v, none), _) => .okVal v
  | some ((_, some e), _) => .errVal e

/-- Little-endian byte split of an unsigned value into `w` bytes. -/
def toBytesLE : Nat → Nat → List Nat
  | 0, _ => []
  | w + 1, n => n % 256 :: toBytesLE w (n / 256)

/-- Modelled from the spec: the encoder collaborator's fixed-width
encoding in the configured byte order. -/
def encodeFixed (en : Endian) (w : Nat) (n : Nat) : List Nat :=
  match en with
  | .little => toBytesLE w n
  | .big => (toBytesLE w n).reverse

/-- Modelled from the spec: the encoder side of the reversible
signed↔unsigned varint transform (inverse of `ToVarint`). -/
def FromVarint (n : Int) : Nat :=
  if 0 ≤ n then 2 * n.toNat else 2 * (-(n + 1)).toNat + 1

/-- A bit-packed byte from up to eight booleans, LSB-first. -/
def boolByte (bs : List Bool) : Nat :=
  bs.foldr (fun b acc => 2 * acc + cond b 1 0) 0

/-- Modelled from the spec: bit-packing of a boolean sequence, bit `i`
into byte `i/8` at position `i%8`. -/
def packBits (xs : List Bool) : List Nat :=
  (List.range ((xs.length + 7) / 8)).map (fun k => boolByte ((xs.drop (8 * k)).take 8))

/-- The boolean carried by a bool element value. -/
def valBool : Val → Bool
  | .bool b => b
  | _ => false

/-- Whether a value is a bool element. -/
def isBoolVal : Val → Bool
  | .bool _ => true
  | _ => false

/-- Concatenated encodings of a list of element values. -/
def encodeList (enc : Val → Option (List Nat)) : List Val → Option (List Nat)
  | [] => some []
  | v :: vs => do
      let e ← enc v
      let rest ← encodeList enc vs
      pure (e ++ rest)

/-- Concatenated encodings of a list of map entries. -/
def encodePairs (encK encV : Val → Option (List Nat)) :
    List (Val × Val) → Option (List Nat)
  | [] => some []
  | (k, v) :: es => do
      let ek ← encK k
      let ev ← encV v
      let rest ← encodePairs encK encV es
      pure (ek ++ ev ++ rest)

/-- Modelled from the spec: the wire encoding produced by the symmetric
encoder for a well-typed value of a given shape (§6 of the spec):
bool is one byte, fixed-width scalars use the configured byte order,
natural int/uint are varints (signed through the transform), text and
sequences carry a uvarint count prefix, bool sequences are bit-packed,
records concatenate included fields (excluded fields contribute zero
bytes), references encode the pointee directly.  `none` for values that
are ill-typed, out of range, or not encodable (nil references). -/
def encodeVal (en : Endian) : Ty → Val → Option (List Nat)
  | .bool, v =>
      match v with
      | .bool b => some [cond b 1 0]
      | _ => none
  | .int8, v =>
      match v with
      | .i8 n => if -128 ≤ n ∧ n < 128 then some [(n % 256).toNat] else none
      | _ => none
  | .uint8, v =>
      match v with
      | .u8 n => if n < 256 then some [n] else none
      | _ => none
  | .int16, v =>
      match v with
      | .i16 n =>
          if -(2 ^ 15) ≤ n ∧ n < 2 ^ 15 then
            some (encodeFixed en 2 (n % (2 ^ 16 : Int)).toNat)
          else none
      | _ => none
  | .uint16, v =>
      match v with
      | .u16 n => if n < 2 ^ 16 then some (encodeFixed en 2 n) else none
      | _ => none
  | .int32, v =>
      match v with
      | .i32 n =>
          if -(2 ^ 31) ≤ n ∧ n < 2 ^ 31 then
            some (encodeFixed en 4 (n % (2 ^ 32 : Int)).toNat)
          else none
      | _ => none
  | .uint32, v =>
      match v with
      | .u32 n => if n < 2 ^ 32 then some (encodeFixed en 4 n) else none
      | _ => none
  | .int64, v =>
      match v with
      | .i64 n =>
          if -(2 ^ 63) ≤ n ∧ n < 2 ^ 63 then
            some (encodeFixed en 8 (n % (2 ^ 64 : Int)).toNat)
          else none
      | _ => none
  | .uint64, v =>
      match v with
      | .u64 n => if n < 2 ^ 64 then some (encodeFixed en 8 n) else none
      | _ => none
  | .float32, v =>
      match v with
      | .f32 b => if b < 2 ^ 32 then some (encodeFixed en 4 b) else none
      | _ => none
  | .float64, v =>
      match v with
      | .f64 b => if b < 2 ^ 64 then some (encodeFixed en 8 b) else none
      | _ => none
  | .complex64, v =>
      match v with
      | .c64 re im =>
          if re < 2 ^ 32 ∧ im < 2 ^ 32 then
            some (encodeFixed en 4 re ++ encodeFixed en 4 im)
          else none
      | _ => none
  | .complex128, v =>
      match v with
      | .c128 re im =>
          if re < 2 ^ 64 ∧ im < 2 ^ 64 then
            some (encodeFixed en 8 re ++ encodeFixed en 8 im)
          else none
      | _ => none
  | .str, v =>
      match v with
      | .str bs => if bs.length < 2 ^ 64 then some (uvarintEncode bs.length ++ bs) else none
      | _ => none
  | .int, v =>
      match v with
      | .int n =>
          if -(2 ^ 63) ≤ n ∧ n < 2 ^ 63 then some (uvarintEncode (FromVarint n)) else none
      | _ => none
  | .uint, v =>
      match v with
      | .uint n => if n < 2 ^ 64 then some (uvarintEncode n) else none
      | _ => none
  | .slice e, v =>
      match v with
      | .list xs =>
          match e with
          | .bool =>
              if xs.length < 2 ^ 64 ∧ xs.all isBoolVal then
                some (uvarintEncode xs.length ++ packBits (xs.map valBool))
              else none
          | _ =>
              if xs.length < 2 ^ 64 then do
                let body ← encodeList (encodeVal en e) xs
                pure (uvarintEncode xs.length ++ body)
              else none
      | _ => none
  | .array n e, v =>
      match v with
      | .list xs =>
          match e with
          | .bool =>
              if xs.length = n ∧ n < 2 ^ 64 ∧ xs.all isBoolVal then
                some (uvarintEncode n ++ packBits (xs.map valBool))
              else none
          | _ =>
              if xs.length = n ∧ n < 2 ^ 64 then do
                let body ← encodeList (encodeVal en e) xs
                pure (uvarintEncode n ++ body)
              else none
      | _ => none
  | .map kt vt, v =>
      match v with
      | .mapv es =>
          if es.length < 2 ^ 64 then do
            let body ← encodePairs (encodeVal en kt) (encodeVal en vt) es
            pure (uvarintEncode es.length ++ body)
          else none
      | _ => none
  | .fnil, v =>
      match v with
      | .structv vs =>
          match vs with
          | [] => some []
          | _ => none
      | _ => none
  | .fcons f incl rest, v =>
      match v with
      | .structv vs =>
          match vs with
          | v1 :: vrest => do
              let e1 ← (if incl then encodeVal en f v1 else some [])
              let er ← encodeVal en rest (.structv vrest)
              pure (e1 ++ er)
          | _ => none
      | _ => none
  | .ptr e, v =>
      match v with
      | .ptrv (some w) => encodeVal en e w
      | _ => none

/-- Well-typedness of a destination value for a shape (what Go's static
types guarantee about the destination the engine writes into). -/
def wfVal : Ty → Val → Bool
  | .bool, .bool _ => true
  | .int8, .i8 _ => true
  | .uint8, .u8 _ => true
  | .int16, .i16 _ => true
  | .uint16, .u16 _ => true
  | .int32, .i32 _ => true
  | .uint32, .u32 _ => true
  | .int64, .i64 _ => true
  | .uint64, .u64 _ => true
  | .float32, .f32 _ => true
  | .float64, .f64 _ => true
  | .complex64, .c64 _ _ => true
  | .complex128, .c128 _ _ => true
  | .str, .str _ => true
  | .int, .int _ => true
  | .uint, .uint _ => true
  | .slice e, .list xs => xs.all (wfVal e)
  | .array n e, .list xs => xs.length = n && xs.all (wfVal e)
  | .map kt vt, .mapv es => es.all (fun p => wfVal kt p.1 && wfVal vt p.2)
  | .fnil, .structv vs => vs.isEmpty
  | .fcons f _ rest, .structv (v :: vs) => wfVal f v && wfVal rest (.structv vs)
  | .ptr _, .ptrv none => true
  | .ptr e, .ptrv (some v) => wfVal e v
  | _, _ => false

/-- Shapes none of whose record fields are excluded. -/
def noExcl : Ty → Bool
  | .slice e => noExcl e
  | .array _ e => noExcl e
  | .map kt vt => noExcl kt && noExcl vt
  | .fnil => true
  | .fcons f incl rest => incl && noExcl f && noExcl rest
  | .ptr e => noExcl e
  | _ => true

/-- Shapes without reference (pointer) components. -/
def noPtr : Ty → Bool
  | .slice e => noPtr e
  | .array _ e => noPtr e
  | .map kt vt => noPtr kt && noPtr vt
  | .fnil => true
  | .fcons f _ rest => noPtr f && noPtr rest
  | .ptr _ => false
  | _ => true

/-- Shapes without natural int/uint components (the kinds the stream
backend does not support). -/
def noIntUint : Ty → Bool
  | .int => false
  | .uint => false
  | .slice e => noIntUint e
  | .array _ e => noIntUint e
  | .map kt vt => noIntUint kt && noIntUint vt
  | .fnil => true
  | .fcons f _ rest => noIntUint f && noIntUint rest
  | .ptr e => noIntUint e
  | _ => true

/-- The value that decoding an encoding of `v` into a fresh default
destination materializes: excluded record fields are not on the wire
and keep the destination's default, everything else round-trips. -/
def patchExcl : Ty → Val → Val
  | .slice e, .list xs => .list (xs.map (patchExcl e))
  | .array _ e, .list xs => .list (xs.map (patchExcl e))
  | .map kt vt, .mapv es =>
      .mapv (es.map (fun p => (patchExcl kt p.1, patchExcl vt p.2)))
  | .fcons f incl rest, .structv vs =>
      match vs with
      | v1 :: vrest =>
          .structv ((if incl then patchExcl f v1 else defaultVal f) ::
            valFields (patchExcl rest (.structv vrest)))
      | [] => .structv []
  | .ptr e, .ptrv (some w) => .ptrv (some (patchExcl e w))
  | _, v => v

/-- Advancing the buffer cursor by `n` bytes. -/
def advance (s : DState) (n : Nat) : DState := ⟨s.buff, s.pos + n, s.endian⟩

/-- The buffer cursor stands before exactly the bytes `bs`. -/
def DAt (s : DState) (bs : List Nat) : Prop :=
  s.pos ≤ s.buff.length ∧ s.buff.drop s.pos = bs

theorem advance_advance (s : DState) (m n : Nat) :
    advance (advance s m) n = advance s (m + n) := by
  simp [advance, Nat.add_assoc]

theorem advance_zero (s : DState) : advance s 0 = s := rfl

theorem DAt_advance {s : DState} {bs : List Nat} (h : DAt s bs) (n : Nat)
    (hn : n ≤ bs.length) : DAt (advance s n) (bs.drop n) := by
  obtain ⟨h1, h2⟩ := h
  have hlen : bs.length = s.buff.length - s.pos := by
    rw [← h2]; simp
  constructor
  · simp only [advance]; omega
  · simp only [advance]
    rw [← List.drop_drop]
    · rw [h2]
    
theorem DAt_buff {s : DState} {bs : List Nat} (h : DAt s bs) :
    bs.length = s.buff.length - s.pos := by
  obtain ⟨h1, h2⟩ := h
  rw [← h2]; simp

theorem dReserve_at {s : DState} {bs : List Nat} (h : DAt s bs) (n : Nat)
    (hn : n ≤ bs.length) :
    (dReserve n).run s = some (bs.take n, advance s n) := by
  obtain ⟨h1, h2⟩ := h
  have hlen : bs.length = s.buff.length - s.pos := by rw [← h2]; simp
  simp only [dReserve, StateT.run, advance]
  rw [if_pos (by omega), h2]

theorem dReserve_none {s : DState} {bs : List Nat} (h : DAt s bs) (n : Nat)
    (hn : bs.length < n) :
    (dReserve n).run s = none := by
  obtain ⟨h1, h2⟩ := h
  have hlen : bs.length = s.buff.length - s.pos := by rw [← h2]; simp
  simp only [dReserve, StateT.run]
  rw [if_neg (by omega)]

theorem dUint8_at {s : DState} {b : Nat} {bs : List Nat} (h : DAt s (b :: bs)) :
    dUint8.run s = some (b, advance s 1) := by
  have := dReserve_at h 1 (by simp)
  simp only [dUint8, StateT.run_bind, this, Option.bind_eq_bind, Option.bind_some]
  simp [StateT.run_pure]

theorem dBool_at {s : DState} {b : Nat} {bs : List Nat} (h : DAt s (b :: bs)) :
    dBool.run s = some (decide (b ≠ 0), advance s 1) := by
  have := dReserve_at h 1 (by simp)
  simp only [dBool, StateT.run_bind, this, Option.bind_eq_bind, Option.bind_some]
  simp [StateT.run_pure]

theorem orShift (k a b : Nat) (h : a < 2 ^ k) : a ||| (b <<< k) = a + b * 2 ^ k := by
  induction k generalizing a b with
  | zero =>
      interval_cases a
      simp [Nat.shiftLeft_eq]
  | succ k ih =>
      have hbit : ∀ (c : Bool) (x y : Nat), Nat.bit c x ||| Nat.bit false y = Nat.bit c (x ||| y) := by
        intro c x y
        have := Nat.lor_bit c x false y
        simpa using this
      have ha : a = Nat.bit (a % 2 = 1) (a / 2) := by
        rcases Nat.mod_two_eq_zero_or_one a with h0 | h0 <;> simp [Nat.bit, h0] <;> omega
      have hb : b <<< (k + 1) = Nat.bit false (b <<< k) := by
        simp [Nat.bit, Nat.shiftLeft_eq, Nat.pow_succ]; ring
      have h2 : a / 2 < 2 ^ k := by
        rw [Nat.pow_succ] at h; omega
      rw [ha, hb, hbit, Nat.bit_val, ih _ b h2]
      have hs : b <<< k = b * 2 ^ k := Nat.shiftLeft_eq b k
      rcases Nat.mod_two_eq_zero_or_one a with h0 | h0 <;>
        simp [h0, Nat.bit_val, Nat.pow_succ] <;> ring_nf

theorem and127 (b : Nat) : b &&& 127 = b % 128 := by
  have := Nat.and_pow_two_sub_one_eq_mod b 7
  norm_num at this
  exact this

theorem uvarintEncAux_length_le (fuel : Nat) :
    ∀ v, (uvarintEncAux fuel v).length ≤ fuel := by
  induction fuel with
  | zero => intro v; simp [uvarintEncAux]
  | succ f ih =>
      intro v
      by_cases h : v < 0x80
      · simp [uvarintEncAux, h]
      · simp only [uvarintEncAux, if_neg h, List.length_cons]
        have := ih (v / 0x80)
        omega

theorem dUvarintGo_enc (fuel : Nat) :
    ∀ (v x i : Nat) (s : DState) (rest : List Nat),
      v < 2 ^ (64 - 7 * i) → i + fuel = 10 → i ≤ 9 → x < 2 ^ (7 * i) →
      DAt s (uvarintEncAux fuel v ++ rest) →
      (dUvarintGo fuel x (7 * i) i).run s =
        some ((x + v * 2 ^ (7 * i), (i : Int) + (uvarintEncAux fuel v).length),
          advance s (uvarintEncAux fuel v).length) := by
  induction fuel with
  | zero => intro v x i s rest _ hf hi _ _; omega
  | succ f ih =>
      intro v x i s rest hv hf hi hx hat
      by_cases hsmall : v < 0x80
      · -- final byte
        have henc : uvarintEncAux (f + 1) v = [v] := by simp [uvarintEncAux, hsmall]
        rw [henc] at hat ⊢
        have hb : dUint8.run s = some (v, advance s 1) := dUint8_at (by simpa using hat)
        have hnotov : ¬(9 < i ∨ (i = 9 ∧ 1 < v)) := by
          rintro (h9 | ⟨h9, h1⟩)
          · omega
          · subst h9
            have : v < 2 ^ (64 - 7 * 9) := hv
            norm_num at this
            omega
        have hand : v &&& 0x7f = v := by
          rw [and127]; omega
        simp only [dUvarintGo, StateT.run_bind, hb, Option.bind_eq_bind, Option.some_bind]
        rw [hand, if_pos hsmall, if_neg hnotov]
        have hor : x ||| (v <<< (7 * i)) = x + v * 2 ^ (7 * i) := orShift _ _ _ hx
        simp [StateT.run_pure, hor]
      · -- continuation byte
        have henc : uvarintEncAux (f + 1) v =
            (v % 0x80 + 0x80) :: uvarintEncAux f (v / 0x80) := by
          simp [uvarintEncAux, hsmall]
        rw [henc] at hat ⊢
        have hb : dUint8.run s = some (v % 0x80 + 0x80, advance s 1) :=
          dUint8_at (by simpa using hat)
        have hge : ¬(v % 0x80 + 0x80 < 0x80) := by omega
        have hi8 : i ≤ 8 := by
          by_contra hgt
          have : i = 9 := by omega
          subst this
          have : v < 2 ^ (64 - 7 * 9) := hv
          norm_num at this
          omega
        have hand : (v % 0x80 + 0x80) &&& 0x7f = v % 0x80 := by
          rw [and127]; omega
        have hpow : (2 : Nat) ^ (7 * (i + 1)) = 2 ^ (7 * i) * 128 := by
          have : 7 * (i + 1) = 7 * i + 7 := by ring
          rw [this, pow_add]
          norm_num
        have hx1 : x ||| ((v % 0x80) <<< (7 * i)) = x + (v % 0x80) * 2 ^ (7 * i) :=
          orShift _ _ _ hx
        have hx2 : x + (v % 0x80) * 2 ^ (7 * i) < 2 ^ (7 * (i + 1)) := by
          rw [hpow]
          have h1 : v % 0x80 < 128 := by omega
          nlinarith [hx, Nat.mul_le_mul_right (2 ^ (7 * i)) (show v % 0x80 ≤ 127 by omega)]
        have hv1 : v / 0x80 < 2 ^ (64 - 7 * (i + 1)) := by
          have hgt7 : 7 < 64 - 7 * i := by
            by_contra hle
            have : (2 : Nat) ^ (64 - 7 * i) ≤ 2 ^ 7 := Nat.pow_le_pow_right (by norm_num) (by omega)
            norm_num at this
            omega
          have heq : 64 - 7 * i = (64 - 7 * (i + 1)) + 7 := by omega
          rw [heq, pow_add] at hv
          norm_num at hv
          omega
        have hat1 : DAt (advance s 1) (uvarintEncAux f (v / 0x80) ++ rest) := by
          have := DAt_advance hat 1 (by simp)
          simpa using this
        have hbit : 7 * i + 7 = 7 * (i + 1) := by ring
        have ihres := ih (v / 0x80) (x + (v % 0x80) * 2 ^ (7 * i)) (i + 1)
          (advance s 1) rest hv1 (by omega) (by omega) hx2 hat1
        simp only [dUvarintGo, StateT.run_bind, hb, Option.bind_eq_bind, Option.some_bind]
        rw [hand, if_neg hge, hx1, hbit, ihres]
        rw [advance_advance]
        have hval : x + (v % 0x80) * 2 ^ (7 * i) + v / 0x80 * 2 ^ (7 * (i + 1)) =
            x + v * 2 ^ (7 * i) := by
          rw [hpow]
          have := Nat.div_add_mod v 0x80
          nlinarith [this]
        rw [hval]
        simp only [List.length_cons]
        rw [Nat.add_comm 1 (uvarintEncAux f (v / 0x80)).length]
        congr 2
        push_cast
        ring

theorem dUvarint_enc {v : Nat} (hv : v < 2 ^ 64) {s : DState} {rest : List Nat}
    (hat : DAt s (uvarintEncode v ++ rest)) :
    dUvarint.run s =
      some ((v, ((uvarintEncode v).length : Int)), advance s (uvarintEncode v).length) := by
  have := dUvarintGo_enc 10 v 0 0 s rest (by simpa using hv) (by norm_num) (by norm_num)
    (by norm_num) (by simpa [uvarintEncode] using hat)
  simpa [dUvarint, MaxVarintLen64, uvarintEncode] using this

theorem rReserve_pre {bs rest : List Nat} {e : Endian} {n : Nat} (hn : n ≤ bs.length) :
    (rReserve n).run ⟨bs ++ rest, e⟩ = some (bs.take n ++ (rest.take (n - bs.length)), ⟨bs.drop n ++ rest.drop (n - bs.length), e⟩) := by
  simp only [rReserve, StateT.run]
  rw [if_pos (by simp; omega)]
  rw [List.take_append_eq_append_take, List.drop_append_eq_append_drop]

theorem rUint8_pre {b : Nat} {bs : List Nat} {e : Endian} :
    rUint8.run ⟨b :: bs, e⟩ = some (b, ⟨bs, e⟩) := by
  have h : ([b] : List Nat) ++ bs = b :: bs := rfl
  have := @rReserve_pre [b] bs e 1 (by simp)
  simp only [rUint8, StateT.run_bind]
  rw [h] at this
  rw [this]
  simp [StateT.run_pure]

theorem rBool_pre {b : Nat} {bs : List Nat} {e : Endian} :
    rBool.run ⟨b :: bs, e⟩ = some (decide (b ≠ 0), ⟨bs, e⟩) := by
  have h : ([b] : List Nat) ++ bs = b :: bs := rfl
  have := @rReserve_pre [b] bs e 1 (by simp)
  simp only [rBool, StateT.run_bind]
  rw [h] at this
  rw [this]
  simp [StateT.run_pure]

theorem rUvarintGo_enc (fuel : Nat) :
    ∀ (v x i : Nat) (e : Endian) (rest : List Nat),
      v < 2 ^ (64 - 7 * i) → i + fuel = 10 → i ≤ 9 → x < 2 ^ (7 * i) →
      (rUvarintGo fuel x (7 * i) i).run ⟨uvarintEncAux fuel v ++ rest, e⟩ =
        some ((x + v * 2 ^ (7 * i), (i : Int) + (uvarintEncAux fuel v).length), ⟨rest, e⟩) := by
  induction fuel with
  | zero => intro v x i e rest _ hf hi _; omega
  | succ f ih =>
      intro v x i e rest hv hf hi hx
      by_cases hsmall : v < 0x80
      · have henc : uvarintEncAux (f + 1) v = [v] := by simp [uvarintEncAux, hsmall]
        rw [henc]
        have hnotov : ¬(9 < i ∨ (i = 9 ∧ 1 < v)) := by
          rintro (h9 | ⟨h9, h1⟩)
          · omega
          · subst h9
            have : v < 2 ^ (64 - 7 * 9) := hv
            norm_num at this
            omega
        have hor : x ||| (v <<< (7 * i)) = x + v * 2 ^ (7 * i) := orShift _ _ _ hx
        simp only [rUvarintGo, StateT.run_bind, List.cons_append, List.nil_append,
          rUint8_pre, Option.bind_eq_bind, Option.some_bind]
        rw [if_pos hsmall, if_neg hnotov]
        simp [StateT.run_pure, hor]
      · have henc : uvarintEncAux (f + 1) v =
            (v % 0x80 + 0x80) :: uvarintEncAux f (v / 0x80) := by
          simp [uvarintEncAux, hsmall]
        rw [henc]
        have hge : ¬(v % 0x80 + 0x80 < 0x80) := by omega
        have hi8 : i ≤ 8 := by
          by_contra hgt
          have : i = 9 := by omega
          subst this
          have : v < 2 ^ (64 - 7 * 9) := hv
          norm_num at this
          omega
        have hand : (v % 0x80 + 0x80) &&& 0x7f = v % 0x80 := by
          rw [and127]; omega
        have hpow : (2 : Nat) ^ (7 * (i + 1)) = 2 ^ (7 * i) * 128 := by
          have : 7 * (i + 1) = 7 * i + 7 := by ring
          rw [this, pow_add]
          norm_num
        have hx1 : x ||| ((v % 0x80) <<< (7 * i)) = x + (v % 0x80) * 2 ^ (7 * i) :=
          orShift _ _ _ hx
        have hx2 : x + (v % 0x80) * 2 ^ (7 * i) < 2 ^ (7 * (i + 1)) := by
          rw [hpow]
          nlinarith [hx, Nat.mul_le_mul_right (2 ^ (7 * i)) (show v % 0x80 ≤ 127 by omega)]
        have hv1 : v / 0x80 < 2 ^ (64 - 7 * (i + 1)) := by
          have hgt7 : 7 < 64 - 7 * i := by
            by_contra hle
            have : (2 : Nat) ^ (64 - 7 * i) ≤ 2 ^ 7 := Nat.pow_le_pow_right (by norm_num) (by omega)
            norm_num at this
            omega
          have heq : 64 - 7 * i = (64 - 7 * (i + 1)) + 7 := by omega
          rw [heq, pow_add] at hv
          norm_num at hv
          omega
        have hbit : 7 * i + 7 = 7 * (i + 1) := by ring
        have ihres := ih (v / 0x80) (x + (v % 0x80) * 2 ^ (7 * i)) (i + 1)
          e rest hv1 (by omega) (by omega) hx2
        simp only [rUvarintGo, StateT.run_bind, List.cons_append, rUint8_pre,
          Option.bind_eq_bind, Option.some_bind]
        rw [if_neg hge, hand, hx1, hbit, ihres]
        have hval : x + (v % 0x80) * 2 ^ (7 * i) + v / 0x80 * 2 ^ (7 * (i + 1)) =
            x + v * 2 ^ (7 * i) := by
          rw [hpow]
          have := Nat.div_add_mod v 0x80
          nlinarith [this]
        rw [hval]
        simp only [List.length_cons]
        congr 2
        push_cast
        ring

theorem rUvarint_enc {v : Nat} (hv : v < 2 ^ 64) {e : Endian} {rest : List Nat} :
    rUvarint.run ⟨uvarintEncode v ++ rest, e⟩ =
      some ((v, ((uvarintEncode v).length : Int)), ⟨rest, e⟩) := by
  have := rUvarintGo_enc 10 v 0 0 e rest (by simpa using hv) (by norm_num) (by norm_num)
    (by norm_num)
  simpa [rUvarint, MaxVarintLen64, uvarintEncode] using this

theorem dUvarintGo_cont (bs : List Nat) :
    ∀ (fuel x bit i : Nat) (s : DState) (rest : List Nat),
      (∀ c ∈ bs, 0x80 ≤ c) → bs.length = fuel → DAt s (bs ++ rest) →
      (dUvarintGo fuel x bit i).run s = some ((0, 0), advance s fuel) := by
  induction bs with
  | nil =>
      intro fuel x bit i s rest _ hlen hat
      have : fuel = 0 := by simpa using hlen.symm
      subst this
      simp [dUvarintGo, StateT.run_pure, advance_zero]
  | cons c cs ih =>
      intro fuel x bit i s rest hall hlen hat
      obtain ⟨f, rfl⟩ : ∃ f, fuel = f + 1 := ⟨cs.length, by simpa using hlen.symm⟩
      have hb : dUint8.run s = some (c, advance s 1) := dUint8_at (by simpa using hat)
      have hge : ¬(c < 0x80) := by
        have := hall c (by simp)
        omega
      have hat1 : DAt (advance s 1) (cs ++ rest) := by
        have := DAt_advance hat 1 (by simp)
        simpa using this
      have ihres := ih f (x ||| ((c &&& 0x7f) <<< bit)) (bit + 7) (i + 1) (advance s 1) rest
        (fun d hd => hall d (by simp [hd])) (by simpa using hlen) hat1
      simp only [dUvarintGo, StateT.run_bind, hb, Option.bind_eq_bind, Option.some_bind]
      rw [if_neg hge, ihres, advance_advance]
      simp [Nat.add_comm]

theorem dUvarintGo_big (bs : List Nat) :
    ∀ (fuel x bit i : Nat) (b : Nat) (s : DState) (rest : List Nat),
      (∀ c ∈ bs, 0x80 ≤ c) → i + fuel = 10 → i + bs.length = 9 →
      b < 0x80 → 1 < b → DAt s (bs ++ b :: rest) →
      (dUvarintGo fuel x bit i).run s = some ((0, -10), advance s (bs.length + 1)) := by
  induction bs with
  | nil =>
      intro fuel x bit i b s rest _ hf hi hb h1 hat
      have hi9 : i = 9 := by simpa using hi
      obtain ⟨f, rfl⟩ : ∃ f, fuel = f + 1 := ⟨fuel - 1, by omega⟩
      have hbr : dUint8.run s = some (b, advance s 1) := dUint8_at (by simpa using hat)
      simp only [dUvarintGo, StateT.run_bind, hbr, Option.bind_eq_bind, Option.some_bind]
      rw [if_pos hb, if_pos (by right; exact ⟨hi9, h1⟩)]
      simp [StateT.run_pure, hi9]
  | cons c cs ih =>
      intro fuel x bit i b s rest hall hf hi hb h1 hat
      obtain ⟨f, rfl⟩ : ∃ f, fuel = f + 1 := ⟨fuel - 1, by simp at hi; omega⟩
      have hbr : dUint8.run s = some (c, advance s 1) := dUint8_at (by simpa using hat)
      have hge : ¬(c < 0x80) := by
        have := hall c (by simp)
        omega
      have hat1 : DAt (advance s 1) (cs ++ b :: rest) := by
        have := DAt_advance hat 1 (by simp)
        simpa using this
      have ihres := ih f (x ||| ((c &&& 0x7f) <<< bit)) (bit + 7) (i + 1) b (advance s 1) rest
        (fun d hd => hall d (by simp [hd])) (by omega) (by simp at hi; omega) hb h1 hat1
      simp only [dUvarintGo, StateT.run_bind, hbr, Option.bind_eq_bind, Option.some_bind]
      rw [if_neg hge, ihres, advance_advance]
      simp [Nat.add_comm]

theorem rUvarintGo_cont (bs : List Nat) :
    ∀ (fuel x bit i : Nat) (e : Endian) (rest : List Nat),
      (∀ c ∈ bs, 0x80 ≤ c) → bs.length = fuel →
      (rUvarintGo fuel x bit i).run ⟨bs ++ rest, e⟩ = some ((0, 0), ⟨rest, e⟩) := by
  induction bs with
  | nil =>
      intro fuel x bit i e rest _ hlen
      have : fuel = 0 := by simpa using hlen.symm
      subst this
      simp [rUvarintGo, StateT.run_pure]
  | cons c cs ih =>
      intro fuel x bit i e rest hall hlen
      obtain ⟨f, rfl⟩ : ∃ f, fuel = f + 1 := ⟨cs.length, by simpa using hlen.symm⟩
      have hge : ¬(c < 0x80) := by
        have := hall c (by simp)
        omega
      have ihres := ih f (x ||| ((c &&& 0x7f) <<< bit)) (bit + 7) (i + 1) e rest
        (fun d hd => hall d (by simp [hd])) (by simpa using hlen)
      simp only [rUvarintGo, StateT.run_bind, List.cons_append, rUint8_pre,
        Option.bind_eq_bind, Option.some_bind]
      rw [if_neg hge, ihres]

theorem rUvarintGo_big (bs : List Nat) :
    ∀ (fuel x bit i : Nat) (b : Nat) (e : Endian) (rest : List Nat),
      (∀ c ∈ bs, 0x80 ≤ c) → i + fuel = 10 → i + bs.length = 9 →
      b < 0x80 → 1 < b →
      (rUvarintGo fuel x bit i).run ⟨bs ++ b :: rest, e⟩ = some ((0, -10), ⟨rest, e⟩) := by
  induction bs with
  | nil =>
      intro fuel x bit i b e rest _ hf hi hb h1
      have hi9 : i = 9 := by simpa using hi
      obtain ⟨f, rfl⟩ : ∃ f, fuel = f + 1 := ⟨fuel - 1, by omega⟩
      simp only [rUvarintGo, StateT.run_bind, List.cons_append, List.nil_append,
        rUint8_pre, Option.bind_eq_bind, Option.some_bind]
      rw [if_pos hb, if_pos (by right; exact ⟨hi9, h1⟩)]
      simp [StateT.run_pure, hi9]
  | cons c cs ih =>
      intro fuel x bit i b e rest hall hf hi hb h1
      obtain ⟨f, rfl⟩ : ∃ f, fuel = f + 1 := ⟨fuel - 1, by simp at hi; omega⟩
      have hge : ¬(c < 0x80) := by
        have := hall c (by simp)
        omega
      have ihres := ih f (x ||| ((c &&& 0x7f) <<< bit)) (bit + 7) (i + 1) b e rest
        (fun d hd => hall d (by simp [hd])) (by omega) (by simp at hi; omega) hb h1
      simp only [rUvarintGo, StateT.run_bind, List.cons_append, rUint8_pre,
        Option.bind_eq_bind, Option.some_bind]
      rw [if_neg hge, ihres]

theorem uvarintEncode_length_pos (v : Nat) : 1 ≤ (uvarintEncode v).length := by
  by_cases h : v < 0x80 <;> simp [uvarintEncode, uvarintEncAux, h]

/-- C3: for every unsigned 64-bit value, decoding its minimal
LEB128-style varint encoding with `Uvarint` — through either backend —
returns that value together with a byte count between 1 and 10 equal to
the length of the minimal encoding (and consumes exactly that many
bytes). -/
theorem C3_uvarint_totality (v : Nat) (hv : v < 2 ^ 64) (s : DState)
    (rest : List Nat) (e : Endian) (hat : DAt s (uvarintEncode v ++ rest)) :
    dUvarint.run s =
      some ((v, ((uvarintEncode v).length : Int)), advance s (uvarintEncode v).length) ∧
    rUvarint.run ⟨uvarintEncode v ++ rest, e⟩ =
      some ((v, ((uvarintEncode v).length : Int)), ⟨rest, e⟩) ∧
    1 ≤ (uvarintEncode v).length ∧ (uvarintEncode v).length ≤ 10 :=
  ⟨dUvarint_enc hv hat, rUvarint_enc hv,
    uvarintEncode_length_pos v, uvarintEncAux_length_le 10 v⟩

/-- Witness for C3 at `v = 300` (encoding `[0xAC, 0x02]`). -/
theorem C3_uvarint_totality_witness :
    dUvarint.run ⟨uvarintEncode 300 ++ [7], 0, .little⟩ =
      some ((300, ((uvarintEncode 300).length : Int)),
        advance ⟨uvarintEncode 300 ++ [7], 0, .little⟩ (uvarintEncode 300).length) ∧
    rUvarint.run ⟨uvarintEncode 300 ++ [7], .big⟩ =
      some ((300, ((uvarintEncode 300).length : Int)), ⟨[7], .big⟩) ∧
    1 ≤ (uvarintEncode 300).length ∧ (uvarintEncode 300).length ≤ 10 :=
  C3_uvarint_totality 300 (by norm_num) _ [7] .big ⟨by decide, by decide⟩

/-- C4 counterexample: a 10-byte sequence of continuation bytes makes
`Uvarint` fail after consuming 10 bytes, but the reported byte count is
`0`, not `-10` as the claim requires; both backends behave this way. -/
theorem C4_counterexample :
    dUvarint.run ⟨List.replicate 10 0x80, 0, .little⟩ =
      some ((0, 0), ⟨List.replicate 10 0x80, 10, .little⟩) ∧
    rUvarint.run ⟨List.replicate 10 0x80, .little⟩ = some ((0, 0), ⟨[], .little⟩) ∧
    (0 : Int) ≠ -10 := by
  refine ⟨rfl, rfl, by decide⟩

/-- C4 (amended): when the 10th byte's 7-bit payload exceeds 1 (its
continuation bit clear), `Uvarint` returns byte count `-10`, the
negation of the 10 bytes consumed; when the 10th byte still has its
continuation bit set, it instead returns byte count `0` (a nonpositive
failure sentinel, but not the negation of the bytes consumed).  Both
backends agree, consuming exactly 10 bytes in both cases. -/
theorem C4_uvarint_overflow (bs : List Nat) (hall : ∀ c ∈ bs, 0x80 ≤ c)
    (hlen : bs.length = 9) (b : Nat) (s : DState) (rest : List Nat) (e : Endian)
    (hat : DAt s (bs ++ b :: rest)) :
    (b < 0x80 → 1 < b →
      dUvarint.run s = some ((0, -10), advance s 10) ∧
      rUvarint.run ⟨bs ++ b :: rest, e⟩ = some ((0, -10), ⟨rest, e⟩)) ∧
    (0x80 ≤ b →
      dUvarint.run s = some ((0, 0), advance s 10) ∧
      rUvarint.run ⟨bs ++ b :: rest, e⟩ = some ((0, 0), ⟨rest, e⟩)) := by
  constructor
  · intro hb h1
    constructor
    · have := dUvarintGo_big bs 10 0 0 0 b s rest hall (by norm_num) (by omega) hb h1 hat
      simpa [dUvarint, MaxVarintLen64, hlen] using this
    · have := rUvarintGo_big bs 10 0 0 0 b e rest hall (by norm_num) (by omega) hb h1
      simpa [rUvarint, MaxVarintLen64] using this
  · intro hb
    have hall10 : ∀ c ∈ bs ++ [b], 0x80 ≤ c := by
      intro c hc
      rcases List.mem_append.mp hc with h | h
      · exact hall c h
      · simp at h; omega
    have hlen10 : (bs ++ [b]).length = 10 := by simp [hlen]
    have happ : (bs ++ [b]) ++ rest = bs ++ b :: rest := by simp
    constructor
    · have := dUvarintGo_cont (bs ++ [b]) 10 0 0 0 s rest hall10 hlen10 (by rw [happ]; exact hat)
      simpa [dUvarint, MaxVarintLen64] using this
    · have := rUvarintGo_cont (bs ++ [b]) 10 0 0 0 e rest hall10 hlen10
      rw [happ] at this
      simpa [rUvarint, MaxVarintLen64] using this

/-- Witness for C4 at nine `0xFF` continuation bytes and final byte
`0x7F` (payload 127 > 1): byte count `-10`. -/
theorem C4_uvarint_overflow_witness :
    dUvarint.run ⟨List.replicate 9 0xFF ++ 0x7F :: [], 0, .little⟩ =
      some ((0, -10), advance ⟨List.replicate 9 0xFF ++ 0x7F :: [], 0, .little⟩ 10) ∧
    rUvarint.run ⟨List.replicate 9 0xFF ++ 0x7F :: [], .little⟩ =
      some ((0, -10), ⟨[], .little⟩) :=
  (C4_uvarint_overflow (List.replicate 9 0xFF) (by decide) (by decide) 0x7F
    ⟨List.replicate 9 0xFF ++ 0x7F :: [], 0, .little⟩ [] .little
    ⟨by decide, by decide⟩).1 (by decide) (by decide)

/-- C10: in the stream-backed decoder a reference destination is freshly
allocated (with the pointee's zero value) only when the pointer is nil
and the pointee kind is in `newPtr`'s supported list; a non-nil pointer
is not reused or overwritten — `value` returns an unsupported-type error
and consumes nothing; a nil pointer of unsupported pointee kind also
errors without consuming. -/
theorem C10_reader_ptr (e : Ty) (v0 : Val) (r : RState) :
    (rValue (.ptr e) (.ptrv (some v0))).run r =
      some ((.ptrv (some v0), some .unsupportedType), r) ∧
    (rPtrSupported e = true →
      (rValue (.ptr e) (.ptrv none)).run r =
        (rValue e (defaultVal e) >>= fun p => pure (Val.ptrv (some p.1), p.2)).run r) ∧
    (rPtrSupported e = false →
      (rValue (.ptr e) (.ptrv none)).run r =
        some ((.ptrv none, some .unsupportedType), r)) := by
  refine ⟨?_, ?_, ?_⟩
  · simp [rValue, StateT.run_pure]
  · intro hs
    simp [rValue, hs]
  · intro hs
    simp [rValue, hs, StateT.run_pure]

/-- Witness for C10: a non-nil `**uint8`-style destination errors
without consuming; a nil one decodes a fresh pointee. -/
theorem C10_reader_ptr_witness :
    (rValue (.ptr .uint8) (.ptrv (some (.u8 3)))).run ⟨[9], .little⟩ =
      some ((.ptrv (some (.u8 3)), some .unsupportedType), ⟨[9], .little⟩) ∧
    (rValue (.ptr .uint8) (.ptrv none)).run ⟨[9], .little⟩ =
      (rValue .uint8 (defaultVal .uint8) >>=
        fun p => pure (Val.ptrv (some p.1), p.2)).run ⟨[9], .little⟩ :=
  ⟨(C10_reader_ptr .uint8 (.u8 3) ⟨[9], .little⟩).1,
   (C10_reader_ptr .uint8 (.u8 3) ⟨[9], .little⟩).2.1 rfl⟩

/-- C6 counterexample: on a truncated 8-byte read the buffer backend's
`Value` returns the explicit EndOfData error, but the stream backend's
`Value` has no deferred recover — the fault escapes the entry point
uncaught instead of being caught exactly once there. -/
theorem C6_counterexample :
    DecoderValue .uint64 (.u64 0) ⟨[1, 2, 3], 0, .little⟩ = .eofErr ∧
    ReaderValue .uint64 (.u64 0) ⟨[1, 2, 3], .little⟩ = .panicked ∧
    VRes.panicked ≠ VRes.eofErr := by
  refine ⟨rfl, rfl, by simp⟩

/-- C6 (amended): a primitive short read raises a non-local fault that
the buffer backend's `Value` catches exactly once at the entry point and
converts into the explicit EndOfData error — `Decoder.Value` never lets
the fault escape; the stream backend's `Value`, however, has no recover,
so the same fault escapes `decoderReader.Value` uncaught. -/
theorem C6_eof_handling (t : Ty) (cur : Val) (s : DState) (r : RState) :
    ((dValueTop t cur).run s = none → DecoderValue t cur s = .eofErr) ∧
    DecoderValue t cur s ≠ .panicked ∧
    ((rValueTop t cur).run r = none → ReaderValue t cur r = .panicked) := by
  refine ⟨?_, ?_, ?_⟩
  · intro h
    simp [DecoderValue, h]
  · cases h : (dValueTop t cur).run s with
    | none => simp [DecoderValue, h]
    | some p =>
        obtain ⟨⟨v, err⟩, s1⟩ := p
        cases err <;> simp [DecoderValue, h]
  · intro h
    simp [ReaderValue, h]

/-- Witness for C6 on a 3-byte buffer with an 8-byte destination. -/
theorem C6_eof_handling_witness :
    DecoderValue .uint64 (.u64 0) ⟨[1, 2, 3], 0, .little⟩ = .eofErr ∧
    ReaderValue .uint64 (.u64 0) ⟨[1, 2, 3], .little⟩ = .panicked :=
  ⟨(C6_eof_handling .uint64 (.u64 0) ⟨[1, 2, 3], 0, .little⟩ ⟨[1, 2, 3], .little⟩).1 rfl,
   (C6_eof_handling .uint64 (.u64 0) ⟨[1, 2, 3], 0, .little⟩ ⟨[1, 2, 3], .little⟩).2.2 rfl⟩

/-- C7 counterexample: a 10-byte overflowing varint as a string's
byte-length prefix makes `Uvarint` report the negative sentinel `-10`,
yet `String` ignores it, decodes the empty string, and the whole
`Value` call succeeds with a nil error — the failure is silently
swallowed, not propagated. -/
theorem C7_counterexample :
    dUvarint.run ⟨List.replicate 9 0xFF ++ [0x7F], 0, .little⟩ =
      some ((0, -10), ⟨List.replicate 9 0xFF ++ [0x7F], 10, .little⟩) ∧
    DecoderValue .str (.str []) ⟨List.replicate 9 0xFF ++ [0x7F], 0, .little⟩ =
      .okVal (.str []) := by
  exact ⟨rfl, rfl⟩

/-- C7 (amended): when a string byte-length prefix fails with the
negative-byte-count sentinel, `String` discards the sentinel (blank
assignment), treats the returned value 0 as the length, reads zero data
bytes, and the whole decode call succeeds with the empty string; the
sentinel is only consulted inside the skip engine, never by `String` or
`value`. -/
theorem C7_string_swallows_sentinel (s s1 : DState) (cur : Val) (n : Int)
    (hz : dUvarint.run s = some ((0, n), s1)) (_hneg : n < 0)
    (hwf : s1.pos ≤ s1.buff.length) :
    dString.run s = some ([], s1) ∧
    DecoderValue .str cur s = .okVal (.str []) := by
  have hres : (dReserve 0).run s1 = some ([], s1) := by
    simp only [dReserve, StateT.run]
    rw [if_pos (by omega)]
    simp
  have hstr : dString.run s = some ([], s1) := by
    simp only [dString, StateT.run_bind, hz, Option.bind_eq_bind, Option.some_bind]
    simp only [StateT.run_bind, hres, Option.bind_eq_bind, Option.some_bind]
    simp [StateT.run_pure]
  refine ⟨hstr, ?_⟩
  have : (dValueTop .str cur).run s = some ((.str [], none), s1) := by
    simp only [dValueTop]
    norm_num [dFastHandled, isFastElem]
    simp only [dFastValue, dScalarVal, StateT.run_bind, hstr,
      Option.bind_eq_bind, Option.some_bind]
    simp [StateT.run_pure]
  simp [DecoderValue, this]

/-- Witness for C7 at the concrete overflowing prefix. -/
theorem C7_string_swallows_sentinel_witness :
    dString.run ⟨List.replicate 9 0xFF ++ [0x7F], 0, .little⟩ =
      some ([], ⟨List.replicate 9 0xFF ++ [0x7F], 10, .little⟩) ∧
    DecoderValue .str (.str [5]) ⟨List.replicate 9 0xFF ++ [0x7F], 0, .little⟩ =
      .okVal (.str []) :=
  C7_string_swallows_sentinel ⟨List.replicate 9 0xFF ++ [0x7F], 0, .little⟩
    ⟨List.replicate 9 0xFF ++ [0x7F], 10, .little⟩ (.str [5]) (-10)
    rfl (by decide) (by decide)

/-- Bit `j` of a bit-packed byte sequence: byte `j/8`, position `j%8`. -/
def bitOf (data : List Nat) (j : Nat) : Bool :=
  data.getD (j / 8) 0 &&& (1 <<< (j % 8)) ≠ 0

/-- The effect of the bool bit loop on the destination list: elements
`i ≤ j < i + n` become the bits of `data`. -/
def writeBits (data : List Nat) : Nat → Nat → List Val → List Val
  | _, 0, ys => ys
  | i, n + 1, ys => writeBits data (i + 1) n (ys.set i (.bool (bitOf data i)))

theorem writeBits_length (data : List Nat) (n : Nat) :
    ∀ (i : Nat) (ys : List Val), (writeBits data i n ys).length = ys.length := by
  induction n with
  | zero => intro i ys; simp [writeBits]
  | succ n ih => intro i ys; simp [writeBits, ih]

theorem writeBits_getD (data : List Nat) (n : Nat) :
    ∀ (i j : Nat) (ys : List Val),
      (writeBits data i n ys).getD j (.bool false) =
        if i ≤ j ∧ j < i + n ∧ j < ys.length then .bool (bitOf data j)
        else ys.getD j (.bool false) := by
  induction n with
  | zero =>
      intro i j ys
      simp only [writeBits]
      rw [if_neg (by omega)]
  | succ n ih =>
      intro i j ys
      simp only [writeBits]
      rw [ih]
      by_cases hij : i = j
      · subst hij
        by_cases hlen : i < ys.length
        · rw [if_neg (by omega), if_pos (by simp; omega)]
          rw [List.getD_eq_getElem?_getD]
          rw [List.getElem?_set_self (by omega)]
          simp
        · rw [if_neg (by omega), if_neg (by omega)]
          rw [List.getD_eq_getElem?_getD, List.getD_eq_getElem?_getD]
          rw [List.getElem?_set, if_pos rfl, if_neg (by omega)]
          rw [List.getElem?_eq_none (by omega)]
      · have hset : (ys.set i (.bool (bitOf data i))).getD j (.bool false) =
            ys.getD j (.bool false) := by
          rw [List.getD_eq_getElem?_getD, List.getD_eq_getElem?_getD]
          rw [List.getElem?_set]
          rw [if_neg (by omega)]
        rw [hset]
        simp only [List.length_set]
        by_cases hin : i + 1 ≤ j ∧ j < i + 1 + n ∧ j < ys.length
        · rw [if_pos hin, if_pos (by omega)]
        · rw [if_neg hin, if_neg (by omega)]

theorem dBoolBits_run (n : Nat) :
    ∀ (i curByte : Nat) (ys : List Val) (s0 : DState) (data rest : List Nat),
      DAt s0 (data ++ rest) →
      data.length = (i + n + 7) / 8 →
      i + n ≤ ys.length →
      (i % 8 ≠ 0 → curByte = data.getD (i / 8) 0) →
      (dBoolBits n i curByte ys).run (advance s0 ((i + 7) / 8)) =
        some (writeBits data i n ys, advance s0 ((i + n + 7) / 8)) := by
  induction n with
  | zero =>
      intro i curByte ys s0 data rest _ _ _ _
      simp [dBoolBits, writeBits, StateT.run_pure]
  | succ n ih =>
      intro i curByte ys s0 data rest hat hdata hlen hcur
      have hidx : i / 8 < data.length := by omega
      have hdrop : data.drop (i / 8) = data[i / 8] :: data.drop (i / 8 + 1) :=
        List.drop_eq_getElem_cons hidx
      have hgetD : data.getD (i / 8) 0 = data[i / 8] := List.getD_eq_getElem data 0 hidx
      have hset : i < ys.length := by omega
      have hcurN : (i + 1) % 8 ≠ 0 → data[i / 8] = data.getD ((i + 1) / 8) 0 := by
        intro hh
        have h18 : (i + 1) / 8 = i / 8 := by omega
        rw [h18, hgetD]
      by_cases h8 : i % 8 = 0
      · -- fresh byte: reserve 1 at offset i/8
        have hc1 : (i + 7) / 8 = i / 8 := by omega
        have hat1 : DAt (advance s0 (i / 8)) (data[i / 8] :: (data.drop (i / 8 + 1) ++ rest)) := by
          have := DAt_advance hat (i / 8) (by simp; omega)
          rw [List.drop_append_of_le_length (by omega)] at this
          rw [hdrop, List.cons_append] at this
          exact this
        have hres := dReserve_at hat1 1 (by simp)
        have htake : List.take 1 (data[i / 8] :: (data.drop (i / 8 + 1) ++ rest)) =
            [data[i / 8]] := rfl
        rw [htake] at hres
        have ihres := ih (i + 1) (data[i / 8]) (ys.set i (.bool (bitOf data i)))
          s0 data rest hat (by omega) (by simp; omega) hcurN
        have hc2 : (i + 1 + 7) / 8 = i / 8 + 1 := by omega
        rw [hc2] at ihres
        have hbit : (decide (data[i / 8] &&& 1 <<< (i % 8) ≠ 0)) = bitOf data i := by
          simp only [bitOf, hgetD]
        simp only [dBoolBits, if_pos h8, StateT.run_bind, hc1, hres,
          Option.bind_eq_bind, Option.some_bind, StateT.run_pure, List.headD_cons,
          Option.pure_def]
        rw [advance_advance]
        simp only [dif_pos hset, hbit]
        rw [ihres]
        simp only [writeBits]
        congr 3
        omega
      · -- reuse the byte in hand
        have hcb : curByte = data[i / 8] := by rw [hcur h8, hgetD]
        have hc1 : (i + 7) / 8 = (i + 1 + 7) / 8 := by omega
        have hcurN2 : (i + 1) % 8 ≠ 0 → curByte = data.getD ((i + 1) / 8) 0 := by
          intro hh
          rw [hcb]
          exact hcurN hh
        have ihres := ih (i + 1) curByte (ys.set i (.bool (bitOf data i)))
          s0 data rest hat (by omega) (by simp; omega) hcurN2
        have hbit : (decide (curByte &&& 1 <<< (i % 8) ≠ 0)) = bitOf data i := by
          simp only [bitOf, hgetD, hcb]
        simp only [dBoolBits, if_neg h8, StateT.run_bind, StateT.run_pure,
          Option.bind_eq_bind, Option.some_bind, Option.pure_def]
        simp only [dif_pos hset, hbit]
        rw [hc1, ihres]
        simp only [writeBits]
        have harith : i + 1 + n + 7 = i + (n + 1) + 7 := by omega
        rw [harith]

theorem rBoolBits_run (n : Nat) :
    ∀ (i curByte : Nat) (ys : List Val) (e : Endian) (data rest : List Nat),
      data.length = (i + n + 7) / 8 →
      i + n ≤ ys.length →
      (i % 8 ≠ 0 → curByte = data.getD (i / 8) 0) →
      (rBoolBits n i curByte ys).run ⟨data.drop ((i + 7) / 8) ++ rest, e⟩ =
        some (writeBits data i n ys, ⟨rest, e⟩) := by
  induction n with
  | zero =>
      intro i curByte ys e data rest hdata hlen hcur
      have : data.drop ((i + 7) / 8) = [] := by
        apply List.drop_eq_nil_of_le
        omega
      simp [rBoolBits, writeBits, StateT.run_pure, this]
  | succ n ih =>
      intro i curByte ys e data rest hdata hlen hcur
      have hidx : i / 8 < data.length := by omega
      have hdrop : data.drop (i / 8) = data[i / 8] :: data.drop (i / 8 + 1) :=
        List.drop_eq_getElem_cons hidx
      have hgetD : data.getD (i / 8) 0 = data[i / 8] := List.getD_eq_getElem data 0 hidx
      have hset : i < ys.length := by omega
      have hcurN : (i + 1) % 8 ≠ 0 → data[i / 8] = data.getD ((i + 1) / 8) 0 := by
        intro hh
        have h18 : (i + 1) / 8 = i / 8 := by omega
        rw [h18, hgetD]
      by_cases h8 : i % 8 = 0
      · have hc1 : (i + 7) / 8 = i / 8 := by omega
        have hc2 : (i + 1 + 7) / 8 = i / 8 + 1 := by omega
        have ihres := ih (i + 1) (data[i / 8]) (ys.set i (.bool (bitOf data i)))
          e data rest (by omega) (by simp; omega) hcurN
        rw [hc2] at ihres
        have hbit : (decide (data[i / 8] &&& 1 <<< (i % 8) ≠ 0)) = bitOf data i := by
          simp only [bitOf, hgetD]
        simp only [rBoolBits, if_pos h8, StateT.run_bind, hc1, hdrop, List.cons_append,
          rUint8_pre, rReserve_pre, Option.bind_eq_bind, Option.some_bind,
          StateT.run_pure, List.headD_cons, Option.pure_def]
        have hres : (rReserve 1).run ⟨data[i / 8] :: (data.drop (i / 8 + 1) ++ rest), e⟩ =
            some ([data[i / 8]], ⟨data.drop (i / 8 + 1) ++ rest, e⟩) := by
          have h1 : ([data[i / 8]] : List Nat) ++ (data.drop (i / 8 + 1) ++ rest) =
              data[i / 8] :: (data.drop (i / 8 + 1) ++ rest) := rfl
          have := @rReserve_pre [data[i / 8]] (data.drop (i / 8 + 1) ++ rest) e 1 (by simp)
          rw [h1] at this
          simpa using this
        rw [hres]
        simp only [Option.some_bind, List.headD_cons, dif_pos hset, hbit]
        rw [ihres]
        simp only [writeBits]
      · have hcb : curByte = data[i / 8] := by rw [hcur h8, hgetD]
        have hc1 : (i + 7) / 8 = (i + 1 + 7) / 8 := by omega
        have hcurN2 : (i + 1) % 8 ≠ 0 → curByte = data.getD ((i + 1) / 8) 0 := by
          intro hh
          rw [hcb]
          exact hcurN hh
        have ihres := ih (i + 1) curByte (ys.set i (.bool (bitOf data i)))
          e data rest (by omega) (by simp; omega) hcurN2
        have hbit : (decide (curByte &&& 1 <<< (i % 8) ≠ 0)) = bitOf data i := by
          simp only [bitOf, hgetD, hcb]
        simp only [rBoolBits, if_neg h8, StateT.run_bind, StateT.run_pure,
          Option.bind_eq_bind, Option.some_bind, Option.pure_def]
        simp only [dif_pos hset, hbit]
        rw [hc1, ihres]
        simp only [writeBits]

theorem dBoolArray_slice_run (l : Nat) (hl : l < 2 ^ 64) (cur : List Val)
    (s : DState) (data rest : List Nat)
    (hat : DAt s (uvarintEncode l ++ (data ++ rest)))
    (hdata : data.length = (l + 7) / 8) :
    (dBoolArray (.slice .bool) (.list cur)).run s =
      some (((sizeofBoolArray l : Int),
        Val.list (writeBits data 0 l (if 0 < l then List.replicate l (Val.bool false) else cur))),
        advance s ((uvarintEncode l).length + (l + 7) / 8)) := by
  have huv := dUvarint_enc hl hat
  have hat1 : DAt (advance s (uvarintEncode l).length) (data ++ rest) := by
    have := DAt_advance hat (uvarintEncode l).length (by simp)
    simpa using this
  have hlen0 : l + 0 ≤ (if 0 < l then List.replicate l (Val.bool false) else cur).length ∨ l = 0 := by
    by_cases h : 0 < l
    · left; simp [h]
    · right; omega
  have hbits := dBoolBits_run l 0 0
    (if 0 < l then List.replicate l (Val.bool false) else cur)
    (advance s (uvarintEncode l).length) data rest hat1 (by simpa using hdata)
    (by by_cases h : 0 < l <;> simp [h] <;> omega) (by omega)
  simp only [Nat.zero_add] at hbits
  have hadv0 : advance (advance s (uvarintEncode l).length) ((0 + 7) / 8) =
      advance s (uvarintEncode l).length := by
    norm_num [advance_zero]
  rw [hadv0] at hbits
  simp only [dBoolArray, valList, StateT.run_bind, huv, Option.bind_eq_bind, Option.some_bind]
  rw [hbits]
  simp only [Option.some_bind, StateT.run_pure, Option.pure_def, advance_advance]

theorem rBoolArray_slice_run (l : Nat) (hl : l < 2 ^ 64) (cur : List Val)
    (e : Endian) (data rest : List Nat)
    (hdata : data.length = (l + 7) / 8) :
    (rBoolArray (.slice .bool) (.list cur)).run ⟨uvarintEncode l ++ (data ++ rest), e⟩ =
      some (((sizeofBoolArray l : Int),
        Val.list (writeBits data 0 l (if 0 < l then List.replicate l (Val.bool false) else cur))),
        (⟨rest, e⟩ : RState)) := by
  have huv := @rUvarint_enc l hl e (data ++ rest)
  have hbits := rBoolBits_run l 0 0
    (if 0 < l then List.replicate l (Val.bool false) else cur)
    e data rest (by simpa using hdata)
    (by by_cases h : 0 < l <;> simp [h] <;> omega) (by omega)
  simp only [Nat.zero_add] at hbits
  have hdrop0 : data.drop ((0 + 7) / 8) = data := by norm_num
  rw [hdrop0] at hbits
  simp only [rBoolArray, valList, StateT.run_bind, huv, Option.bind_eq_bind, Option.some_bind]
  rw [hbits]
  simp [StateT.run_pure]

/-- C8: decoding a bool sequence reads a uvarint element count `l` and
then exactly `ceil(l/8)` data bytes (zero data bytes when `l = 0`, where
the prior destination is kept), and element `i` of the result is bit
`i % 8` (LSB-first, 1 = true) of data byte `i / 8`; both backends
behave identically. -/
theorem C8_bool_sequence (l : Nat) (hl : l < 2 ^ 64) (cur : List Val) (s : DState)
    (e : Endian) (data rest : List Nat) (hdata : data.length = (l + 7) / 8)
    (hat : DAt s (uvarintEncode l ++ (data ++ rest))) :
    ∃ out : List Val,
      (dBoolArray (.slice .bool) (.list cur)).run s =
        some (((sizeofBoolArray l : Int), Val.list out),
          advance s ((uvarintEncode l).length + (l + 7) / 8)) ∧
      (rBoolArray (.slice .bool) (.list cur)).run ⟨uvarintEncode l ++ (data ++ rest), e⟩ =
        some (((sizeofBoolArray l : Int), Val.list out), (⟨rest, e⟩ : RState)) ∧
      (∀ j, j < l → out.getD j (.bool false) = .bool (bitOf data j)) ∧
      (l = 0 → out = cur) := by
  refine ⟨writeBits data 0 l (if 0 < l then List.replicate l (Val.bool false) else cur),
    dBoolArray_slice_run l hl cur s data rest hat hdata,
    rBoolArray_slice_run l hl cur e data rest hdata, ?_, ?_⟩
  · intro j hj
    have h0l : 0 < l := by omega
    have hcond : 0 ≤ j ∧ j < 0 + l ∧
        j < (if 0 < l then List.replicate l (Val.bool false) else cur).length := by
      refine ⟨by omega, by omega, ?_⟩
      rw [if_pos h0l]
      simpa using hj
    rw [writeBits_getD, if_pos hcond]
  · intro h0
    subst h0
    simp [writeBits]

/-- Witness for C8: count 9, data bytes `[0b00000011, 0b00000001]`. -/
theorem C8_bool_sequence_witness :
    ∃ out : List Val,
      (dBoolArray (.slice .bool) (.list [])).run ⟨[9, 3, 1], 0, .little⟩ =
        some (((sizeofBoolArray 9 : Int), Val.list out),
          advance ⟨[9, 3, 1], 0, .little⟩ ((uvarintEncode 9).length + (9 + 7) / 8)) ∧
      (rBoolArray (.slice .bool) (.list [])).run ⟨uvarintEncode 9 ++ ([3, 1] ++ []), .little⟩ =
        some (((sizeofBoolArray 9 : Int), Val.list out), (⟨[], .little⟩ : RState)) ∧
      (∀ j, j < 9 → out.getD j (.bool false) = .bool (bitOf [3, 1] j)) ∧
      (9 = 0 → out = []) := by
  have h := C8_bool_sequence 9 (by norm_num) [] ⟨[9, 3, 1], 0, .little⟩ .little
    [3, 1] [] (by decide) ⟨by decide, by decide⟩
  exact h

theorem take_set_succ (xs : List Val) (i : Nat) (v : Val) (h : i < xs.length) :
    (xs.set i v).take (i + 1) = xs.take i ++ [v] := by
  apply List.ext_getElem
  · simp; omega
  · intro j hj1 hj2
    simp only [List.getElem_take, List.getElem_set]
    by_cases hij : j < i
    · rw [if_neg (by omega)]
      rw [List.getElem_append_left (by simp; omega)]
      simp [List.getElem_take]
    · have : j = i := by simp at hj1; omega
      subst this
      rw [if_pos rfl]
      rw [List.getElem_append_right (by simp)]
      simp

theorem dFastLoop_acc (act : DecM Val) (n : Nat) :
    ∀ (acc : List Val) (s : DState),
      (dFastLoop act n acc).run s =
        ((dFastLoop act n []).run s).map (fun p => (acc ++ p.1, p.2)) := by
  induction n with
  | zero => intro acc s; simp [dFastLoop, StateT.run_pure]
  | succ n ih =>
      intro acc s
      simp only [dFastLoop, StateT.run_bind, Option.bind_eq_bind]
      cases h : act.run s with
      | none => simp
      | some p =>
          obtain ⟨v, s1⟩ := p
          simp only [Option.some_bind, List.nil_append]
          rw [ih (acc ++ [v]) s1, ih [v] s1]
          cases h2 : (dFastLoop act n []).run s1 <;> simp

theorem dValueElems_fast (act : DecM Val) (dec : Val → DecM (Val × Option GoErr))
    (skip : DecM Int)
    (hdec : ∀ cur, dec cur = act >>= fun v => pure (v, (none : Option GoErr))) (n : Nat) :
    ∀ (i : Nat) (xs : List Val) (s : DState), xs.length = i + n →
      (dValueElems dec skip n i xs).run s =
        ((dFastLoop act n []).run s).map (fun p => (xs.take i ++ p.1, p.2)) := by
  induction n with
  | zero =>
      intro i xs s hlen
      simp [dValueElems, dFastLoop, StateT.run_pure,
        List.take_of_length_le (show xs.length ≤ i by omega)]
  | succ n ih =>
      intro i xs s hlen
      have hi : i < xs.length := by omega
      simp only [dValueElems, dif_pos hi, hdec, dFastLoop, StateT.run_bind,
        Option.bind_eq_bind]
      cases h : act.run s with
      | none => simp
      | some p =>
          obtain ⟨v, s1⟩ := p
          simp only [Option.some_bind, StateT.run_pure, Option.pure_def, List.nil_append]
          rw [ih (i + 1) (xs.set i v) s1 (by simp; omega)]
          rw [dFastLoop_acc act n [v] s1]
          rw [take_set_succ xs i v hi]
          cases h2 : (dFastLoop act n []).run s1 <;> simp

theorem dValue_scalar (e : Ty) (he : isFastElem e = true) (cur : Val) :
    dValue e cur = dScalarVal e >>= fun v => pure (v, (none : Option GoErr)) := by
  cases e <;> simp [isFastElem] at he <;>
    simp [dValue, dScalarVal, bind_assoc, pure_bind]

/-- C9 counterexample: for a `*[]bool` destination and element count 0,
the fast path resets the destination to the empty slice while the
general `value` path keeps the prior destination value — the two routes
produce different destination values for the same input. -/
theorem C9_counterexample :
    (dFastValue (.slice .bool)).run ⟨[0], 0, .little⟩ =
      some (.list [], ⟨[0], 1, .little⟩) ∧
    (dValue (.slice .bool) (.list [.bool true])).run ⟨[0], 0, .little⟩ =
      some ((.list [.bool true], none), ⟨[0], 1, .little⟩) ∧
    Val.list [] ≠ Val.list [.bool true] := by
  refine ⟨rfl, rfl, by simp⟩

theorem run_bind_pure_none (m : DecM Val) (s : DState) :
    (m >>= fun v => pure (v, (none : Option GoErr))).run s =
      (m.run s).map (fun p => ((p.1, none), p.2)) := by
  simp only [StateT.run_bind, Option.bind_eq_bind]
  cases h : m.run s <;> simp [StateT.run_pure]

theorem dValue_slice_scalar (e : Ty) (he : isFastElem e = true) (hbe : e ≠ Ty.bool)
    (cur : Val) (s : DState) :
    (dValue (.slice e) cur).run s =
      ((dFastValue (.slice e)).run s).map (fun p => ((p.1, (none : Option GoErr)), p.2)) := by
  have hba : dBoolArray (.slice e) cur = pure (-1, cur) := by
    cases e
    case bool => exact (hbe rfl).elim
    all_goals rfl
  have hfa : dFastValue (.slice e) = (do
      let p ← dUvarint
      let xs ← dFastLoop (dScalarVal e) p.1 []
      pure (Val.list xs)) := by
    cases e
    case bool => exact (hbe rfl).elim
    all_goals rfl
  rw [hfa]
  simp only [dValue, hba, StateT.run_bind, StateT.run_pure, Option.pure_def,
    Option.bind_eq_bind, Option.some_bind]
  rw [if_pos (by norm_num)]
  simp only [StateT.run_bind, Option.bind_eq_bind]
  cases h : dUvarint.run s with
  | none => simp
  | some p =>
      obtain ⟨⟨l, cnt⟩, s1⟩ := p
      simp only [h, Option.some_bind]
      rw [dValueElems_fast (dScalarVal e) (dValue e) (dSkipByType e)
        (dValue_scalar e he) l 0 (List.replicate l (defaultVal e)) s1 (by simp)]
      simp only [List.take_zero, List.nil_append]
      cases h2 : (dFastLoop (dScalarVal e) l []).run s1 <;> simp [StateT.run_pure]

/-- C9 (amended): for every destination type handled by `fastValue`,
the fast path produces exactly the same destination value, cursor
advance and fault behavior as routing the destination through the
general `value` dispatcher (which also returns a nil error) — except
for `*[]bool` when the decoded element count is 0 and the prior
destination is non-empty: there the fast path resets the slice to empty
while `value` keeps the prior destination.  Equality for `*[]bool`
therefore assumes a positive decoded count or an empty prior. -/
theorem C9_fast_path (t : Ty) (ht : dFastHandled t = true) (cur : Val) (s : DState)
    (hb : t = .slice .bool → cur = .list [] ∨
      ∀ (l : Nat) (n : Int) (s1 : DState), dUvarint.run s = some ((l, n), s1) → 0 < l) :
    (dValue t cur).run s =
      ((dFastValue t).run s).map (fun p => ((p.1, (none : Option GoErr)), p.2)) := by
  cases t with
  | slice e =>
      cases e with
      | bool =>
          simp only [dValue, dFastValue, dBoolArray, StateT.run_bind, Option.bind_eq_bind]
          cases h : dUvarint.run s with
          | none => simp
          | some p =>
              obtain ⟨⟨l, cnt⟩, s1⟩ := p
              simp only [Option.some_bind]
              have hxs : (if 0 < l then List.replicate l (Val.bool false) else valList cur) =
                  List.replicate l (Val.bool false) := by
                by_cases h0 : 0 < l
                · rw [if_pos h0]
                · rcases hb rfl with hcur | hpos
                  · subst hcur
                    rw [if_neg h0]
                    have : l = 0 := by omega
                    simp [this, valList]
                  · exact absurd (hpos l cnt s1 h) h0
              rw [hxs]
              cases h2 : (dBoolBits l 0 0 (List.replicate l (Val.bool false))).run s1 with
              | none => simp
              | some q =>
                  obtain ⟨xs, s2⟩ := q
                  simp only [Option.some_bind, StateT.run_pure, Option.pure_def,
                    Option.some_bind, Option.map_some]
                  rw [if_neg (by omega)]
                  simp [StateT.run_pure]
      | slice e2 => simp [dFastHandled, isFastElem] at ht
      | array n e2 => simp [dFastHandled, isFastElem] at ht
      | map kt vt => simp [dFastHandled, isFastElem] at ht
      | fnil => simp [dFastHandled, isFastElem] at ht
      | fcons f incl r2 => simp [dFastHandled, isFastElem] at ht
      | ptr e2 => simp [dFastHandled, isFastElem] at ht
      | _ =>
          exact dValue_slice_scalar _ (by decide) (by decide) cur s
  | array n e2 => simp [dFastHandled, isFastElem] at ht
  | map kt vt => simp [dFastHandled, isFastElem] at ht
  | fnil => simp [dFastHandled, isFastElem] at ht
  | fcons f incl r2 => simp [dFastHandled, isFastElem] at ht
  | ptr e2 => simp [dFastHandled, isFastElem] at ht
  | _ =>
      rw [dValue_scalar _ (by simp [isFastElem]) cur]
      exact run_bind_pure_none _ s

/-- Witness for C9 at a `*[]bool` destination with a positive decoded
count and a non-empty prior destination. -/
theorem C9_fast_path_witness :
    (dValue (.slice .bool) (.list [.bool true])).run ⟨[9, 3, 1], 0, .little⟩ =
      ((dFastValue (.slice .bool)).run ⟨[9, 3, 1], 0, .little⟩).map
        (fun p => ((p.1, (none : Option GoErr)), p.2)) :=
  C9_fast_path (.slice .bool) rfl (.list [.bool true]) ⟨[9, 3, 1], 0, .little⟩
    (fun _ => Or.inr (fun l n s1 h => by
      have h9 : dUvarint.run (⟨[9, 3, 1], 0, .little⟩ : DState) =
          some ((9, (1 : Int)), ⟨[9, 3, 1], 1, .little⟩) := rfl
      rw [h9] at h
      simp only [Option.some.injEq, Prod.mk.injEq] at h
      omega))

theorem toBytesLE_length (w : Nat) : ∀ n, (toBytesLE w n).length = w := by
  induction w with
  | zero => intro n; simp [toBytesLE]
  | succ w ih => intro n; simp [toBytesLE, ih]

theorem encodeFixed_length (en : Endian) (w n : Nat) : (encodeFixed en w n).length = w := by
  cases en <;> simp [encodeFixed, toBytesLE_length]

theorem toUint_toBytesLE (w : Nat) :
    ∀ n, n < 2 ^ (8 * w) →
      (toBytesLE w n).foldr (fun b acc => acc * 256 + b) 0 = n := by
  induction w with
  | zero =>
      intro n hn
      simp at hn
      simp [toBytesLE, hn]
  | succ w ih =>
      intro n hn
      have hdiv : n / 256 < 2 ^ (8 * w) := by
        have h1 : (2 : Nat) ^ (8 * (w + 1)) = 2 ^ (8 * w) * 256 := by
          have : 8 * (w + 1) = 8 * w + 8 := by ring
          rw [this, pow_add]
          norm_num
        rw [h1] at hn
        omega
      simp only [toBytesLE, List.foldr_cons, ih (n / 256) hdiv]
      omega

theorem toUint_encodeFixed (en : Endian) (w n : Nat) (hn : n < 2 ^ (8 * w)) :
    en.toUint (encodeFixed en w n) = n := by
  cases en with
  | little => simpa [encodeFixed, Endian.toUint] using toUint_toBytesLE w n hn
  | big =>
      simp only [encodeFixed, Endian.toUint, List.foldl_reverse]
      have := toUint_toBytesLE w n hn
      simpa [Function.comp] using this

theorem toSigned_emod (w : Nat) (hw : 0 < w) (n : Int)
    (h1 : -(2 ^ (w - 1)) ≤ n) (h2 : n < 2 ^ (w - 1)) :
    toSigned w (n % ((2 : Int) ^ w)).toNat = n := by
  have hM2 : (2 : Int) ^ w = 2 ^ (w - 1) * 2 := by
    conv_lhs => rw [show w = (w - 1) + 1 by omega]
    rw [pow_succ]
  have hMpos : (0 : Int) < 2 ^ w := by positivity
  have hmodlt : n % ((2 : Int) ^ w) < 2 ^ w := Int.emod_lt_of_pos n hMpos
  have hmodnn : (0 : Int) ≤ n % ((2 : Int) ^ w) := Int.emod_nonneg n (by positivity)
  have hcastM : (((2 : Nat) ^ w : Nat) : Int) = (2 : Int) ^ w := by push_cast; ring
  have hcastH : (((2 : Nat) ^ (w - 1) : Nat) : Int) = (2 : Int) ^ (w - 1) := by push_cast; ring
  have hmodeq : n % ((2 : Int) ^ w) = if 0 ≤ n then n else n + 2 ^ w := by
    by_cases hpos : 0 ≤ n
    · rw [if_pos hpos]
      exact Int.emod_eq_of_lt hpos (by omega)
    · rw [if_neg hpos]
      have : (n + 2 ^ w) % ((2 : Int) ^ w) = n % ((2 : Int) ^ w) := by
        simp [Int.add_mul_emod_self_left]
      rw [← this]
      exact Int.emod_eq_of_lt (by omega) (by omega)
  have hNat : (((n % ((2 : Int) ^ w)).toNat : Nat) : Int) = n % ((2 : Int) ^ w) :=
    Int.toNat_of_nonneg hmodnn
  unfold toSigned
  have hmod2 : (n % ((2 : Int) ^ w)).toNat % 2 ^ w = (n % ((2 : Int) ^ w)).toNat := by
    apply Nat.mod_eq_of_lt
    omega
  rw [hmod2]
  by_cases hpos : 0 ≤ n
  · rw [if_pos (by omega)]
    omega
  · rw [if_neg (by omega)]
    omega

theorem ToVarint_FromVarint (n : Int) : ToVarint (FromVarint n) = n := by
  unfold ToVarint FromVarint
  by_cases h : 0 ≤ n
  · rw [if_pos h]
    simp [Nat.mul_div_cancel_left]
    omega
  · rw [if_neg h]
    have h2 : (2 * (-(n + 1)).toNat + 1) % 2 = 1 := by omega
    rw [if_neg (by omega)]
    have : (2 * (-(n + 1)).toNat + 1) / 2 = (-(n + 1)).toNat := by omega
    rw [this]
    omega

theorem FromVarint_lt (n : Int) (h1 : -(2 ^ 63) ≤ n) (h2 : n < 2 ^ 63) :
    FromVarint n < 2 ^ 64 := by
  unfold FromVarint
  by_cases h : 0 ≤ n
  · rw [if_pos h]
    have : (n.toNat : Int) = n := Int.toNat_of_nonneg h
    have hc : ((2 : Nat) ^ 63 : Int) = (2 : Int) ^ 63 := by norm_cast
    have : n.toNat < 2 ^ 63 := by omega
    omega
  · rw [if_neg h]
    have hnn : (0 : Int) ≤ -(n + 1) := by omega
    have : ((-(n + 1)).toNat : Int) = -(n + 1) := Int.toNat_of_nonneg hnn
    have hc : ((2 : Nat) ^ 63 : Int) = (2 : Int) ^ 63 := by norm_cast
    have : (-(n + 1)).toNat < 2 ^ 63 := by omega
    omega

theorem structCons_match (d m : Val) :
    (match m with
      | Val.structv vs => Val.structv (d :: vs)
      | _ => Val.structv [d]) = Val.structv (d :: valFields m) := by
  cases m <;> rfl

theorem defaultVal_fields (f : Ty) (incl : Bool) (rest : Ty) :
    defaultVal (.fcons f incl rest) =
      .structv (defaultVal f :: valFields (defaultVal rest)) :=
  structCons_match (defaultVal f) (defaultVal rest)

/-- Chain well-formedness of the record representation: the `rest` of a
field chain is itself a chain.  (Shapes arising from Go types always
satisfy this; it is an artifact of representing records as chains.) -/
def tyOk : Ty → Bool
  | .slice e => tyOk e
  | .array _ e => tyOk e
  | .map kt vt => tyOk kt && tyOk vt
  | .fnil => true
  | .fcons f _ rest =>
      tyOk f && tyOk rest &&
        (match rest with
          | .fnil => true
          | .fcons _ _ _ => true
          | _ => false)
  | .ptr e => tyOk e
  | _ => true

theorem wfVal_default (t : Ty) (ht : tyOk t = true) : wfVal t (defaultVal t) = true := by
  induction t with
  | slice e ih => simp [defaultVal, wfVal]
  | array n e ih =>
      simp only [tyOk] at ht
      simp only [defaultVal, wfVal, Bool.and_eq_true, decide_eq_true_eq,
        List.length_replicate, List.all_eq_true]
      refine ⟨trivial, ?_⟩
      intro x hx
      rw [List.eq_of_mem_replicate hx]
      exact ih ht
  | map kt vt ih1 ih2 => simp [defaultVal, wfVal]
  | fnil => simp [defaultVal, wfVal]
  | fcons f incl rest ih1 ih2 =>
      simp only [tyOk, Bool.and_eq_true] at ht
      obtain ⟨⟨htf, htr⟩, hchain⟩ := ht
      rw [defaultVal_fields]
      cases rest with
      | fnil =>
          simp only [defaultVal, valFields, wfVal, Bool.and_eq_true]
          exact ⟨ih1 htf, by simp [wfVal]⟩
      | fcons f2 i2 r2 =>
          have hv : valFields (defaultVal (Ty.fcons f2 i2 r2)) =
              defaultVal f2 :: valFields (defaultVal r2) := by
            rw [defaultVal_fields]
            rfl
          have h2 := ih2 htr
          rw [defaultVal_fields] at h2
          simp only [hv, wfVal, Bool.and_eq_true] at h2 ⊢
          exact ⟨ih1 htf, h2⟩
      | _ => simp at hchain
  | ptr e ih => simp [defaultVal, wfVal]
  | _ => simp [defaultVal, wfVal]

theorem packBits_length (xs : List Bool) : (packBits xs).length = (xs.length + 7) / 8 := by
  simp [packBits]

theorem boolByte_testBit (bs : List Bool) : ∀ k, (boolByte bs).testBit k = bs.getD k false := by
  induction bs with
  | nil => intro k; simp [boolByte]
  | cons b t ih =>
      intro k
      have hb : boolByte (b :: t) = 2 * boolByte t + cond b 1 0 := rfl
      cases k with
      | zero =>
          rw [hb]
          cases b <;> simp [Nat.testBit_zero] <;> omega
      | succ k =>
          rw [hb, Nat.testBit_succ]
          have hdiv : (2 * boolByte t + cond b 1 0) / 2 = boolByte t := by
            cases b <;> simp <;> omega
          rw [hdiv]
          simpa using ih k

theorem mask_testBit (n k : Nat) : decide (n &&& (1 <<< k) ≠ 0) = n.testBit k := by
  have h1 : (1 : Nat) <<< k = 2 ^ k := by simp [Nat.shiftLeft_eq]
  rw [h1, Nat.and_two_pow]
  cases h : n.testBit k <;> simp [h] <;> positivity

theorem bitOf_packBits (xs : List Bool) (j : Nat) (hj : j < xs.length) :
    bitOf (packBits xs) j = xs.getD j false := by
  have hrange : j / 8 < (xs.length + 7) / 8 := by omega
  have hgd : (packBits xs).getD (j / 8) 0 = boolByte ((xs.drop (8 * (j / 8))).take 8) := by
    unfold packBits
    rw [List.getD_eq_getElem?_getD, List.getElem?_map, List.getElem?_range hrange]
    rfl
  unfold bitOf
  rw [hgd, mask_testBit, boolByte_testBit]
  rw [List.getD_eq_getElem?_getD, List.getD_eq_getElem?_getD, List.getElem?_take,
    if_pos (by omega), List.getElem?_drop]
  have : 8 * (j / 8) + j % 8 = j := by omega
  rw [this]

theorem dSkip_at {s : DState} {bs : List Nat} (h : DAt s bs) (n : Nat)
    (hn : n ≤ bs.length) :
    (dSkip (n : Int)).run s = some ((n : Int), advance s n) := by
  have hr := dReserve_at h n hn
  simp only [dSkip, StateT.run]
  rw [if_neg (by omega)]
  have : ((n : Int)).toNat = n := by omega
  rw [this]
  simp only [StateT.run] at hr
  rw [hr]
  rfl

theorem dReserveExact {s : DState} {pre rest : List Nat} (h : DAt s (pre ++ rest)) :
    (dReserve pre.length).run s = some (pre, advance s pre.length) := by
  have := dReserve_at h pre.length (by simp)
  rwa [List.take_left] at this

theorem dUint16_at {s : DState} {pre rest : List Nat} (h : DAt s (pre ++ rest))
    (hw : pre.length = 2) :
    dUint16.run s = some (s.endian.toUint pre, advance s 2) := by
  have hr := dReserveExact h
  rw [hw] at hr
  simp only [dUint16, StateT.run] at hr ⊢
  rw [hr]
  rfl

theorem dUint32_at {s : DState} {pre rest : List Nat} (h : DAt s (pre ++ rest))
    (hw : pre.length = 4) :
    dUint32.run s = some (s.endian.toUint pre, advance s 4) := by
  have hr := dReserveExact h
  rw [hw] at hr
  simp only [dUint32, StateT.run] at hr ⊢
  rw [hr]
  rfl

theorem dUint64_at {s : DState} {pre rest : List Nat} (h : DAt s (pre ++ rest))
    (hw : pre.length = 8) :
    dUint64.run s = some (s.endian.toUint pre, advance s 8) := by
  have hr := dReserveExact h
  rw [hw] at hr
  simp only [dUint64, StateT.run] at hr ⊢
  rw [hr]
  rfl

theorem encodeVal_fix_length (e : Ty) (he : 0 < _fixTypeSize e) (v : Val)
    (enc : List Nat) (en : Endian) (h : encodeVal en e v = some enc) :
    (enc.length : Int) = _fixTypeSize e := by
  cases e <;> simp only [_fixTypeSize] at he ⊢ <;> try omega
  all_goals
    cases v <;>
      simp only [encodeVal, Option.ite_none_right_eq_some, Option.some.injEq,
        reduceCtorEq] at h
  all_goals
    first
    | (obtain ⟨-, rfl⟩ := h
       simp [encodeFixed_length, toBytesLE_length])
    | (rw [← h]
       simp [encodeFixed_length, toBytesLE_length])

theorem dSkipSeq_bool (skipE : DecM Int) :
    dSkipSeq .bool skipE = (do
      let p ← dUvarint
      let _ ← dSkip (((sizeofBoolArray p.1 - SizeofUvarint p.1 : Nat)) : Int)
      pure ((sizeofBoolArray p.1 : Nat) : Int)) := rfl

theorem dSkipSeq_fix (e : Ty) (hfe : 0 < _fixTypeSize e) (hbe : e ≠ Ty.bool)
    (skipE : DecM Int) :
    dSkipSeq e skipE = (do
      let p ← dUvarint
      let _ ← dSkip ((p.1 * (_fixTypeSize e).toNat : Nat) : Int)
      pure ((p.1 * (_fixTypeSize e).toNat : Nat) : Int)) := by
  cases e
  case bool => exact (hbe rfl).elim
  all_goals first
  | rfl
  | (exfalso; simp [_fixTypeSize] at hfe)

theorem dSkipSeq_loop (e : Ty) (hfe : ¬0 < _fixTypeSize e) (skipE : DecM Int) :
    dSkipSeq e skipE = (do
      let p ← dUvarint
      dSkipLoop skipE p.1 p.2) := by
  cases e
  all_goals first
  | rfl
  | (exfalso; simp [_fixTypeSize] at hfe)

theorem encodeList_fix_length (e : Ty) (he : 0 < _fixTypeSize e) (en : Endian) :
    ∀ (xs : List Val) (body : List Nat),
      encodeList (encodeVal en e) xs = some body →
      body.length = xs.length * (_fixTypeSize e).toNat := by
  intro xs
  induction xs with
  | nil =>
      intro body h
      simp only [encodeList, Option.some.injEq] at h
      simp [← h]
  | cons v vs ih =>
      intro body h
      simp only [encodeList, Option.bind_eq_bind, Option.bind_eq_some,
        Option.pure_def, Option.some.injEq] at h
      obtain ⟨e1, he1, brest, hbrest, rfl⟩ := h
      have h1 := encodeVal_fix_length e he v e1 en he1
      have h2 := ih brest hbrest
      simp only [List.length_append, List.length_cons, h2]
      have : e1.length = (_fixTypeSize e).toNat := by omega
      rw [this]
      ring

theorem dSkipLoop_enc (e : Ty)
    (IH : ∀ (v : Val) (enc : List Nat) (en : Endian), encodeVal en e v = some enc →
      ∀ (s : DState) (rest : List Nat), DAt s (enc ++ rest) →
      ∃ r : Int, (dSkipByType e).run s = some (r, advance s enc.length) ∧ 0 ≤ r) :
    ∀ (xs : List Val) (body : List Nat) (en : Endian),
      encodeList (encodeVal en e) xs = some body →
      ∀ (acc : Int), 0 ≤ acc →
      ∀ (s : DState) (rest : List Nat), DAt s (body ++ rest) →
      ∃ r : Int, (dSkipLoop (dSkipByType e) xs.length acc).run s =
          some (r, advance s body.length) ∧ 0 ≤ r := by
  intro xs
  induction xs with
  | nil =>
      intro body en h acc hacc s rest hat
      simp only [encodeList, Option.some.injEq] at h
      subst h
      exact ⟨acc, by simp [dSkipLoop, StateT.run_pure, advance_zero], hacc⟩
  | cons v vs ih =>
      intro body en h acc hacc s rest hat
      simp only [encodeList, Option.bind_eq_bind, Option.bind_eq_some,
        Option.pure_def, Option.some.injEq] at h
      obtain ⟨e1, he1, brest, hbrest, rfl⟩ := h
      have hat1 : DAt s (e1 ++ (brest ++ rest)) := by
        rwa [← List.append_assoc]
      obtain ⟨r1, hr1, hr1n⟩ := IH v e1 en he1 s (brest ++ rest) hat1
      have hat2 : DAt (advance s e1.length) (brest ++ rest) := by
        have := DAt_advance hat1 e1.length (by simp)
        simpa using this
      obtain ⟨r2, hr2, hr2n⟩ := ih brest en hbrest (acc + r1) (by omega)
        (advance s e1.length) rest hat2
      refine ⟨r2, ?_, hr2n⟩
      simp only [List.length_cons, dSkipLoop, StateT.run_bind, hr1,
        Option.bind_eq_bind, Option.some_bind]
      rw [if_neg (by omega), hr2, advance_advance]
      simp [List.length_append]

theorem dSkipMapLoop_enc (kt vt : Ty)
    (IHk : ∀ (v : Val) (enc : List Nat) (en : Endian), encodeVal en kt v = some enc →
      ∀ (s : DState) (rest : List Nat), DAt s (enc ++ rest) →
      ∃ r : Int, (dSkipByType kt).run s = some (r, advance s enc.length) ∧ 0 ≤ r)
    (IHv : ∀ (v : Val) (enc : List Nat) (en : Endian), encodeVal en vt v = some enc →
      ∀ (s : DState) (rest : List Nat), DAt s (enc ++ rest) →
      ∃ r : Int, (dSkipByType vt).run s = some (r, advance s enc.length) ∧ 0 ≤ r) :
    ∀ (es : List (Val × Val)) (body : List Nat) (en : Endian),
      encodePairs (encodeVal en kt) (encodeVal en vt) es = some body →
      ∀ (acc : Int), 0 ≤ acc →
      ∀ (s : DState) (rest : List Nat), DAt s (body ++ rest) →
      ∃ r : Int, (dSkipMapLoop (dSkipByType kt) (dSkipByType vt) es.length acc).run s =
          some (r, advance s body.length) ∧ 0 ≤ r := by
  intro es
  induction es with
  | nil =>
      intro body en h acc hacc s rest hat
      simp only [encodePairs, Option.some.injEq] at h
      subst h
      exact ⟨acc, by simp [dSkipMapLoop, StateT.run_pure, advance_zero], hacc⟩
  | cons p es ih =>
      intro body en h acc hacc s rest hat
      obtain ⟨pk, pv⟩ := p
      simp only [encodePairs, Option.bind_eq_bind, Option.bind_eq_some,
        Option.pure_def, Option.some.injEq] at h
      obtain ⟨ek, hek, ev, hev, brest, hbrest, rfl⟩ := h
      have hat1 : DAt s (ek ++ (ev ++ (brest ++ rest))) := by
        simpa [List.append_assoc] using hat
      obtain ⟨r1, hr1, hr1n⟩ := IHk pk ek en hek s (ev ++ (brest ++ rest)) hat1
      have hat2 : DAt (advance s ek.length) (ev ++ (brest ++ rest)) := by
        have := DAt_advance hat1 ek.length (by simp)
        simpa using this
      obtain ⟨r2, hr2, hr2n⟩ := IHv pv ev en hev (advance s ek.length) (brest ++ rest) hat2
      have hat3 : DAt (advance (advance s ek.length) ev.length) (brest ++ rest) := by
        have := DAt_advance hat2 ev.length (by simp)
        simpa using this
      obtain ⟨r3, hr3, hr3n⟩ := ih brest en hbrest (acc + r1 + r2) (by omega)
        (advance (advance s ek.length) ev.length) rest hat3
      refine ⟨r3, ?_, hr3n⟩
      simp only [List.length_cons, dSkipMapLoop, StateT.run_bind, hr1,
        Option.bind_eq_bind, Option.some_bind]
      rw [hr2]
      simp only [Option.some_bind]
      rw [hr3, advance_advance, advance_advance]
      simp only [List.length_append]
      have harith : ek.length + (ev.length + brest.length) =
          ek.length + ev.length + brest.length := by omega
      rw [harith]

theorem dSkipByType_fix (t : Ty) (he : 0 < _fixTypeSize t) (s : DState)
    (bs : List Nat) (hat : DAt s bs) (hlen : (_fixTypeSize t).toNat ≤ bs.length) :
    (dSkipByType t).run s = some (_fixTypeSize t, advance s (_fixTypeSize t).toNat) := by
  have hsk := dSkip_at hat (_fixTypeSize t).toNat hlen
  have hcast : (((_fixTypeSize t).toNat : Nat) : Int) = _fixTypeSize t := by omega
  rw [hcast] at hsk
  cases t
  all_goals first
  | exact absurd he (of_decide_eq_false rfl)
  | (simp only [dSkipByType]
     rw [if_pos he]
     simp only [StateT.run_bind, hsk, Option.bind_eq_bind, Option.some_bind]
     simp [StateT.run_pure])

/-- The buffer skip engine consumes exactly the wire encoding of any
value of a shape without excluded fields or references, returning a
nonnegative count. -/
theorem dSkipByType_enc (t : Ty) :
    ∀ (hx : noExcl t = true) (hp : noPtr t = true)
      (v : Val) (enc : List Nat) (en : Endian), encodeVal en t v = some enc →
    ∀ (s : DState) (rest : List Nat), DAt s (enc ++ rest) →
      ∃ r : Int, (dSkipByType t).run s = some (r, advance s enc.length) ∧ 0 ≤ r := by
  induction t with
  | bool =>
      intro hx hp v enc en henc s rest hat
      have hfix : (0 : Int) < _fixTypeSize Ty.bool := by norm_num [_fixTypeSize]
      have hlen := encodeVal_fix_length Ty.bool hfix v enc en henc
      have hl2 : enc.length = (_fixTypeSize Ty.bool).toNat := by omega
      refine ⟨_fixTypeSize Ty.bool, ?_, le_of_lt hfix⟩
      have hrun := dSkipByType_fix Ty.bool hfix s (enc ++ rest) hat
        (by simp only [List.length_append, hl2]; omega)
      rw [← hl2] at hrun
      exact hrun
  | int8 =>
      intro hx hp v enc en henc s rest hat
      have hfix : (0 : Int) < _fixTypeSize Ty.int8 := by norm_num [_fixTypeSize]
      have hlen := encodeVal_fix_length Ty.int8 hfix v enc en henc
      have hl2 : enc.length = (_fixTypeSize Ty.int8).toNat := by omega
      refine ⟨_fixTypeSize Ty.int8, ?_, le_of_lt hfix⟩
      have hrun := dSkipByType_fix Ty.int8 hfix s (enc ++ rest) hat
        (by simp only [List.length_append, hl2]; omega)
      rw [← hl2] at hrun
      exact hrun
  | uint8 =>
      intro hx hp v enc en henc s rest hat
      have hfix : (0 : Int) < _fixTypeSize Ty.uint8 := by norm_num [_fixTypeSize]
      have hlen := encodeVal_fix_length Ty.uint8 hfix v enc en henc
      have hl2 : enc.length = (_fixTypeSize Ty.uint8).toNat := by omega
      refine ⟨_fixTypeSize Ty.uint8, ?_, le_of_lt hfix⟩
      have hrun := dSkipByType_fix Ty.uint8 hfix s (enc ++ rest) hat
        (by simp only [List.length_append, hl2]; omega)
      rw [← hl2] at hrun
      exact hrun
  | int16 =>
      intro hx hp v enc en henc s rest hat
      have hfix : (0 : Int) < _fixTypeSize Ty.int16 := by norm_num [_fixTypeSize]
      have hlen := encodeVal_fix_length Ty.int16 hfix v enc en henc
      have hl2 : enc.length = (_fixTypeSize Ty.int16).toNat := by omega
      refine ⟨_fixTypeSize Ty.int16, ?_, le_of_lt hfix⟩
      have hrun := dSkipByType_fix Ty.int16 hfix s (enc ++ rest) hat
        (by simp only [List.length_append, hl2]; omega)
      rw [← hl2] at hrun
      exact hrun
  | uint16 =>
      intro hx hp v enc en henc s rest hat
      have hfix : (0 : Int) < _fixTypeSize Ty.uint16 := by norm_num [_fixTypeSize]
      have hlen := encodeVal_fix_length Ty.uint16 hfix v enc en henc
      have hl2 : enc.length = (_fixTypeSize Ty.uint16).toNat := by omega
      refine ⟨_fixTypeSize Ty.uint16, ?_, le_of_lt hfix⟩
      have hrun := dSkipByType_fix Ty.uint16 hfix s (enc ++ rest) hat
        (by simp only [List.length_append, hl2]; omega)
      rw [← hl2] at hrun
      exact hrun
  | int32 =>
      intro hx hp v enc en henc s rest hat
      have hfix : (0 : Int) < _fixTypeSize Ty.int32 := by norm_num [_fixTypeSize]
      have hlen := encodeVal_fix_length Ty.int32 hfix v enc en henc
      have hl2 : enc.length = (_fixTypeSize Ty.int32).toNat := by omega
      refine ⟨_fixTypeSize Ty.int32, ?_, le_of_lt hfix⟩
      have hrun := dSkipByType_fix Ty.int32 hfix s (enc ++ rest) hat
        (by simp only [List.length_append, hl2]; omega)
      rw [← hl2] at hrun
      exact hrun
  | uint32 =>
      intro hx hp v enc en henc s rest hat
      have hfix : (0 : Int) < _fixTypeSize Ty.uint32 := by norm_num [_fixTypeSize]
      have hlen := encodeVal_fix_length Ty.uint32 hfix v enc en henc
      have hl2 : enc.length = (_fixTypeSize Ty.uint32).toNat := by omega
      refine ⟨_fixTypeSize Ty.uint32, ?_, le_of_lt hfix⟩
      have hrun := dSkipByType_fix Ty.uint32 hfix s (enc ++ rest) hat
        (by simp only [List.length_append, hl2]; omega)
      rw [← hl2] at hrun
      exact hrun
  | int64 =>
      intro hx hp v enc en henc s rest hat
      have hfix : (0 : Int) < _fixTypeSize Ty.int64 := by norm_num [_fixTypeSize]
      have hlen := encodeVal_fix_length Ty.int64 hfix v enc en henc
      have hl2 : enc.length = (_fixTypeSize Ty.int64).toNat := by omega
      refine ⟨_fixTypeSize Ty.int64, ?_, le_of_lt hfix⟩
      have hrun := dSkipByType_fix Ty.int64 hfix s (enc ++ rest) hat
        (by simp only [List.length_append, hl2]; omega)
      rw [← hl2] at hrun
      exact hrun
  | uint64 =>
      intro hx hp v enc en henc s rest hat
      have hfix : (0 : Int) < _fixTypeSize Ty.uint64 := by norm_num [_fixTypeSize]
      have hlen := encodeVal_fix_length Ty.uint64 hfix v enc en henc
      have hl2 : enc.length = (_fixTypeSize Ty.uint64).toNat := by omega
      refine ⟨_fixTypeSize Ty.uint64, ?_, le_of_lt hfix⟩
      have hrun := dSkipByType_fix Ty.uint64 hfix s (enc ++ rest) hat
        (by simp only [List.length_append, hl2]; omega)
      rw [← hl2] at hrun
      exact hrun
  | float32 =>
      intro hx hp v enc en henc s rest hat
      have hfix : (0 : Int) < _fixTypeSize Ty.float32 := by norm_num [_fixTypeSize]
      have hlen := encodeVal_fix_length Ty.float32 hfix v enc en henc
      have hl2 : enc.length = (_fixTypeSize Ty.float32).toNat := by omega
      refine ⟨_fixTypeSize Ty.float32, ?_, le_of_lt hfix⟩
      have hrun := dSkipByType_fix Ty.float32 hfix s (enc ++ rest) hat
        (by simp only [List.length_append, hl2]; omega)
      rw [← hl2] at hrun
      exact hrun
  | float64 =>
      intro hx hp v enc en henc s rest hat
      have hfix : (0 : Int) < _fixTypeSize Ty.float64 := by norm_num [_fixTypeSize]
      have hlen := encodeVal_fix_length Ty.float64 hfix v enc en henc
      have hl2 : enc.length = (_fixTypeSize Ty.float64).toNat := by omega
      refine ⟨_fixTypeSize Ty.float64, ?_, le_of_lt hfix⟩
      have hrun := dSkipByType_fix Ty.float64 hfix s (enc ++ rest) hat
        (by simp only [List.length_append, hl2]; omega)
      rw [← hl2] at hrun
      exact hrun
  | complex64 =>
      intro hx hp v enc en henc s rest hat
      have hfix : (0 : Int) < _fixTypeSize Ty.complex64 := by norm_num [_fixTypeSize]
      have hlen := encodeVal_fix_length Ty.complex64 hfix v enc en henc
      have hl2 : enc.length = (_fixTypeSize Ty.complex64).toNat := by omega
      refine ⟨_fixTypeSize Ty.complex64, ?_, le_of_lt hfix⟩
      have hrun := dSkipByType_fix Ty.complex64 hfix s (enc ++ rest) hat
        (by simp only [List.length_append, hl2]; omega)
      rw [← hl2] at hrun
      exact hrun
  | complex128 =>
      intro hx hp v enc en henc s rest hat
      have hfix : (0 : Int) < _fixTypeSize Ty.complex128 := by norm_num [_fixTypeSize]
      have hlen := encodeVal_fix_length Ty.complex128 hfix v enc en henc
      have hl2 : enc.length = (_fixTypeSize Ty.complex128).toNat := by omega
      refine ⟨_fixTypeSize Ty.complex128, ?_, le_of_lt hfix⟩
      have hrun := dSkipByType_fix Ty.complex128 hfix s (enc ++ rest) hat
        (by simp only [List.length_append, hl2]; omega)
      rw [← hl2] at hrun
      exact hrun
  | int =>
      intro hx hp v enc en henc s rest hat
      cases v <;> simp only [encodeVal, Option.ite_none_right_eq_some,
        Option.some.injEq, reduceCtorEq] at henc
      rename_i n
      obtain ⟨⟨hr1, hr2⟩, rfl⟩ := henc
      have hlt := FromVarint_lt n hr1 hr2
      have huv := dUvarint_enc hlt hat
      refine ⟨((uvarintEncode (FromVarint n)).length : Int), ?_, by positivity⟩
      simp only [dSkipByType]
      rw [if_neg (by norm_num [_fixTypeSize])]
      simp only [dVarint, StateT.run_bind, huv, Option.bind_eq_bind, Option.some_bind]
      simp [StateT.run_pure]
  | uint =>
      intro hx hp v enc en henc s rest hat
      cases v <;> simp only [encodeVal, Option.ite_none_right_eq_some,
        Option.some.injEq, reduceCtorEq] at henc
      rename_i n
      obtain ⟨hlt, rfl⟩ := henc
      have huv := dUvarint_enc hlt hat
      refine ⟨((uvarintEncode n).length : Int), ?_, by positivity⟩
      simp only [dSkipByType]
      rw [if_neg (by norm_num [_fixTypeSize])]
      simp only [StateT.run_bind, huv, Option.bind_eq_bind, Option.some_bind]
      simp [StateT.run_pure]
  | str =>
      intro hx hp v enc en henc s rest hat
      cases v <;> simp only [encodeVal, Option.ite_none_right_eq_some,
        Option.some.injEq, reduceCtorEq] at henc
      rename_i bs
      obtain ⟨hl64, rfl⟩ := henc
      have hat1 : DAt s (uvarintEncode bs.length ++ (bs ++ rest)) := by
        simpa [List.append_assoc] using hat
      have huv := dUvarint_enc hl64 hat1
      have hat2 : DAt (advance s (uvarintEncode bs.length).length) (bs ++ rest) := by
        have := DAt_advance hat1 (uvarintEncode bs.length).length (by simp)
        simpa using this
      have hskip := dSkip_at hat2 bs.length (by simp)
      refine ⟨(bs.length : Int) + ((uvarintEncode bs.length).length : Int), ?_, by positivity⟩
      simp only [dSkipByType]
      rw [if_neg (by norm_num [_fixTypeSize])]
      simp only [StateT.run_bind, huv, Option.bind_eq_bind, Option.some_bind, hskip,
        StateT.run_pure, Option.pure_def, advance_advance]
      simp [List.length_append, Nat.add_comm]
  | slice e ih =>
      intro hx hp v enc en henc s rest hat
      simp only [noExcl] at hx
      simp only [noPtr] at hp
      cases v <;> simp only [encodeVal, reduceCtorEq] at henc
      rename_i xs
      by_cases hbe : e = Ty.bool
      · subst hbe
        simp only [Option.ite_none_right_eq_some, Option.some.injEq] at henc
        obtain ⟨⟨hl64, hall⟩, rfl⟩ := henc
        have hat1 : DAt s (uvarintEncode xs.length ++
            (packBits (xs.map valBool) ++ rest)) := by
          simpa [List.append_assoc] using hat
        have huv := dUvarint_enc hl64 hat1
        have hat2 : DAt (advance s (uvarintEncode xs.length).length)
            (packBits (xs.map valBool) ++ rest) := by
          have := DAt_advance hat1 (uvarintEncode xs.length).length (by simp)
          simpa using this
        have hplen : (packBits (xs.map valBool)).length = (xs.length + 7) / 8 := by
          simp [packBits_length]
        have hskip := dSkip_at hat2 ((xs.length + 7) / 8) (by simp [hplen])
        have hsz : sizeofBoolArray xs.length - SizeofUvarint xs.length =
            (xs.length + 7) / 8 := by
          simp [sizeofBoolArray]
        refine ⟨(sizeofBoolArray xs.length : Int), ?_, by positivity⟩
        simp only [dSkipByType]
        rw [if_neg (by norm_num [_fixTypeSize])]
        rw [dSkipSeq_bool]
        simp only [StateT.run_bind, huv, Option.bind_eq_bind, Option.some_bind, hsz, hskip,
          StateT.run_pure, Option.pure_def, advance_advance]
        simp only [List.length_append, hplen]
      · have henc2 : (if xs.length < 2 ^ 64 then do
            let body ← encodeList (encodeVal en e) xs
            pure (uvarintEncode xs.length ++ body) else none) = some enc := by
          cases e
          case bool => exact (hbe rfl).elim
          all_goals exact henc
        simp only [Option.ite_none_right_eq_some, Option.bind_eq_bind, Option.bind_eq_some,
          Option.pure_def, Option.some.injEq] at henc2
        obtain ⟨hl64, body, hbody, rfl⟩ := henc2
        have hat1 : DAt s (uvarintEncode xs.length ++ (body ++ rest)) := by
          simpa [List.append_assoc] using hat
        have huv := dUvarint_enc hl64 hat1
        have hat2 : DAt (advance s (uvarintEncode xs.length).length) (body ++ rest) := by
          have := DAt_advance hat1 (uvarintEncode xs.length).length (by simp)
          simpa using this
        by_cases hfe : 0 < _fixTypeSize e
        · have hblen := encodeList_fix_length e hfe en xs body hbody
          have hskip := dSkip_at hat2 (xs.length * (_fixTypeSize e).toNat)
            (by simp [hblen])
          refine ⟨((xs.length * (_fixTypeSize e).toNat : Nat) : Int), ?_, by positivity⟩
          simp only [dSkipByType]
          rw [if_neg (by norm_num [_fixTypeSize])]
          rw [dSkipSeq_fix e hfe hbe]
          simp only [StateT.run_bind, huv, Option.bind_eq_bind, Option.some_bind, hskip,
            StateT.run_pure, Option.pure_def, advance_advance]
          simp [List.length_append, hblen]
        · obtain ⟨r, hrun, hr⟩ := dSkipLoop_enc e (fun v2 enc2 en2 h2 s2 rest2 hat2 =>
            ih hx hp v2 enc2 en2 h2 s2 rest2 hat2) xs body en hbody
            ((uvarintEncode xs.length).length : Int) (by positivity)
            (advance s (uvarintEncode xs.length).length) rest hat2
          refine ⟨r, ?_, hr⟩
          simp only [dSkipByType]
          rw [if_neg (by norm_num [_fixTypeSize])]
          rw [dSkipSeq_loop e hfe]
          simp only [StateT.run_bind, huv, Option.bind_eq_bind, Option.some_bind, hrun,
            advance_advance]
          simp [List.length_append]
  | array nn e ih =>
      intro hx hp v enc en henc s rest hat
      simp only [noExcl] at hx
      simp only [noPtr] at hp
      cases v <;> simp only [encodeVal, reduceCtorEq] at henc
      rename_i xs
      by_cases hbe : e = Ty.bool
      · subst hbe
        simp only [Option.ite_none_right_eq_some, Option.some.injEq] at henc
        obtain ⟨⟨hxn, hl64, hall⟩, rfl⟩ := henc
        have hat1 : DAt s (uvarintEncode nn ++
            (packBits (xs.map valBool) ++ rest)) := by
          simpa [List.append_assoc] using hat
        have huv := dUvarint_enc hl64 hat1
        have hat2 : DAt (advance s (uvarintEncode nn).length)
            (packBits (xs.map valBool) ++ rest) := by
          have := DAt_advance hat1 (uvarintEncode nn).length (by simp)
          simpa using this
        have hplen : (packBits (xs.map valBool)).length = (nn + 7) / 8 := by
          simp [packBits_length, hxn]
        have hskip := dSkip_at hat2 ((nn + 7) / 8) (by simp [hplen])
        have hsz : sizeofBoolArray nn - SizeofUvarint nn = (nn + 7) / 8 := by
          simp [sizeofBoolArray]
        refine ⟨(sizeofBoolArray nn : Int), ?_, by positivity⟩
        simp only [dSkipByType]
        rw [if_neg (by norm_num [_fixTypeSize])]
        rw [dSkipSeq_bool]
        simp only [StateT.run_bind, huv, Option.bind_eq_bind, Option.some_bind, hsz, hskip,
          StateT.run_pure, Option.pure_def, advance_advance]
        simp only [List.length_append, hplen]
      · have henc2 : (if xs.length = nn ∧ nn < 2 ^ 64 then do
            let body ← encodeList (encodeVal en e) xs
            pure (uvarintEncode nn ++ body) else none) = some enc := by
          cases e
          case bool => exact (hbe rfl).elim
          all_goals exact henc
        simp only [Option.ite_none_right_eq_some, Option.bind_eq_bind, Option.bind_eq_some,
          Option.pure_def, Option.some.injEq] at henc2
        obtain ⟨⟨hxn, hl64⟩, body, hbody, rfl⟩ := henc2
        have hat1 : DAt s (uvarintEncode nn ++ (body ++ rest)) := by
          simpa [List.append_assoc] using hat
        have huv := dUvarint_enc hl64 hat1
        have hat2 : DAt (advance s (uvarintEncode nn).length) (body ++ rest) := by
          have := DAt_advance hat1 (uvarintEncode nn).length (by simp)
          simpa using this
        by_cases hfe : 0 < _fixTypeSize e
        · have hblen := encodeList_fix_length e hfe en xs body hbody
          rw [hxn] at hblen
          have hskip := dSkip_at hat2 (nn * (_fixTypeSize e).toNat)
            (by simp [hblen])
          refine ⟨((nn * (_fixTypeSize e).toNat : Nat) : Int), ?_, by positivity⟩
          simp only [dSkipByType]
          rw [if_neg (by norm_num [_fixTypeSize])]
          rw [dSkipSeq_fix e hfe hbe]
          simp only [StateT.run_bind, huv, Option.bind_eq_bind, Option.some_bind, hskip,
            StateT.run_pure, Option.pure_def, advance_advance]
          simp [List.length_append, hblen]
        · obtain ⟨r, hrun, hr⟩ := dSkipLoop_enc e (fun v2 enc2 en2 h2 s2 rest2 hat2 =>
            ih hx hp v2 enc2 en2 h2 s2 rest2 hat2) xs body en hbody
            ((uvarintEncode nn).length : Int) (by positivity)
            (advance s (uvarintEncode nn).length) rest hat2
          rw [hxn] at hrun
          refine ⟨r, ?_, hr⟩
          simp only [dSkipByType]
          rw [if_neg (by norm_num [_fixTypeSize])]
          rw [dSkipSeq_loop e hfe]
          simp only [StateT.run_bind, huv, Option.bind_eq_bind, Option.some_bind, hrun,
            advance_advance]
          simp [List.length_append]
  | map kt vt ih1 ih2 =>
      intro hx hp v enc en henc s rest hat
      simp only [noExcl, Bool.and_eq_true] at hx
      simp only [noPtr, Bool.and_eq_true] at hp
      cases v <;> simp only [encodeVal, reduceCtorEq] at henc
      rename_i es
      simp only [Option.ite_none_right_eq_some, Option.bind_eq_bind, Option.bind_eq_some,
        Option.pure_def, Option.some.injEq] at henc
      obtain ⟨hl64, body, hbody, rfl⟩ := henc
      have hat1 : DAt s (uvarintEncode es.length ++ (body ++ rest)) := by
        simpa [List.append_assoc] using hat
      have huv := dUvarint_enc hl64 hat1
      have hat2 : DAt (advance s (uvarintEncode es.length).length) (body ++ rest) := by
        have := DAt_advance hat1 (uvarintEncode es.length).length (by simp)
        simpa using this
      obtain ⟨r, hrun, hr⟩ := dSkipMapLoop_enc kt vt
        (fun v2 enc2 en2 h2 s2 rest2 hat2 => ih1 hx.1 hp.1 v2 enc2 en2 h2 s2 rest2 hat2)
        (fun v2 enc2 en2 h2 s2 rest2 hat2 => ih2 hx.2 hp.2 v2 enc2 en2 h2 s2 rest2 hat2)
        es body en hbody ((uvarintEncode es.length).length : Int) (by positivity)
        (advance s (uvarintEncode es.length).length) rest hat2
      refine ⟨r, ?_, hr⟩
      simp only [dSkipByType]
      rw [if_neg (by norm_num [_fixTypeSize])]
      simp only [StateT.run_bind, huv, Option.bind_eq_bind, Option.some_bind, hrun,
        advance_advance]
      simp [List.length_append]
  | fnil =>
      intro hx hp v enc en henc s rest hat
      cases v <;> simp only [encodeVal, reduceCtorEq] at henc
      rename_i vs
      cases vs <;> simp only [Option.some.injEq, reduceCtorEq] at henc
      obtain rfl := henc.symm
      refine ⟨0, ?_, le_refl 0⟩
      simp only [dSkipByType]
      rw [if_neg (by norm_num [_fixTypeSize])]
      simp [StateT.run_pure, advance_zero]
  | fcons f incl frest ih1 ih2 =>
      intro hx hp v enc en henc s rest hat
      simp only [noExcl, Bool.and_eq_true] at hx
      obtain ⟨⟨hincl, hxf⟩, hxr⟩ := hx
      simp only [noPtr, Bool.and_eq_true] at hp
      obtain ⟨hpf, hpr⟩ := hp
      subst hincl
      cases v <;> simp only [encodeVal, reduceCtorEq] at henc
      rename_i vs
      cases vs with
      | nil => simp at henc
      | cons v1 vrest =>
          simp only [if_true, Option.bind_eq_bind, Option.bind_eq_some,
            Option.pure_def, Option.some.injEq] at henc
          obtain ⟨e1, he1, er, her, rfl⟩ := henc
          have hat1 : DAt s (e1 ++ (er ++ rest)) := by
            simpa [List.append_assoc] using hat
          obtain ⟨r1, hr1, hr1n⟩ := ih1 hxf hpf v1 e1 en he1 s (er ++ rest) hat1
          have hat2 : DAt (advance s e1.length) (er ++ rest) := by
            have := DAt_advance hat1 e1.length (by simp)
            simpa using this
          obtain ⟨r2, hr2, hr2n⟩ := ih2 hxr hpr (.structv vrest) er en her
            (advance s e1.length) rest hat2
          refine ⟨r1 + r2, ?_, by omega⟩
          simp only [dSkipByType]
          rw [if_neg (by norm_num [_fixTypeSize])]
          simp only [StateT.run_bind, hr1, Option.bind_eq_bind, Option.some_bind]
          rw [if_neg (by omega)]
          simp only [StateT.run_bind, hr2, Option.bind_eq_bind, Option.some_bind]
          rw [if_neg (by omega)]
          simp only [StateT.run_pure, Option.pure_def, advance_advance]
          simp [List.length_append]
  | ptr e ih =>
      intro hx hp
      simp [noPtr] at hp

theorem isBool_valBool (v : Val) (h : isBoolVal v = true) : Val.bool (valBool v) = v := by
  cases v
  case bool => rfl
  all_goals simp [isBoolVal] at h

theorem writeBits_packBits (xs : List Val) (hall : xs.all isBoolVal = true)
    (ys : List Val) (hlen : ys.length = xs.length) :
    writeBits (packBits (xs.map valBool)) 0 xs.length ys = xs := by
  apply List.ext_getElem
  · rw [writeBits_length, hlen]
  · intro j hj1 hj2
    have hjw : j < xs.length := hj2
    have h1 : (writeBits (packBits (xs.map valBool)) 0 xs.length ys)[j] =
        (writeBits (packBits (xs.map valBool)) 0 xs.length ys).getD j (.bool false) := by
      rw [List.getD_eq_getElem?_getD, List.getElem?_eq_getElem hj1]
      rfl
    rw [h1, writeBits_getD, if_pos ⟨Nat.zero_le j, by omega, by omega⟩]
    rw [bitOf_packBits _ j (by simpa using hjw)]
    have h2 : (xs.map valBool).getD j false = valBool xs[j] := by
      rw [List.getD_eq_getElem?_getD, List.getElem?_map, List.getElem?_eq_getElem hjw]
      rfl
    rw [h2]
    exact isBool_valBool xs[j] (List.all_eq_true.mp hall xs[j] (xs.getElem_mem hjw))

theorem dBoolArray_array_run (nn : Nat) (l : Nat) (hl : l < 2 ^ 64) (cur : List Val)
    (s : DState) (data rest : List Nat)
    (hat : DAt s (uvarintEncode l ++ (data ++ rest)))
    (hdata : data.length = (l + 7) / 8) (hcur : l ≤ cur.length) :
    (dBoolArray (.array nn .bool) (.list cur)).run s =
      some (((sizeofBoolArray l : Int), Val.list (writeBits data 0 l cur)),
        advance s ((uvarintEncode l).length + (l + 7) / 8)) := by
  have huv := dUvarint_enc hl hat
  have hat1 : DAt (advance s (uvarintEncode l).length) (data ++ rest) := by
    have := DAt_advance hat (uvarintEncode l).length (by simp)
    simpa using this
  have hbits := dBoolBits_run l 0 0 cur
    (advance s (uvarintEncode l).length) data rest hat1 (by simpa using hdata)
    (by omega) (by omega)
  simp only [Nat.zero_add] at hbits
  have hadv0 : advance (advance s (uvarintEncode l).length) ((0 + 7) / 8) =
      advance s (uvarintEncode l).length := by
    norm_num [advance_zero]
  rw [hadv0] at hbits
  simp only [dBoolArray, valList, StateT.run_bind, huv, Option.bind_eq_bind, Option.some_bind]
  rw [hbits]
  simp only [Option.some_bind, StateT.run_pure, Option.pure_def, advance_advance]

theorem dBoolArray_slice_nonbool (e : Ty) (hbe : e ≠ Ty.bool) (cur : Val) :
    dBoolArray (.slice e) cur = pure (-1, cur) := by
  cases e
  case bool => exact (hbe rfl).elim
  all_goals rfl

theorem dBoolArray_array_nonbool (nn : Nat) (e : Ty) (hbe : e ≠ Ty.bool) (cur : Val) :
    dBoolArray (.array nn e) cur = pure (-1, cur) := by
  cases e
  case bool => exact (hbe rfl).elim
  all_goals rfl

theorem defaultVal_chain (rest : Ty)
    (hchain : (match rest with
      | Ty.fnil => true | Ty.fcons _ _ _ => true | _ => false) = true) :
    Val.structv (valFields (defaultVal rest)) = defaultVal rest := by
  cases rest
  case fnil => rfl
  case fcons f incl r => rw [defaultVal_fields]; rfl
  all_goals simp at hchain

theorem set_append_len {α : Type} (pre : List α) (l2 : List α) (v : α) :
    (pre ++ l2).set pre.length v = pre ++ l2.set 0 v := by
  induction pre with
  | nil => simp
  | cons a pre ih => simp [ih]

theorem dValueElems_past (e : Ty) (hx : noExcl e = true) (hp : noPtr e = true) :
    ∀ (vs : List Val) (body : List Nat) (en : Endian),
      encodeList (encodeVal en e) vs = some body →
    ∀ (i : Nat) (xs : List Val), xs.length ≤ i →
    ∀ (s : DState) (rest : List Nat), DAt s (body ++ rest) →
      (dValueElems (dValue e) (dSkipByType e) vs.length i xs).run s =
        some (xs, advance s body.length) := by
  intro vs
  induction vs with
  | nil =>
      intro body en h i xs hi s rest hat
      simp only [encodeList, Option.some.injEq] at h
      subst h
      simp [dValueElems, StateT.run_pure, advance_zero]
  | cons v vs ih =>
      intro body en h i xs hi s rest hat
      simp only [encodeList, Option.bind_eq_bind, Option.bind_eq_some,
        Option.pure_def, Option.some.injEq] at h
      obtain ⟨e1, he1, brest, hbrest, rfl⟩ := h
      have hat1 : DAt s (e1 ++ (brest ++ rest)) := by rwa [← List.append_assoc]
      obtain ⟨r1, hr1, -⟩ := dSkipByType_enc e hx hp v e1 en he1 s (brest ++ rest) hat1
      have hat2 : DAt (advance s e1.length) (brest ++ rest) := by
        have := DAt_advance hat1 e1.length (by simp)
        simpa using this
      have h2 := ih brest en hbrest (i + 1) xs (by omega) (advance s e1.length) rest hat2
      simp only [List.length_cons, dValueElems]
      rw [dif_neg (by omega)]
      simp only [StateT.run_bind, hr1, Option.bind_eq_bind, Option.some_bind, h2,
        advance_advance]
      simp [List.length_append]

theorem dValueElems_full (e : Ty) (hx : noExcl e = true) (hp : noPtr e = true)
    (IH : ∀ (v : Val) (enc : List Nat) (en : Endian), encodeVal en e v = some enc →
      ∀ (s : DState) (rest : List Nat), s.endian = en → DAt s (enc ++ rest) →
      (dValue e (defaultVal e)).run s = some ((v, none), advance s enc.length)) :
    ∀ (vs : List Val) (body : List Nat) (en : Endian),
      encodeList (encodeVal en e) vs = some body →
    ∀ (pre : List Val) (k : Nat),
    ∀ (s : DState) (rest : List Nat), s.endian = en → DAt s (body ++ rest) →
      (dValueElems (dValue e) (dSkipByType e) vs.length pre.length
          (pre ++ List.replicate k (defaultVal e))).run s =
        some (pre ++ vs.take k ++ List.replicate (k - vs.length) (defaultVal e),
          advance s body.length) := by
  intro vs
  induction vs with
  | nil =>
      intro body en h pre k s rest hen hat
      simp only [encodeList, Option.some.injEq] at h
      subst h
      simp [dValueElems, StateT.run_pure, advance_zero]
  | cons v vs ih =>
      intro body en h pre k s rest hen hat
      simp only [encodeList, Option.bind_eq_bind, Option.bind_eq_some,
        Option.pure_def, Option.some.injEq] at h
      obtain ⟨e1, he1, brest, hbrest, rfl⟩ := h
      have hat1 : DAt s (e1 ++ (brest ++ rest)) := by rwa [← List.append_assoc]
      have hat2 : DAt (advance s e1.length) (brest ++ rest) := by
        have := DAt_advance hat1 e1.length (by simp)
        simpa using this
      cases k with
      | zero =>
          obtain ⟨r1, hr1, -⟩ := dSkipByType_enc e hx hp v e1 en he1 s (brest ++ rest) hat1
          have h2 := dValueElems_past e hx hp vs brest en hbrest (pre.length + 1) pre
            (by omega) (advance s e1.length) rest hat2
          simp only [List.length_cons, List.replicate_zero, List.append_nil, dValueElems]
          rw [dif_neg (by omega)]
          simp only [StateT.run_bind, hr1, Option.bind_eq_bind, Option.some_bind, h2,
            advance_advance]
          simp [List.length_append]
      | succ k =>
          have hlt : pre.length < (pre ++ List.replicate (k + 1) (defaultVal e)).length := by
            simp only [List.length_append, List.length_replicate]
            omega
          have hget : (pre ++ List.replicate (k + 1) (defaultVal e))[pre.length] =
              defaultVal e := by
            rw [List.getElem_append_right (le_refl pre.length)]
            simp
          have hdec := IH v e1 en he1 s (brest ++ rest) hen hat1
          have hset : (pre ++ List.replicate (k + 1) (defaultVal e)).set pre.length v =
              (pre ++ [v]) ++ List.replicate k (defaultVal e) := by
            rw [set_append_len]
            simp [List.replicate_succ, List.append_assoc]
          have hrec := ih brest en hbrest (pre ++ [v]) k (advance s e1.length) rest
            (by simpa [advance] using hen) hat2
          simp only [List.length_append, List.length_cons, List.length_nil] at hrec
          simp only [List.length_cons, dValueElems]
          rw [dif_pos (by simp only [List.length_append, List.length_replicate]; omega)]
          simp only [StateT.run_bind, hget, hdec, Option.bind_eq_bind, Option.some_bind,
            hset, hrec, advance_advance]
          simp [List.length_append, List.append_assoc, List.take_succ_cons]

theorem dMapElems_enc (kt vt : Ty)
    (IHk : ∀ (v : Val) (enc : List Nat) (en : Endian), encodeVal en kt v = some enc →
      ∀ (s : DState) (rest : List Nat), s.endian = en → DAt s (enc ++ rest) →
      (dValue kt (defaultVal kt)).run s = some ((v, none), advance s enc.length))
    (IHv : ∀ (v : Val) (enc : List Nat) (en : Endian), encodeVal en vt v = some enc →
      ∀ (s : DState) (rest : List Nat), s.endian = en → DAt s (enc ++ rest) →
      (dValue vt (defaultVal vt)).run s = some ((v, none), advance s enc.length)) :
    ∀ (es : List (Val × Val)) (body : List Nat) (en : Endian),
      encodePairs (encodeVal en kt) (encodeVal en vt) es = some body →
    ∀ (acc : List (Val × Val)),
    ∀ (s : DState) (rest : List Nat), s.endian = en → DAt s (body ++ rest) →
      (dMapElems (dValue kt) (dValue vt) (defaultVal kt) (defaultVal vt)
          es.length acc).run s =
        some (acc ++ es, advance s body.length) := by
  intro es
  induction es with
  | nil =>
      intro body en h acc s rest hen hat
      simp only [encodePairs, Option.some.injEq] at h
      subst h
      simp [dMapElems, StateT.run_pure, advance_zero]
  | cons p es ih =>
      obtain ⟨k, v⟩ := p
      intro body en h acc s rest hen hat
      simp only [encodePairs, Option.bind_eq_bind, Option.bind_eq_some,
        Option.pure_def, Option.some.injEq] at h
      obtain ⟨ek, hek, ev, hev, brest, hbrest, rfl⟩ := h
      have hat1 : DAt s (ek ++ (ev ++ (brest ++ rest))) := by
        simpa [List.append_assoc] using hat
      have hdk := IHk k ek en hek s (ev ++ (brest ++ rest)) hen hat1
      have hat2 : DAt (advance s ek.length) (ev ++ (brest ++ rest)) := by
        have := DAt_advance hat1 ek.length (by simp)
        simpa using this
      have hdv := IHv v ev en hev (advance s ek.length) (brest ++ rest)
        (by simpa [advance] using hen) hat2
      have hat3 : DAt (advance (advance s ek.length) ev.length) (brest ++ rest) := by
        have := DAt_advance hat2 ev.length (by simp)
        simpa using this
      have hrec := ih brest en hbrest (acc ++ [(k, v)])
        (advance (advance s ek.length) ev.length) rest
        (by simpa [advance] using hen) hat3
      simp only [advance_advance] at hrec
      simp only [List.length_cons, dMapElems, StateT.run_bind, hdk,
        Option.bind_eq_bind, Option.some_bind, hdv, advance_advance, hrec]
      simp [List.length_append, List.append_assoc, Nat.add_assoc]

/-- Decoding into a fresh default destination inverts the wire encoding:
the buffer value engine returns exactly the encoded value, no error, and
advances the cursor by exactly the encoding's length. -/
theorem dValue_enc (t : Ty) :
    ∀ (ht : tyOk t = true) (hx : noExcl t = true) (hp : noPtr t = true)
      (v : Val) (enc : List Nat) (en : Endian), encodeVal en t v = some enc →
    ∀ (s : DState) (rest : List Nat), s.endian = en → DAt s (enc ++ rest) →
      (dValue t (defaultVal t)).run s = some ((v, none), advance s enc.length) := by
  induction t with
  | bool =>
      intro ht hx hp v enc en henc s rest hen hat
      cases v <;> simp only [encodeVal, Option.some.injEq, reduceCtorEq] at henc
      rename_i b
      subst henc
      have hb := dBool_at (show DAt s (cond b 1 0 :: rest) by simpa using hat)
      simp only [dValue, StateT.run_bind, hb, Option.bind_eq_bind,
        Option.some_bind, StateT.run_pure, Option.pure_def]
      have hdb : decide (cond b 1 0 ≠ 0) = b := by cases b <;> rfl
      simp [hdb]
  | int8 =>
      intro ht hx hp v enc en henc s rest hen hat
      cases v <;> simp only [encodeVal, Option.ite_none_right_eq_some,
        Option.some.injEq, reduceCtorEq] at henc
      rename_i n
      obtain ⟨⟨h1, h2⟩, rfl⟩ := henc
      have hb := dUint8_at (show DAt s ((n % 256).toNat :: rest) by simpa using hat)
      have hts : toSigned 8 (n % 256).toNat = n := by
        have h256 : (256 : Int) = 2 ^ 8 := by norm_num
        rw [h256]
        exact toSigned_emod 8 (by norm_num) n (by omega) (by omega)
      simp only [dValue, dInt8, StateT.run_bind, hb, Option.bind_eq_bind,
        Option.some_bind, StateT.run_pure, Option.pure_def, hts]
      simp
  | uint8 =>
      intro ht hx hp v enc en henc s rest hen hat
      cases v <;> simp only [encodeVal, Option.ite_none_right_eq_some,
        Option.some.injEq, reduceCtorEq] at henc
      rename_i n
      obtain ⟨hlt, rfl⟩ := henc
      have hb := dUint8_at (show DAt s (n :: rest) by simpa using hat)
      simp only [dValue, StateT.run_bind, hb, Option.bind_eq_bind,
        Option.some_bind, StateT.run_pure, Option.pure_def]
      simp
  | int16 =>
      intro ht hx hp v enc en henc s rest hen hat
      cases v <;> simp only [encodeVal, Option.ite_none_right_eq_some,
        Option.some.injEq, reduceCtorEq] at henc
      rename_i n
      obtain ⟨⟨h1, h2⟩, rfl⟩ := henc
      have hnn : (0 : Int) ≤ n % ((2 : Int) ^ 16) := Int.emod_nonneg n (by positivity)
      have hlt : n % ((2 : Int) ^ 16) < (2 : Int) ^ 16 :=
        Int.emod_lt_of_pos n (by positivity)
      have hu := dUint16_at hat (by simp [encodeFixed_length])
      rw [hen, toUint_encodeFixed en 2 (n % ((2 : Int) ^ 16)).toNat (by omega)] at hu
      have hts := toSigned_emod 16 (by norm_num) n (by omega) (by omega)
      simp only [dValue, dInt16, StateT.run_bind, hu, Option.bind_eq_bind,
        Option.some_bind, StateT.run_pure, Option.pure_def, hts]
      simp [encodeFixed_length]
  | uint16 =>
      intro ht hx hp v enc en henc s rest hen hat
      cases v <;> simp only [encodeVal, Option.ite_none_right_eq_some,
        Option.some.injEq, reduceCtorEq] at henc
      rename_i n
      obtain ⟨hlt, rfl⟩ := henc
      have hu := dUint16_at hat (by simp [encodeFixed_length])
      rw [hen, toUint_encodeFixed en 2 n (by omega)] at hu
      simp only [dValue, StateT.run_bind, hu, Option.bind_eq_bind,
        Option.some_bind, StateT.run_pure, Option.pure_def]
      simp [encodeFixed_length]
  | int32 =>
      intro ht hx hp v enc en henc s rest hen hat
      cases v <;> simp only [encodeVal, Option.ite_none_right_eq_some,
        Option.some.injEq, reduceCtorEq] at henc
      rename_i n
      obtain ⟨⟨h1, h2⟩, rfl⟩ := henc
      have hnn : (0 : Int) ≤ n % ((2 : Int) ^ 32) := Int.emod_nonneg n (by positivity)
      have hlt : n % ((2 : Int) ^ 32) < (2 : Int) ^ 32 :=
        Int.emod_lt_of_pos n (by positivity)
      have hu := dUint32_at hat (by simp [encodeFixed_length])
      rw [hen, toUint_encodeFixed en 4 (n % ((2 : Int) ^ 32)).toNat (by omega)] at hu
      have hts := toSigned_emod 32 (by norm_num) n (by omega) (by omega)
      simp only [dValue, dInt32, StateT.run_bind, hu, Option.bind_eq_bind,
        Option.some_bind, StateT.run_pure, Option.pure_def, hts]
      simp [encodeFixed_length]
  | uint32 =>
      intro ht hx hp v enc en henc s rest hen hat
      cases v <;> simp only [encodeVal, Option.ite_none_right_eq_some,
        Option.some.injEq, reduceCtorEq] at henc
      rename_i n
      obtain ⟨hlt, rfl⟩ := henc
      have hu := dUint32_at hat (by simp [encodeFixed_length])
      rw [hen, toUint_encodeFixed en 4 n (by omega)] at hu
      simp only [dValue, StateT.run_bind, hu, Option.bind_eq_bind,
        Option.some_bind, StateT.run_pure, Option.pure_def]
      simp [encodeFixed_length]
  | int64 =>
      intro ht hx hp v enc en henc s rest hen hat
      cases v <;> simp only [encodeVal, Option.ite_none_right_eq_some,
        Option.some.injEq, reduceCtorEq] at henc
      rename_i n
      obtain ⟨⟨h1, h2⟩, rfl⟩ := henc
      have hnn : (0 : Int) ≤ n % ((2 : Int) ^ 64) := Int.emod_nonneg n (by positivity)
      have hlt : n % ((2 : Int) ^ 64) < (2 : Int) ^ 64 :=
        Int.emod_lt_of_pos n (by positivity)
      have hu := dUint64_at hat (by simp [encodeFixed_length])
      rw [hen, toUint_encodeFixed en 8 (n % ((2 : Int) ^ 64)).toNat (by omega)] at hu
      have hts := toSigned_emod 64 (by norm_num) n (by omega) (by omega)
      simp only [dValue, dInt64, StateT.run_bind, hu, Option.bind_eq_bind,
        Option.some_bind, StateT.run_pure, Option.pure_def, hts]
      simp [encodeFixed_length]
  | uint64 =>
      intro ht hx hp v enc en henc s rest hen hat
      cases v <;> simp only [encodeVal, Option.ite_none_right_eq_some,
        Option.some.injEq, reduceCtorEq] at henc
      rename_i n
      obtain ⟨hlt, rfl⟩ := henc
      have hu := dUint64_at hat (by simp [encodeFixed_length])
      rw [hen, toUint_encodeFixed en 8 n (by omega)] at hu
      simp only [dValue, StateT.run_bind, hu, Option.bind_eq_bind,
        Option.some_bind, StateT.run_pure, Option.pure_def]
      simp [encodeFixed_length]
  | float32 =>
      intro ht hx hp v enc en henc s rest hen hat
      cases v <;> simp only [encodeVal, Option.ite_none_right_eq_some,
        Option.some.injEq, reduceCtorEq] at henc
      rename_i b
      obtain ⟨hlt, rfl⟩ := henc
      have hu := dUint32_at hat (by simp [encodeFixed_length])
      rw [hen, toUint_encodeFixed en 4 b (by omega)] at hu
      simp only [dValue, dFloat32, StateT.run_bind, hu, Option.bind_eq_bind,
        Option.some_bind, StateT.run_pure, Option.pure_def]
      simp [encodeFixed_length]
  | float64 =>
      intro ht hx hp v enc en henc s rest hen hat
      cases v <;> simp only [encodeVal, Option.ite_none_right_eq_some,
        Option.some.injEq, reduceCtorEq] at henc
      rename_i b
      obtain ⟨hlt, rfl⟩ := henc
      have hu := dUint64_at hat (by simp [encodeFixed_length])
      rw [hen, toUint_encodeFixed en 8 b (by omega)] at hu
      simp only [dValue, dFloat64, StateT.run_bind, hu, Option.bind_eq_bind,
        Option.some_bind, StateT.run_pure, Option.pure_def]
      simp [encodeFixed_length]
  | complex64 =>
      intro ht hx hp v enc en henc s rest hen hat
      cases v <;> simp only [encodeVal, Option.ite_none_right_eq_some,
        Option.some.injEq, reduceCtorEq] at henc
      rename_i re im
      obtain ⟨⟨hre, him⟩, rfl⟩ := henc
      have hat1 : DAt s (encodeFixed en 4 re ++ (encodeFixed en 4 im ++ rest)) := by
        simpa [List.append_assoc] using hat
      have hu1 := dUint32_at hat1 (by simp [encodeFixed_length])
      rw [hen, toUint_encodeFixed en 4 re (by omega)] at hu1
      have hat2 : DAt (advance s 4) (encodeFixed en 4 im ++ rest) := by
        have := DAt_advance hat1 (encodeFixed en 4 re).length (by simp)
        simpa [encodeFixed_length] using this
      have hu2 := dUint32_at hat2 (by simp [encodeFixed_length])
      rw [show (advance s 4).endian = en from hen,
        toUint_encodeFixed en 4 im (by omega)] at hu2
      simp only [dValue, dComplex64, dFloat32, StateT.run_bind, hu1, Option.bind_eq_bind,
        Option.some_bind, hu2, StateT.run_pure, Option.pure_def, advance_advance]
      simp [List.length_append, encodeFixed_length]
  | complex128 =>
      intro ht hx hp v enc en henc s rest hen hat
      cases v <;> simp only [encodeVal, Option.ite_none_right_eq_some,
        Option.some.injEq, reduceCtorEq] at henc
      rename_i re im
      obtain ⟨⟨hre, him⟩, rfl⟩ := henc
      have hat1 : DAt s (encodeFixed en 8 re ++ (encodeFixed en 8 im ++ rest)) := by
        simpa [List.append_assoc] using hat
      have hu1 := dUint64_at hat1 (by simp [encodeFixed_length])
      rw [hen, toUint_encodeFixed en 8 re (by omega)] at hu1
      have hat2 : DAt (advance s 8) (encodeFixed en 8 im ++ rest) := by
        have := DAt_advance hat1 (encodeFixed en 8 re).length (by simp)
        simpa [encodeFixed_length] using this
      have hu2 := dUint64_at hat2 (by simp [encodeFixed_length])
      rw [show (advance s 8).endian = en from hen,
        toUint_encodeFixed en 8 im (by omega)] at hu2
      simp only [dValue, dComplex128, dFloat64, StateT.run_bind, hu1, Option.bind_eq_bind,
        Option.some_bind, hu2, StateT.run_pure, Option.pure_def, advance_advance]
      simp [List.length_append, encodeFixed_length]
  | str =>
      intro ht hx hp v enc en henc s rest hen hat
      cases v <;> simp only [encodeVal, Option.ite_none_right_eq_some,
        Option.some.injEq, reduceCtorEq] at henc
      rename_i bs
      obtain ⟨hl64, rfl⟩ := henc
      have hat1 : DAt s (uvarintEncode bs.length ++ (bs ++ rest)) := by
        simpa [List.append_assoc] using hat
      have huv := dUvarint_enc hl64 hat1
      have hat2 : DAt (advance s (uvarintEncode bs.length).length) (bs ++ rest) := by
        have := DAt_advance hat1 (uvarintEncode bs.length).length (by simp)
        simpa using this
      have hres := dReserveExact hat2
      simp only [dValue, dString, StateT.run_bind, huv, Option.bind_eq_bind,
        Option.some_bind, hres, StateT.run_pure, Option.pure_def, advance_advance]
      simp [List.length_append, Nat.add_comm]
  | int =>
      intro ht hx hp v enc en henc s rest hen hat
      cases v <;> simp only [encodeVal, Option.ite_none_right_eq_some,
        Option.some.injEq, reduceCtorEq] at henc
      rename_i n
      obtain ⟨⟨h1, h2⟩, rfl⟩ := henc
      have hlt := FromVarint_lt n h1 h2
      have huv := dUvarint_enc hlt hat
      simp only [dValue, dInt, dVarint, StateT.run_bind, huv, Option.bind_eq_bind,
        Option.some_bind, StateT.run_pure, Option.pure_def, ToVarint_FromVarint]
  | uint =>
      intro ht hx hp v enc en henc s rest hen hat
      cases v <;> simp only [encodeVal, Option.ite_none_right_eq_some,
        Option.some.injEq, reduceCtorEq] at henc
      rename_i n
      obtain ⟨hlt, rfl⟩ := henc
      have huv := dUvarint_enc hlt hat
      simp only [dValue, dUint, StateT.run_bind, huv, Option.bind_eq_bind,
        Option.some_bind, StateT.run_pure, Option.pure_def]
  | slice e ih =>
      intro ht hx hp v enc en henc s rest hen hat
      simp only [tyOk] at ht
      simp only [noExcl] at hx
      simp only [noPtr] at hp
      cases v <;> simp only [encodeVal, reduceCtorEq] at henc
      rename_i xs
      by_cases hbe : e = Ty.bool
      · subst hbe
        simp only [Option.ite_none_right_eq_some, Option.some.injEq] at henc
        obtain ⟨⟨hl64, hall⟩, rfl⟩ := henc
        have hat1 : DAt s (uvarintEncode xs.length ++
            (packBits (xs.map valBool) ++ rest)) := by
          simpa [List.append_assoc] using hat
        have hba := dBoolArray_slice_run xs.length hl64 [] s (packBits (xs.map valBool))
          rest hat1 (by simp [packBits_length])
        have hw : writeBits (packBits (xs.map valBool)) 0 xs.length
            (if 0 < xs.length then List.replicate xs.length (Val.bool false)
              else ([] : List Val)) = xs := by
          apply writeBits_packBits xs hall
          by_cases h0 : 0 < xs.length
          · simp [h0]
          · simp only [if_neg h0, List.length_nil]
            omega
        rw [hw] at hba
        simp only [dValue, defaultVal, StateT.run_bind, hba, Option.bind_eq_bind,
          Option.some_bind]
        rw [if_neg (by exact not_lt.mpr (by positivity))]
        simp only [StateT.run_pure, Option.pure_def]
        simp [List.length_append, packBits_length, sizeofBoolArray, SizeofUvarint]
      · have henc2 : (if xs.length < 2 ^ 64 then do
            let body ← encodeList (encodeVal en e) xs
            pure (uvarintEncode xs.length ++ body) else none) = some enc := by
          cases e
          case bool => exact (hbe rfl).elim
          all_goals exact henc
        simp only [Option.ite_none_right_eq_some, Option.bind_eq_bind, Option.bind_eq_some,
          Option.pure_def, Option.some.injEq] at henc2
        obtain ⟨hl64, body, hbody, rfl⟩ := henc2
        have hat1 : DAt s (uvarintEncode xs.length ++ (body ++ rest)) := by
          simpa [List.append_assoc] using hat
        have huv := dUvarint_enc hl64 hat1
        have hat2 : DAt (advance s (uvarintEncode xs.length).length) (body ++ rest) := by
          have := DAt_advance hat1 (uvarintEncode xs.length).length (by simp)
          simpa using this
        have hfull := dValueElems_full e hx hp
          (fun v2 enc2 en2 h2 s2 rest2 hen2 hat2 => ih ht hx hp v2 enc2 en2 h2 s2 rest2 hen2 hat2)
          xs body en hbody [] xs.length
          (advance s (uvarintEncode xs.length).length) rest
          (by simpa [advance] using hen) hat2
        simp only [List.length_nil, List.nil_append, List.take_length, Nat.sub_self,
          List.replicate_zero, List.append_nil] at hfull
        simp only [dValue, defaultVal]
        rw [dBoolArray_slice_nonbool e hbe]
        simp only [StateT.run_bind, StateT.run_pure, Option.pure_def, Option.bind_eq_bind,
          Option.some_bind]
        rw [if_pos (show ((-1 : Int)) < 0 by norm_num)]
        simp only [StateT.run_bind, huv, Option.bind_eq_bind, Option.some_bind, hfull,
          advance_advance, StateT.run_pure, Option.pure_def]
        simp [List.length_append]
  | array nn e ih =>
      intro ht hx hp v enc en henc s rest hen hat
      simp only [tyOk] at ht
      simp only [noExcl] at hx
      simp only [noPtr] at hp
      cases v <;> simp only [encodeVal, reduceCtorEq] at henc
      rename_i xs
      by_cases hbe : e = Ty.bool
      · subst hbe
        simp only [Option.ite_none_right_eq_some, Option.some.injEq] at henc
        obtain ⟨⟨hxn, hl64, hall⟩, rfl⟩ := henc
        subst hxn
        have hat1 : DAt s (uvarintEncode xs.length ++
            (packBits (xs.map valBool) ++ rest)) := by
          simpa [List.append_assoc] using hat
        have hba := dBoolArray_array_run xs.length xs.length hl64
          (List.replicate xs.length (Val.bool false)) s (packBits (xs.map valBool))
          rest hat1 (by simp [packBits_length]) (by simp)
        have hw : writeBits (packBits (xs.map valBool)) 0 xs.length
            (List.replicate xs.length (Val.bool false)) = xs :=
          writeBits_packBits xs hall _ (by simp)
        rw [hw] at hba
        have hdef : defaultVal (Ty.array xs.length Ty.bool) =
            Val.list (List.replicate xs.length (Val.bool false)) := rfl
        simp only [dValue, hdef, StateT.run_bind, hba, Option.bind_eq_bind,
          Option.some_bind]
        rw [if_neg (by exact not_lt.mpr (by positivity))]
        simp only [StateT.run_pure, Option.pure_def]
        simp [List.length_append, packBits_length, sizeofBoolArray, SizeofUvarint]
      · have henc2 : (if xs.length = nn ∧ nn < 2 ^ 64 then do
            let body ← encodeList (encodeVal en e) xs
            pure (uvarintEncode nn ++ body) else none) = some enc := by
          cases e
          case bool => exact (hbe rfl).elim
          all_goals exact henc
        simp only [Option.ite_none_right_eq_some, Option.bind_eq_bind, Option.bind_eq_some,
          Option.pure_def, Option.some.injEq] at henc2
        obtain ⟨⟨hxn, hl64⟩, body, hbody, rfl⟩ := henc2
        subst hxn
        have hat1 : DAt s (uvarintEncode xs.length ++ (body ++ rest)) := by
          simpa [List.append_assoc] using hat
        have huv := dUvarint_enc hl64 hat1
        have hat2 : DAt (advance s (uvarintEncode xs.length).length) (body ++ rest) := by
          have := DAt_advance hat1 (uvarintEncode xs.length).length (by simp)
          simpa using this
        have hfull := dValueElems_full e hx hp
          (fun v2 enc2 en2 h2 s2 rest2 hen2 hat2 => ih ht hx hp v2 enc2 en2 h2 s2 rest2 hen2 hat2)
          xs body en hbody [] xs.length
          (advance s (uvarintEncode xs.length).length) rest
          (by simpa [advance] using hen) hat2
        simp only [List.length_nil, List.nil_append, List.take_length, Nat.sub_self,
          List.replicate_zero, List.append_nil] at hfull
        have hdef : defaultVal (Ty.array xs.length e) =
            Val.list (List.replicate xs.length (defaultVal e)) := rfl
        simp only [dValue, hdef]
        rw [dBoolArray_array_nonbool xs.length e hbe]
        simp only [StateT.run_bind, StateT.run_pure, Option.pure_def, Option.bind_eq_bind,
          Option.some_bind]
        rw [if_pos (show ((-1 : Int)) < 0 by norm_num)]
        simp only [valList, StateT.run_bind, huv, Option.bind_eq_bind, Option.some_bind,
          hfull, advance_advance, StateT.run_pure, Option.pure_def]
        simp [List.length_append]
  | map kt vt ih1 ih2 =>
      intro ht hx hp v enc en henc s rest hen hat
      simp only [tyOk, Bool.and_eq_true] at ht
      simp only [noExcl, Bool.and_eq_true] at hx
      simp only [noPtr, Bool.and_eq_true] at hp
      cases v <;> simp only [encodeVal, reduceCtorEq] at henc
      rename_i es
      simp only [Option.ite_none_right_eq_some, Option.bind_eq_bind, Option.bind_eq_some,
        Option.pure_def, Option.some.injEq] at henc
      obtain ⟨hl64, body, hbody, rfl⟩ := henc
      have hat1 : DAt s (uvarintEncode es.length ++ (body ++ rest)) := by
        simpa [List.append_assoc] using hat
      have huv := dUvarint_enc hl64 hat1
      have hat2 : DAt (advance s (uvarintEncode es.length).length) (body ++ rest) := by
        have := DAt_advance hat1 (uvarintEncode es.length).length (by simp)
        simpa using this
      have hm := dMapElems_enc kt vt
        (fun v2 enc2 en2 h2 s2 rest2 hen2 hat2 =>
          ih1 ht.1 hx.1 hp.1 v2 enc2 en2 h2 s2 rest2 hen2 hat2)
        (fun v2 enc2 en2 h2 s2 rest2 hen2 hat2 =>
          ih2 ht.2 hx.2 hp.2 v2 enc2 en2 h2 s2 rest2 hen2 hat2)
        es body en hbody [] (advance s (uvarintEncode es.length).length) rest
        (by simpa [advance] using hen) hat2
      simp only [List.nil_append] at hm
      simp only [dValue, StateT.run_bind, huv, Option.bind_eq_bind, Option.some_bind,
        hm, advance_advance, StateT.run_pure, Option.pure_def]
      simp [List.length_append]
  | fnil =>
      intro ht hx hp v enc en henc s rest hen hat
      cases v <;> simp only [encodeVal, reduceCtorEq] at henc
      rename_i vs
      cases vs <;> simp only [Option.some.injEq, reduceCtorEq] at henc
      subst henc
      simp [dValue, StateT.run_pure, advance_zero]
  | fcons f incl frest ih1 ih2 =>
      intro ht hx hp v enc en henc s rest hen hat
      simp only [tyOk, Bool.and_eq_true] at ht
      obtain ⟨⟨htf, htr⟩, hchain⟩ := ht
      simp only [noExcl, Bool.and_eq_true] at hx
      obtain ⟨⟨hincl, hxf⟩, hxr⟩ := hx
      simp only [noPtr, Bool.and_eq_true] at hp
      obtain ⟨hpf, hpr⟩ := hp
      subst hincl
      cases v <;> simp only [encodeVal, reduceCtorEq] at henc
      rename_i vs
      cases vs with
      | nil => simp at henc
      | cons v1 vrest =>
          simp only [if_true, Option.bind_eq_bind, Option.bind_eq_some,
            Option.pure_def, Option.some.injEq] at henc
          obtain ⟨e1, he1, er, her, rfl⟩ := henc
          have hat1 : DAt s (e1 ++ (er ++ rest)) := by
            simpa [List.append_assoc] using hat
          have hd1 := ih1 htf hxf hpf v1 e1 en he1 s (er ++ rest) hen hat1
          have hat2 : DAt (advance s e1.length) (er ++ rest) := by
            have := DAt_advance hat1 e1.length (by simp)
            simpa using this
          have hd2 := ih2 htr hxr hpr (.structv vrest) er en her (advance s e1.length)
            rest (by simpa [advance] using hen) hat2
          simp only [dValue, defaultVal_fields, structHeadTail]
          rw [defaultVal_chain frest hchain]
          simp only [if_true, StateT.run_bind, hd1, Option.bind_eq_bind, Option.some_bind,
            StateT.run_pure, Option.pure_def, hd2, advance_advance, valFields]
          simp [List.length_append]
  | ptr e ih =>
      intro ht hx hp
      simp [noPtr] at hp

/-- C1 counterexample: for a slice of a fixed-size element type the skip
engine consumes the same bytes as decode but returns a count that omits
the length prefix (here: returns 1 after consuming 2); and for a record
with an excluded field, skip consumes the field's bytes while decode
consumes nothing. -/
theorem C1_counterexample :
    ((dSkipByType (.slice .uint8)).run ⟨[1, 7], 0, .little⟩ =
        some (1, ⟨[1, 7], 2, .little⟩) ∧
      (dValue (.slice .uint8) (.list [])).run ⟨[1, 7], 0, .little⟩ =
        some ((.list [.u8 7], none), ⟨[1, 7], 2, .little⟩) ∧
      (1 : Int) ≠ 2) ∧
    ((dValue (.fcons .bool false .fnil) (.structv [.bool false])).run ⟨[7], 0, .little⟩ =
        some ((.structv [.bool false], none), ⟨[7], 0, .little⟩) ∧
      (dSkipByType (.fcons .bool false .fnil)).run ⟨[7], 0, .little⟩ =
        some (1, ⟨[7], 1, .little⟩)) :=
  ⟨⟨rfl, rfl, by norm_num⟩, rfl, rfl⟩

/-- C1 (amended): on any wire encoding of a shape without excluded
fields or references, the buffer skip engine ends at exactly the cursor
position where decoding into a fresh default destination ends, and
returns a nonnegative count (which can be smaller than the bytes
consumed, e.g. for slices of fixed-size elements). -/
theorem C1_skip_value_consumption (t : Ty) (ht : tyOk t = true) (hx : noExcl t = true)
    (hp : noPtr t = true) (v : Val) (enc : List Nat) (en : Endian)
    (henc : encodeVal en t v = some enc) (s : DState) (rest : List Nat)
    (hen : s.endian = en) (hat : DAt s (enc ++ rest)) :
    ∃ r : Int, 0 ≤ r ∧
      (dSkipByType t).run s = some (r, advance s enc.length) ∧
      (dValue t (defaultVal t)).run s = some ((v, none), advance s enc.length) := by
  obtain ⟨r, hr, hrn⟩ := dSkipByType_enc t hx hp v enc en henc s rest hat
  exact ⟨r, hrn, hr, dValue_enc t ht hx hp v enc en henc s rest hen hat⟩

/-- Witness for C1 at the slice-of-uint8 shape. -/
theorem C1_skip_value_consumption_witness :
    ∃ r : Int, 0 ≤ r ∧
      (dSkipByType (.slice .uint8)).run ⟨[1, 7], 0, .little⟩ =
        some (r, advance ⟨[1, 7], 0, .little⟩ 2) ∧
      (dValue (.slice .uint8) (defaultVal (.slice .uint8))).run ⟨[1, 7], 0, .little⟩ =
        some ((.list [.u8 7], none), advance ⟨[1, 7], 0, .little⟩ 2) :=
  C1_skip_value_consumption (.slice .uint8) rfl rfl rfl (.list [.u8 7]) [1, 7] .little rfl
    ⟨[1, 7], 0, .little⟩ [] rfl ⟨by norm_num, rfl⟩

/-- C5 counterexample: in the stream backend (cited source
decoder_reader.go value), decoding a 5-element int sequence into a
3-slot array leaves the destination's defaults untouched and consumes
only the count byte, because the unsupported-int element error is
swallowed per element; the buffer backend decodes the first 3 values
and lands past the whole sequence. -/
theorem C5_counterexample :
    encodeVal .little (.slice .int) (.list [.int 1, .int 1, .int 1, .int 1, .int 1]) =
        some [5, 2, 2, 2, 2, 2] ∧
    (dValue (.array 3 .int) (.list [.int 0, .int 0, .int 0])).run
        ⟨[5, 2, 2, 2, 2, 2], 0, .little⟩ =
      some ((.list [.int 1, .int 1, .int 1], none), ⟨[5, 2, 2, 2, 2, 2], 6, .little⟩) ∧
    (rValue (.array 3 .int) (.list [.int 0, .int 0, .int 0])).run
        ⟨[5, 2, 2, 2, 2, 2], .little⟩ =
      some ((.list [.int 0, .int 0, .int 0], none), ⟨[2, 2, 2, 2, 2], .little⟩) :=
  ⟨rfl, rfl, rfl⟩

/-- C5 (amended, buffer backend): decoding a count-`N` sequence encoding
into a fixed `L`-slot array destination (non-bool element shape without
excluded fields or references) decodes the first `min L N` encoded
elements into the slots, skips the surplus, and ends at exactly the
position a full decode of all `N` elements would reach. -/
theorem C5_capacity_limited (e : Ty) (hbe : e ≠ Ty.bool) (ht : tyOk e = true)
    (hx : noExcl e = true) (hp : noPtr e = true)
    (vs : List Val) (enc : List Nat) (en : Endian)
    (henc : encodeVal en (.slice e) (.list vs) = some enc)
    (L : Nat) (s : DState) (rest : List Nat)
    (hen : s.endian = en) (hat : DAt s (enc ++ rest)) :
    (dValue (.array L e) (defaultVal (.array L e))).run s =
      some ((.list (vs.take L ++ List.replicate (L - vs.length) (defaultVal e)), none),
        advance s enc.length) := by
  have henc2 : (if vs.length < 2 ^ 64 then do
      let body ← encodeList (encodeVal en e) vs
      pure (uvarintEncode vs.length ++ body) else none) = some enc := by
    cases e
    case bool => exact (hbe rfl).elim
    all_goals exact henc
  simp only [Option.ite_none_right_eq_some, Option.bind_eq_bind, Option.bind_eq_some,
    Option.pure_def, Option.some.injEq] at henc2
  obtain ⟨hl64, body, hbody, rfl⟩ := henc2
  have hat1 : DAt s (uvarintEncode vs.length ++ (body ++ rest)) := by
    simpa [List.append_assoc] using hat
  have huv := dUvarint_enc hl64 hat1
  have hat2 : DAt (advance s (uvarintEncode vs.length).length) (body ++ rest) := by
    have := DAt_advance hat1 (uvarintEncode vs.length).length (by simp)
    simpa using this
  have hfull := dValueElems_full e hx hp
    (fun v2 enc2 en2 h2 s2 rest2 hen2 hat2 =>
      dValue_enc e ht hx hp v2 enc2 en2 h2 s2 rest2 hen2 hat2)
    vs body en hbody [] L
    (advance s (uvarintEncode vs.length).length) rest
    (by simpa [advance] using hen) hat2
  simp only [List.length_nil, List.nil_append] at hfull
  have hdef : defaultVal (Ty.array L e) = Val.list (List.replicate L (defaultVal e)) := rfl
  simp only [dValue, hdef]
  rw [dBoolArray_array_nonbool L e hbe]
  simp only [StateT.run_bind, StateT.run_pure, Option.pure_def, Option.bind_eq_bind,
    Option.some_bind]
  rw [if_pos (show ((-1 : Int)) < 0 by norm_num)]
  simp only [valList, StateT.run_bind, huv, Option.bind_eq_bind, Option.some_bind,
    hfull, advance_advance, StateT.run_pure, Option.pure_def]
  simp [List.length_append]

/-- Witness for C5: five uint8 elements into a 3-slot array. -/
theorem C5_capacity_limited_witness :
    (dValue (.array 3 .uint8) (defaultVal (.array 3 .uint8))).run
        ⟨[5, 1, 2, 3, 4, 5], 0, .little⟩ =
      some ((.list [.u8 1, .u8 2, .u8 3], none), ⟨[5, 1, 2, 3, 4, 5], 6, .little⟩) :=
  C5_capacity_limited .uint8 (fun h => Ty.noConfusion h) rfl rfl rfl
    [.u8 1, .u8 2, .u8 3, .u8 4, .u8 5] [5, 1, 2, 3, 4, 5] .little rfl 3
    ⟨[5, 1, 2, 3, 4, 5], 0, .little⟩ [] rfl ⟨by norm_num, rfl⟩

theorem rReserveExact {pre rest : List Nat} {e : Endian} :
    (rReserve pre.length).run ⟨pre ++ rest, e⟩ = some (pre, ⟨rest, e⟩) := by
  have := @rReserve_pre pre rest e pre.length (le_refl pre.length)
  simpa using this

theorem rUint16_pre {pre rest : List Nat} {e : Endian} (hw : pre.length = 2) :
    rUint16.run ⟨pre ++ rest, e⟩ = some (e.toUint pre, ⟨rest, e⟩) := by
  have hr := @rReserveExact pre rest e
  rw [hw] at hr
  simp only [rUint16, StateT.run] at hr ⊢
  rw [hr]
  rfl

theorem rUint32_pre {pre rest : List Nat} {e : Endian} (hw : pre.length = 4) :
    rUint32.run ⟨pre ++ rest, e⟩ = some (e.toUint pre, ⟨rest, e⟩) := by
  have hr := @rReserveExact pre rest e
  rw [hw] at hr
  simp only [rUint32, StateT.run] at hr ⊢
  rw [hr]
  rfl

theorem rUint64_pre {pre rest : List Nat} {e : Endian} (hw : pre.length = 8) :
    rUint64.run ⟨pre ++ rest, e⟩ = some (e.toUint pre, ⟨rest, e⟩) := by
  have hr := @rReserveExact pre rest e
  rw [hw] at hr
  simp only [rUint64, StateT.run] at hr ⊢
  rw [hr]
  rfl

theorem rBoolArray_array_run (nn l : Nat) (hl : l < 2 ^ 64) (cur : List Val)
    (e : Endian) (data rest : List Nat)
    (hdata : data.length = (l + 7) / 8) (hcur : l ≤ cur.length) :
    (rBoolArray (.array nn .bool) (.list cur)).run ⟨uvarintEncode l ++ (data ++ rest), e⟩ =
      some (((sizeofBoolArray l : Int), Val.list (writeBits data 0 l cur)),
        (⟨rest, e⟩ : RState)) := by
  have huv := @rUvarint_enc l hl e (data ++ rest)
  have hbits := rBoolBits_run l 0 0 cur e data rest (by simpa using hdata)
    (by omega) (by omega)
  simp only [Nat.zero_add] at hbits
  have hdrop0 : data.drop ((0 + 7) / 8) = data := by norm_num
  rw [hdrop0] at hbits
  simp only [rBoolArray, valList, StateT.run_bind, huv, Option.bind_eq_bind, Option.some_bind]
  rw [hbits]
  simp [StateT.run_pure]

theorem rBoolArray_slice_nonbool (e : Ty) (hbe : e ≠ Ty.bool) (cur : Val) :
    rBoolArray (.slice e) cur = pure (-1, cur) := by
  cases e
  case bool => exact (hbe rfl).elim
  all_goals rfl

theorem rBoolArray_array_nonbool (nn : Nat) (e : Ty) (hbe : e ≠ Ty.bool) (cur : Val) :
    rBoolArray (.array nn e) cur = pure (-1, cur) := by
  cases e
  case bool => exact (hbe rfl).elim
  all_goals rfl

theorem rValueElems_exact (e : Ty)
    (IH : ∀ (v : Val) (enc : List Nat) (en : Endian), encodeVal en e v = some enc →
      ∀ (rest : List Nat),
      (rValue e (defaultVal e)).run ⟨enc ++ rest, en⟩ = some ((v, none), ⟨rest, en⟩)) :
    ∀ (vs : List Val) (body : List Nat) (en : Endian),
      encodeList (encodeVal en e) vs = some body →
    ∀ (pre : List Val) (rest : List Nat),
      (rValueElems (rValue e) (rSkipByType e) vs.length pre.length
          (pre ++ List.replicate vs.length (defaultVal e))).run ⟨body ++ rest, en⟩ =
        some (pre ++ vs, ⟨rest, en⟩) := by
  intro vs
  induction vs with
  | nil =>
      intro body en h pre rest
      simp only [encodeList, Option.some.injEq] at h
      subst h
      simp [rValueElems, StateT.run_pure]
  | cons v vs ih =>
      intro body en h pre rest
      simp only [encodeList, Option.bind_eq_bind, Option.bind_eq_some,
        Option.pure_def, Option.some.injEq] at h
      obtain ⟨e1, he1, brest, hbrest, rfl⟩ := h
      have hlt : pre.length <
          (pre ++ List.replicate (vs.length + 1) (defaultVal e)).length := by
        simp only [List.length_append, List.length_replicate]
        omega
      have hget : (pre ++ List.replicate (vs.length + 1) (defaultVal e))[pre.length] =
          defaultVal e := by
        rw [List.getElem_append_right (le_refl pre.length)]
        simp
      have hdec := IH v e1 en he1 (brest ++ rest)
      have hset : (pre ++ List.replicate (vs.length + 1) (defaultVal e)).set pre.length v =
          (pre ++ [v]) ++ List.replicate vs.length (defaultVal e) := by
        rw [set_append_len]
        simp [List.replicate_succ, List.append_assoc]
      have hrec := ih brest en hbrest (pre ++ [v]) rest
      simp only [List.length_append, List.length_cons, List.length_nil] at hrec
      simp only [List.length_cons, rValueElems]
      rw [dif_pos hlt, List.append_assoc]
      simp only [StateT.run_bind, hget, hdec, Option.bind_eq_bind, Option.some_bind,
        hset, hrec]
      simp [List.append_assoc]

theorem rMapElems_enc (kt vt : Ty)
    (IHk : ∀ (v : Val) (enc : List Nat) (en : Endian), encodeVal en kt v = some enc →
      ∀ (rest : List Nat),
      (rValue kt (defaultVal kt)).run ⟨enc ++ rest, en⟩ = some ((v, none), ⟨rest, en⟩))
    (IHv : ∀ (v : Val) (enc : List Nat) (en : Endian), encodeVal en vt v = some enc →
      ∀ (rest : List Nat),
      (rValue vt (defaultVal vt)).run ⟨enc ++ rest, en⟩ = some ((v, none), ⟨rest, en⟩)) :
    ∀ (es : List (Val × Val)) (body : List Nat) (en : Endian),
      encodePairs (encodeVal en kt) (encodeVal en vt) es = some body →
    ∀ (acc : List (Val × Val)) (rest : List Nat),
      (rMapElems (rValue kt) (rValue vt) (defaultVal kt) (defaultVal vt)
          es.length acc).run ⟨body ++ rest, en⟩ =
        some (acc ++ es, ⟨rest, en⟩) := by
  intro es
  induction es with
  | nil =>
      intro body en h acc rest
      simp only [encodePairs, Option.some.injEq] at h
      subst h
      simp [rMapElems, StateT.run_pure]
  | cons p es ih =>
      obtain ⟨k, v⟩ := p
      intro body en h acc rest
      simp only [encodePairs, Option.bind_eq_bind, Option.bind_eq_some,
        Option.pure_def, Option.some.injEq] at h
      obtain ⟨ek, hek, ev, hev, brest, hbrest, rfl⟩ := h
      have hdk := IHk k ek en hek (ev ++ (brest ++ rest))
      have hdv := IHv v ev en hev (brest ++ rest)
      have hrec := ih brest en hbrest (acc ++ [(k, v)]) rest
      simp only [List.length_cons, rMapElems]
      rw [List.append_assoc, List.append_assoc]
      simp only [StateT.run_bind, hdk, Option.bind_eq_bind, Option.some_bind, hdv, hrec]
      simp [List.append_assoc]

/-- Stream-backend counterpart of `dValue_enc`, for shapes without
natural int/uint components (which the reader does not support). -/
theorem rValue_enc (t : Ty) :
    ∀ (ht : tyOk t = true) (hx : noExcl t = true) (hp : noPtr t = true)
      (hni : noIntUint t = true)
      (v : Val) (enc : List Nat) (en : Endian), encodeVal en t v = some enc →
    ∀ (rest : List Nat),
      (rValue t (defaultVal t)).run ⟨enc ++ rest, en⟩ = some ((v, none), ⟨rest, en⟩) := by
  induction t with
  | bool =>
      intro ht hx hp hni v enc en henc rest
      cases v <;> simp only [encodeVal, Option.some.injEq, reduceCtorEq] at henc
      rename_i b
      subst henc
      have hb := @rBool_pre (cond b 1 0) rest en
      have hdb : decide (cond b 1 0 ≠ 0) = b := by cases b <;> rfl
      simp only [List.singleton_append, rValue, StateT.run_bind, hb, Option.bind_eq_bind,
        Option.some_bind, StateT.run_pure, Option.pure_def, hdb]
  | int8 =>
      intro ht hx hp hni v enc en henc rest
      cases v <;> simp only [encodeVal, Option.ite_none_right_eq_some,
        Option.some.injEq, reduceCtorEq] at henc
      rename_i n
      obtain ⟨⟨h1, h2⟩, rfl⟩ := henc
      have hb := @rUint8_pre ((n % 256).toNat) rest en
      have hts : toSigned 8 (n % 256).toNat = n := by
        have h256 : (256 : Int) = 2 ^ 8 := by norm_num
        rw [h256]
        exact toSigned_emod 8 (by norm_num) n (by omega) (by omega)
      simp only [List.singleton_append, rValue, rInt8, StateT.run_bind, hb,
        Option.bind_eq_bind, Option.some_bind, StateT.run_pure, Option.pure_def, hts]
  | uint8 =>
      intro ht hx hp hni v enc en henc rest
      cases v <;> simp only [encodeVal, Option.ite_none_right_eq_some,
        Option.some.injEq, reduceCtorEq] at henc
      rename_i n
      obtain ⟨hlt, rfl⟩ := henc
      have hb := @rUint8_pre n rest en
      simp only [List.singleton_append, rValue, StateT.run_bind, hb, Option.bind_eq_bind,
        Option.some_bind, StateT.run_pure, Option.pure_def]
  | int16 =>
      intro ht hx hp hni v enc en henc rest
      cases v <;> simp only [encodeVal, Option.ite_none_right_eq_some,
        Option.some.injEq, reduceCtorEq] at henc
      rename_i n
      obtain ⟨⟨h1, h2⟩, rfl⟩ := henc
      have hnn : (0 : Int) ≤ n % ((2 : Int) ^ 16) := Int.emod_nonneg n (by positivity)
      have hlt : n % ((2 : Int) ^ 16) < (2 : Int) ^ 16 :=
        Int.emod_lt_of_pos n (by positivity)
      have hu := @rUint16_pre (encodeFixed en 2 (n % ((2 : Int) ^ 16)).toNat) rest en
        (by simp [encodeFixed_length])
      rw [toUint_encodeFixed en 2 (n % ((2 : Int) ^ 16)).toNat (by omega)] at hu
      have hts := toSigned_emod 16 (by norm_num) n (by omega) (by omega)
      simp only [rValue, rInt16, StateT.run_bind, hu, Option.bind_eq_bind,
        Option.some_bind, StateT.run_pure, Option.pure_def, hts]
  | uint16 =>
      intro ht hx hp hni v enc en henc rest
      cases v <;> simp only [encodeVal, Option.ite_none_right_eq_some,
        Option.some.injEq, reduceCtorEq] at henc
      rename_i n
      obtain ⟨hlt, rfl⟩ := henc
      have hu := @rUint16_pre (encodeFixed en 2 n) rest en (by simp [encodeFixed_length])
      rw [toUint_encodeFixed en 2 n (by omega)] at hu
      simp only [rValue, StateT.run_bind, hu, Option.bind_eq_bind,
        Option.some_bind, StateT.run_pure, Option.pure_def]
  | int32 =>
      intro ht hx hp hni v enc en henc rest
      cases v <;> simp only [encodeVal, Option.ite_none_right_eq_some,
        Option.some.injEq, reduceCtorEq] at henc
      rename_i n
      obtain ⟨⟨h1, h2⟩, rfl⟩ := henc
      have hnn : (0 : Int) ≤ n % ((2 : Int) ^ 32) := Int.emod_nonneg n (by positivity)
      have hlt : n % ((2 : Int) ^ 32) < (2 : Int) ^ 32 :=
        Int.emod_lt_of_pos n (by positivity)
      have hu := @rUint32_pre (encodeFixed en 4 (n % ((2 : Int) ^ 32)).toNat) rest en
        (by simp [encodeFixed_length])
      rw [toUint_encodeFixed en 4 (n % ((2 : Int) ^ 32)).toNat (by omega)] at hu
      have hts := toSigned_emod 32 (by norm_num) n (by omega) (by omega)
      simp only [rValue, rInt32, StateT.run_bind, hu, Option.bind_eq_bind,
        Option.some_bind, StateT.run_pure, Option.pure_def, hts]
  | uint32 =>
      intro ht hx hp hni v enc en henc rest
      cases v <;> simp only [encodeVal, Option.ite_none_right_eq_some,
        Option.some.injEq, reduceCtorEq] at henc
      rename_i n
      obtain ⟨hlt, rfl⟩ := henc
      have hu := @rUint32_pre (encodeFixed en 4 n) rest en (by simp [encodeFixed_length])
      rw [toUint_encodeFixed en 4 n (by omega)] at hu
      simp only [rValue, StateT.run_bind, hu, Option.bind_eq_bind,
        Option.some_bind, StateT.run_pure, Option.pure_def]
  | int64 =>
      intro ht hx hp hni v enc en henc rest
      cases v <;> simp only [encodeVal, Option.ite_none_right_eq_some,
        Option.some.injEq, reduceCtorEq] at henc
      rename_i n
      obtain ⟨⟨h1, h2⟩, rfl⟩ := henc
      have hnn : (0 : Int) ≤ n % ((2 : Int) ^ 64) := Int.emod_nonneg n (by positivity)
      have hlt : n % ((2 : Int) ^ 64) < (2 : Int) ^ 64 :=
        Int.emod_lt_of_pos n (by positivity)
      have hu := @rUint64_pre (encodeFixed en 8 (n % ((2 : Int) ^ 64)).toNat) rest en
        (by simp [encodeFixed_length])
      rw [toUint_encodeFixed en 8 (n % ((2 : Int) ^ 64)).toNat (by omega)] at hu
      have hts := toSigned_emod 64 (by norm_num) n (by omega) (by omega)
      simp only [rValue, rInt64, StateT.run_bind, hu, Option.bind_eq_bind,
        Option.some_bind, StateT.run_pure, Option.pure_def, hts]
  | uint64 =>
      intro ht hx hp hni v enc en henc rest
      cases v <;> simp only [encodeVal, Option.ite_none_right_eq_some,
        Option.some.injEq, reduceCtorEq] at henc
      rename_i n
      obtain ⟨hlt, rfl⟩ := henc
      have hu := @rUint64_pre (encodeFixed en 8 n) rest en (by simp [encodeFixed_length])
      rw [toUint_encodeFixed en 8 n (by omega)] at hu
      simp only [rValue, StateT.run_bind, hu, Option.bind_eq_bind,
        Option.some_bind, StateT.run_pure, Option.pure_def]
  | float32 =>
      intro ht hx hp hni v enc en henc rest
      cases v <;> simp only [encodeVal, Option.ite_none_right_eq_some,
        Option.some.injEq, reduceCtorEq] at henc
      rename_i b
      obtain ⟨hlt, rfl⟩ := henc
      have hu := @rUint32_pre (encodeFixed en 4 b) rest en (by simp [encodeFixed_length])
      rw [toUint_encodeFixed en 4 b (by omega)] at hu
      simp only [rValue, rFloat32, StateT.run_bind, hu, Option.bind_eq_bind,
        Option.some_bind, StateT.run_pure, Option.pure_def]
  | float64 =>
      intro ht hx hp hni v enc en henc rest
      cases v <;> simp only [encodeVal, Option.ite_none_right_eq_some,
        Option.some.injEq, reduceCtorEq] at henc
      rename_i b
      obtain ⟨hlt, rfl⟩ := henc
      have hu := @rUint64_pre (encodeFixed en 8 b) rest en (by simp [encodeFixed_length])
      rw [toUint_encodeFixed en 8 b (by omega)] at hu
      simp only [rValue, rFloat64, StateT.run_bind, hu, Option.bind_eq_bind,
        Option.some_bind, StateT.run_pure, Option.pure_def]
  | complex64 =>
      intro ht hx hp hni v enc en henc rest
      cases v <;> simp only [encodeVal, Option.ite_none_right_eq_some,
        Option.some.injEq, reduceCtorEq] at henc
      rename_i re im
      obtain ⟨⟨hre, him⟩, rfl⟩ := henc
      have hu1 := @rUint32_pre (encodeFixed en 4 re) (encodeFixed en 4 im ++ rest) en
        (by simp [encodeFixed_length])
      rw [toUint_encodeFixed en 4 re (by omega)] at hu1
      have hu2 := @rUint32_pre (encodeFixed en 4 im) rest en
        (by simp [encodeFixed_length])
      rw [toUint_encodeFixed en 4 im (by omega)] at hu2
      rw [List.append_assoc]
      simp only [rValue, rComplex64, rFloat32, StateT.run_bind, hu1, Option.bind_eq_bind,
        Option.some_bind, hu2, StateT.run_pure, Option.pure_def]
  | complex128 =>
      intro ht hx hp hni v enc en henc rest
      cases v <;> simp only [encodeVal, Option.ite_none_right_eq_some,
        Option.some.injEq, reduceCtorEq] at henc
      rename_i re im
      obtain ⟨⟨hre, him⟩, rfl⟩ := henc
      have hu1 := @rUint64_pre (encodeFixed en 8 re) (encodeFixed en 8 im ++ rest) en
        (by simp [encodeFixed_length])
      rw [toUint_encodeFixed en 8 re (by omega)] at hu1
      have hu2 := @rUint64_pre (encodeFixed en 8 im) rest en
        (by simp [encodeFixed_length])
      rw [toUint_encodeFixed en 8 im (by omega)] at hu2
      rw [List.append_assoc]
      simp only [rValue, rComplex128, rFloat64, StateT.run_bind, hu1, Option.bind_eq_bind,
        Option.some_bind, hu2, StateT.run_pure, Option.pure_def]
  | str =>
      intro ht hx hp hni v enc en henc rest
      cases v <;> simp only [encodeVal, Option.ite_none_right_eq_some,
        Option.some.injEq, reduceCtorEq] at henc
      rename_i bs
      obtain ⟨hl64, rfl⟩ := henc
      have huv := @rUvarint_enc bs.length hl64 en (bs ++ rest)
      have hres := @rReserveExact bs rest en
      rw [List.append_assoc]
      simp only [rValue, rString, StateT.run_bind, huv, Option.bind_eq_bind,
        Option.some_bind, hres, StateT.run_pure, Option.pure_def]
  | int =>
      intro ht hx hp hni
      simp [noIntUint] at hni
  | uint =>
      intro ht hx hp hni
      simp [noIntUint] at hni
  | slice e ih =>
      intro ht hx hp hni v enc en henc rest
      simp only [tyOk] at ht
      simp only [noExcl] at hx
      simp only [noPtr] at hp
      simp only [noIntUint] at hni
      cases v <;> simp only [encodeVal, reduceCtorEq] at henc
      rename_i xs
      by_cases hbe : e = Ty.bool
      · subst hbe
        simp only [Option.ite_none_right_eq_some, Option.some.injEq] at henc
        obtain ⟨⟨hl64, hall⟩, rfl⟩ := henc
        have hba := rBoolArray_slice_run xs.length hl64 [] en
          (packBits (xs.map valBool)) rest (by simp [packBits_length])
        have hw : writeBits (packBits (xs.map valBool)) 0 xs.length
            (if 0 < xs.length then List.replicate xs.length (Val.bool false)
              else ([] : List Val)) = xs := by
          apply writeBits_packBits xs hall
          by_cases h0 : 0 < xs.length
          · simp [h0]
          · simp only [if_neg h0, List.length_nil]
            omega
        rw [hw] at hba
        rw [List.append_assoc]
        simp only [rValue, defaultVal, StateT.run_bind, hba, Option.bind_eq_bind,
          Option.some_bind]
        rw [if_neg (by exact not_lt.mpr (by positivity))]
        simp only [StateT.run_pure, Option.pure_def]
      · have henc2 : (if xs.length < 2 ^ 64 then do
            let body ← encodeList (encodeVal en e) xs
            pure (uvarintEncode xs.length ++ body) else none) = some enc := by
          cases e
          case bool => exact (hbe rfl).elim
          all_goals exact henc
        simp only [Option.ite_none_right_eq_some, Option.bind_eq_bind, Option.bind_eq_some,
          Option.pure_def, Option.some.injEq] at henc2
        obtain ⟨hl64, body, hbody, rfl⟩ := henc2
        have huv := @rUvarint_enc xs.length hl64 en (body ++ rest)
        have hfull := rValueElems_exact e
          (fun v2 enc2 en2 h2 rest2 => ih ht hx hp hni v2 enc2 en2 h2 rest2)
          xs body en hbody [] rest
        simp only [List.length_nil, List.nil_append] at hfull
        rw [List.append_assoc]
        simp only [rValue, defaultVal]
        rw [rBoolArray_slice_nonbool e hbe]
        simp only [StateT.run_bind, StateT.run_pure, Option.pure_def, Option.bind_eq_bind,
          Option.some_bind]
        rw [if_pos (show ((-1 : Int)) < 0 by norm_num)]
        simp only [StateT.run_bind, huv, Option.bind_eq_bind, Option.some_bind, hfull,
          StateT.run_pure, Option.pure_def]
  | array nn e ih =>
      intro ht hx hp hni v enc en henc rest
      simp only [tyOk] at ht
      simp only [noExcl] at hx
      simp only [noPtr] at hp
      simp only [noIntUint] at hni
      cases v <;> simp only [encodeVal, reduceCtorEq] at henc
      rename_i xs
      by_cases hbe : e = Ty.bool
      · subst hbe
        simp only [Option.ite_none_right_eq_some, Option.some.injEq] at henc
        obtain ⟨⟨hxn, hl64, hall⟩, rfl⟩ := henc
        subst hxn
        have hba := rBoolArray_array_run xs.length xs.length hl64
          (List.replicate xs.length (Val.bool false)) en (packBits (xs.map valBool))
          rest (by simp [packBits_length]) (by simp)
        have hw : writeBits (packBits (xs.map valBool)) 0 xs.length
            (List.replicate xs.length (Val.bool false)) = xs :=
          writeBits_packBits xs hall _ (by simp)
        rw [hw] at hba
        have hdef : defaultVal (Ty.array xs.length Ty.bool) =
            Val.list (List.replicate xs.length (Val.bool false)) := rfl
        rw [List.append_assoc]
        simp only [rValue, hdef, StateT.run_bind, hba, Option.bind_eq_bind,
          Option.some_bind]
        rw [if_neg (by exact not_lt.mpr (by positivity))]
        simp only [StateT.run_pure, Option.pure_def]
      · have henc2 : (if xs.length = nn ∧ nn < 2 ^ 64 then do
            let body ← encodeList (encodeVal en e) xs
            pure (uvarintEncode nn ++ body) else none) = some enc := by
          cases e
          case bool => exact (hbe rfl).elim
          all_goals exact henc
        simp only [Option.ite_none_right_eq_some, Option.bind_eq_bind, Option.bind_eq_some,
          Option.pure_def, Option.some.injEq] at henc2
        obtain ⟨⟨hxn, hl64⟩, body, hbody, rfl⟩ := henc2
        subst hxn
        have huv := @rUvarint_enc xs.length hl64 en (body ++ rest)
        have hfull := rValueElems_exact e
          (fun v2 enc2 en2 h2 rest2 => ih ht hx hp hni v2 enc2 en2 h2 rest2)
          xs body en hbody [] rest
        simp only [List.length_nil, List.nil_append] at hfull
        have hdef : defaultVal (Ty.array xs.length e) =
            Val.list (List.replicate xs.length (defaultVal e)) := rfl
        rw [List.append_assoc]
        simp only [rValue, hdef]
        rw [rBoolArray_array_nonbool xs.length e hbe]
        simp only [StateT.run_bind, StateT.run_pure, Option.pure_def, Option.bind_eq_bind,
          Option.some_bind]
        rw [if_pos (show ((-1 : Int)) < 0 by norm_num)]
        simp only [valList, StateT.run_bind, huv, Option.bind_eq_bind, Option.some_bind,
          hfull, StateT.run_pure, Option.pure_def]
  | map kt vt ih1 ih2 =>
      intro ht hx hp hni v enc en henc rest
      simp only [tyOk, Bool.and_eq_true] at ht
      simp only [noExcl, Bool.and_eq_true] at hx
      simp only [noPtr, Bool.and_eq_true] at hp
      simp only [noIntUint, Bool.and_eq_true] at hni
      cases v <;> simp only [encodeVal, reduceCtorEq] at henc
      rename_i es
      simp only [Option.ite_none_right_eq_some, Option.bind_eq_bind, Option.bind_eq_some,
        Option.pure_def, Option.some.injEq] at henc
      obtain ⟨hl64, body, hbody, rfl⟩ := henc
      have huv := @rUvarint_enc es.length hl64 en (body ++ rest)
      have hm := rMapElems_enc kt vt
        (fun v2 enc2 en2 h2 rest2 => ih1 ht.1 hx.1 hp.1 hni.1 v2 enc2 en2 h2 rest2)
        (fun v2 enc2 en2 h2 rest2 => ih2 ht.2 hx.2 hp.2 hni.2 v2 enc2 en2 h2 rest2)
        es body en hbody [] rest
      simp only [List.nil_append] at hm
      rw [List.append_assoc]
      simp only [rValue, StateT.run_bind, huv, Option.bind_eq_bind, Option.some_bind,
        hm, StateT.run_pure, Option.pure_def]
  | fnil =>
      intro ht hx hp hni v enc en henc rest
      cases v <;> simp only [encodeVal, reduceCtorEq] at henc
      rename_i vs
      cases vs <;> simp only [Option.some.injEq, reduceCtorEq] at henc
      subst henc
      simp [rValue, StateT.run_pure]
  | fcons f incl frest ih1 ih2 =>
      intro ht hx hp hni v enc en henc rest
      simp only [tyOk, Bool.and_eq_true] at ht
      obtain ⟨⟨htf, htr⟩, hchain⟩ := ht
      simp only [noExcl, Bool.and_eq_true] at hx
      obtain ⟨⟨hincl, hxf⟩, hxr⟩ := hx
      simp only [noPtr, Bool.and_eq_true] at hp
      obtain ⟨hpf, hpr⟩ := hp
      simp only [noIntUint, Bool.and_eq_true] at hni
      obtain ⟨hnif, hnir⟩ := hni
      subst hincl
      cases v <;> simp only [encodeVal, reduceCtorEq] at henc
      rename_i vs
      cases vs with
      | nil => simp at henc
      | cons v1 vrest =>
          simp only [if_true, Option.bind_eq_bind, Option.bind_eq_some,
            Option.pure_def, Option.some.injEq] at henc
          obtain ⟨e1, he1, er, her, rfl⟩ := henc
          have hd1 := ih1 htf hxf hpf hnif v1 e1 en he1 (er ++ rest)
          have hd2 := ih2 htr hxr hpr hnir (.structv vrest) er en her rest
          rw [List.append_assoc]
          simp only [rValue, defaultVal_fields, structHeadTail]
          rw [defaultVal_chain frest hchain]
          simp only [if_true, StateT.run_bind, hd1, Option.bind_eq_bind, Option.some_bind,
            StateT.run_pure, Option.pure_def, hd2, valFields]
  | ptr e ih =>
      intro ht hx hp
      simp [noPtr] at hp

/-- C2 counterexample: the backends disagree both on values and on
truncation behavior.  A natural-int destination decodes fine through the
buffer backend but returns an unsupported-type error through the stream
backend; a uint64 destination over a 3-byte source yields an explicit
EndOfData error from the buffer backend but an uncaught panic from the
stream backend. -/
theorem C2_counterexample :
    (DecoderValue .int (.int 0) ⟨[2], 0, .little⟩ = .okVal (.int 1) ∧
      ReaderValue .int (.int 0) ⟨[2], .little⟩ = .errVal .unsupportedType) ∧
    (DecoderValue .uint64 (.u64 0) ⟨[1, 2, 3], 0, .little⟩ = .eofErr ∧
      ReaderValue .uint64 (.u64 0) ⟨[1, 2, 3], .little⟩ = .panicked) :=
  ⟨⟨rfl, rfl⟩, rfl, rfl⟩

theorem patchExcl_bool (v : Val) : patchExcl Ty.bool v = v := by
  cases v <;> rfl

theorem dValueElems_exactG (e : Ty) (g : Val → Val)
    (IH : ∀ (v : Val) (enc : List Nat) (en : Endian), encodeVal en e v = some enc →
      ∀ (s : DState) (rest : List Nat), s.endian = en → DAt s (enc ++ rest) →
      (dValue e (defaultVal e)).run s = some ((g v, none), advance s enc.length)) :
    ∀ (vs : List Val) (body : List Nat) (en : Endian),
      encodeList (encodeVal en e) vs = some body →
    ∀ (pre : List Val) (s : DState) (rest : List Nat), s.endian = en →
      DAt s (body ++ rest) →
      (dValueElems (dValue e) (dSkipByType e) vs.length pre.length
          (pre ++ List.replicate vs.length (defaultVal e))).run s =
        some (pre ++ vs.map g, advance s body.length) := by
  intro vs
  induction vs with
  | nil =>
      intro body en h pre s rest hen hat
      simp only [encodeList, Option.some.injEq] at h
      subst h
      simp [dValueElems, StateT.run_pure, advance_zero]
  | cons v vs ih =>
      intro body en h pre s rest hen hat
      simp only [encodeList, Option.bind_eq_bind, Option.bind_eq_some,
        Option.pure_def, Option.some.injEq] at h
      obtain ⟨e1, he1, brest, hbrest, rfl⟩ := h
      have hat1 : DAt s (e1 ++ (brest ++ rest)) := by rwa [← List.append_assoc]
      have hat2 : DAt (advance s e1.length) (brest ++ rest) := by
        have := DAt_advance hat1 e1.length (by simp)
        simpa using this
      have hlt : pre.length <
          (pre ++ List.replicate (vs.length + 1) (defaultVal e)).length := by
        simp only [List.length_append, List.length_replicate]
        omega
      have hget : (pre ++ List.replicate (vs.length + 1) (defaultVal e))[pre.length] =
          defaultVal e := by
        rw [List.getElem_append_right (le_refl pre.length)]
        simp
      have hdec := IH v e1 en he1 s (brest ++ rest) hen hat1
      have hset : (pre ++ List.replicate (vs.length + 1) (defaultVal e)).set pre.length
          (g v) = (pre ++ [g v]) ++ List.replicate vs.length (defaultVal e) := by
        rw [set_append_len]
        simp [List.replicate_succ, List.append_assoc]
      have hrec := ih brest en hbrest (pre ++ [g v]) (advance s e1.length) rest
        (by simpa [advance] using hen) hat2
      simp only [List.length_append, List.length_cons, List.length_nil] at hrec
      simp only [List.length_cons, dValueElems]
      rw [dif_pos hlt]
      simp only [StateT.run_bind, hget, hdec, Option.bind_eq_bind, Option.some_bind,
        hset, hrec, advance_advance]
      simp [List.length_append, List.append_assoc]

theorem dMapElems_encG (kt vt : Ty) (gk gv : Val → Val)
    (IHk : ∀ (v : Val) (enc : List Nat) (en : Endian), encodeVal en kt v = some enc →
      ∀ (s : DState) (rest : List Nat), s.endian = en → DAt s (enc ++ rest) →
      (dValue kt (defaultVal kt)).run s = some ((gk v, none), advance s enc.length))
    (IHv : ∀ (v : Val) (enc : List Nat) (en : Endian), encodeVal en vt v = some enc →
      ∀ (s : DState) (rest : List Nat), s.endian = en → DAt s (enc ++ rest) →
      (dValue vt (defaultVal vt)).run s = some ((gv v, none), advance s enc.length)) :
    ∀ (es : List (Val × Val)) (body : List Nat) (en : Endian),
      encodePairs (encodeVal en kt) (encodeVal en vt) es = some body →
    ∀ (acc : List (Val × Val)),
    ∀ (s : DState) (rest : List Nat), s.endian = en → DAt s (body ++ rest) →
      (dMapElems (dValue kt) (dValue vt) (defaultVal kt) (defaultVal vt)
          es.length acc).run s =
        some (acc ++ es.map (fun p => (gk p.1, gv p.2)), advance s body.length) := by
  intro es
  induction es with
  | nil =>
      intro body en h acc s rest hen hat
      simp only [encodePairs, Option.some.injEq] at h
      subst h
      simp [dMapElems, StateT.run_pure, advance_zero]
  | cons p es ih =>
      obtain ⟨k, v⟩ := p
      intro body en h acc s rest hen hat
      simp only [encodePairs, Option.bind_eq_bind, Option.bind_eq_some,
        Option.pure_def, Option.some.injEq] at h
      obtain ⟨ek, hek, ev, hev, brest, hbrest, rfl⟩ := h
      have hat1 : DAt s (ek ++ (ev ++ (brest ++ rest))) := by
        simpa [List.append_assoc] using hat
      have hdk := IHk k ek en hek s (ev ++ (brest ++ rest)) hen hat1
      have hat2 : DAt (advance s ek.length) (ev ++ (brest ++ rest)) := by
        have := DAt_advance hat1 ek.length (by simp)
        simpa using this
      have hdv := IHv v ev en hev (advance s ek.length) (brest ++ rest)
        (by simpa [advance] using hen) hat2
      have hat3 : DAt (advance (advance s ek.length) ev.length) (brest ++ rest) := by
        have := DAt_advance hat2 ev.length (by simp)
        simpa using this
      have hrec := ih brest en hbrest (acc ++ [(gk k, gv v)])
        (advance (advance s ek.length) ev.length) rest
        (by simpa [advance] using hen) hat3
      simp only [advance_advance] at hrec
      simp only [List.length_cons, dMapElems, StateT.run_bind, hdk,
        Option.bind_eq_bind, Option.some_bind, hdv, advance_advance, hrec]
      simp [List.length_append, List.append_assoc, Nat.add_assoc]

theorem rValueElems_exactG (e : Ty) (g : Val → Val)
    (IH : ∀ (v : Val) (enc : List Nat) (en : Endian), encodeVal en e v = some enc →
      ∀ (rest : List Nat),
      (rValue e (defaultVal e)).run ⟨enc ++ rest, en⟩ = some ((g v, none), ⟨rest, en⟩)) :
    ∀ (vs : List Val) (body : List Nat) (en : Endian),
      encodeList (encodeVal en e) vs = some body →
    ∀ (pre : List Val) (rest : List Nat),
      (rValueElems (rValue e) (rSkipByType e) vs.length pre.length
          (pre ++ List.replicate vs.length (defaultVal e))).run ⟨body ++ rest, en⟩ =
        some (pre ++ vs.map g, ⟨rest, en⟩) := by
  intro vs
  induction vs with
  | nil =>
      intro body en h pre rest
      simp only [encodeList, Option.some.injEq] at h
      subst h
      simp [rValueElems, StateT.run_pure]
  | cons v vs ih =>
      intro body en h pre rest
      simp only [encodeList, Option.bind_eq_bind, Option.bind_eq_some,
        Option.pure_def, Option.some.injEq] at h
      obtain ⟨e1, he1, brest, hbrest, rfl⟩ := h
      have hlt : pre.length <
          (pre ++ List.replicate (vs.length + 1) (defaultVal e)).length := by
        simp only [List.length_append, List.length_replicate]
        omega
      have hget : (pre ++ List.replicate (vs.length + 1) (defaultVal e))[pre.length] =
          defaultVal e := by
        rw [List.getElem_append_right (le_refl pre.length)]
        simp
      have hdec := IH v e1 en he1 (brest ++ rest)
      have hset : (pre ++ List.replicate (vs.length + 1) (defaultVal e)).set pre.length
          (g v) = (pre ++ [g v]) ++ List.replicate vs.length (defaultVal e) := by
        rw [set_append_len]
        simp [List.replicate_succ, List.append_assoc]
      have hrec := ih brest en hbrest (pre ++ [g v]) rest
      simp only [List.length_append, List.length_cons, List.length_nil] at hrec
      simp only [List.length_cons, rValueElems]
      rw [dif_pos hlt, List.append_assoc]
      simp only [StateT.run_bind, hget, hdec, Option.bind_eq_bind, Option.some_bind,
        hset, hrec]
      simp [List.append_assoc]

theorem rMapElems_encG (kt vt : Ty) (gk gv : Val → Val)
    (IHk : ∀ (v : Val) (enc : List Nat) (en : Endian), encodeVal en kt v = some enc →
      ∀ (rest : List Nat),
      (rValue kt (defaultVal kt)).run ⟨enc ++ rest, en⟩ = some ((gk v, none), ⟨rest, en⟩))
    (IHv : ∀ (v : Val) (enc : List Nat) (en : Endian), encodeVal en vt v = some enc →
      ∀ (rest : List Nat),
      (rValue vt (defaultVal vt)).run ⟨enc ++ rest, en⟩ = some ((gv v, none), ⟨rest, en⟩)) :
    ∀ (es : List (Val × Val)) (body : List Nat) (en : Endian),
      encodePairs (encodeVal en kt) (encodeVal en vt) es = some body →
    ∀ (acc : List (Val × Val)) (rest : List Nat),
      (rMapElems (rValue kt) (rValue vt) (defaultVal kt) (defaultVal vt)
          es.length acc).run ⟨body ++ rest, en⟩ =
        some (acc ++ es.map (fun p => (gk p.1, gv p.2)), ⟨rest, en⟩) := by
  intro es
  induction es with
  | nil =>
      intro body en h acc rest
      simp only [encodePairs, Option.some.injEq] at h
      subst h
      simp [rMapElems, StateT.run_pure]
  | cons p es ih =>
      obtain ⟨k, v⟩ := p
      intro body en h acc rest
      simp only [encodePairs, Option.bind_eq_bind, Option.bind_eq_some,
        Option.pure_def, Option.some.injEq] at h
      obtain ⟨ek, hek, ev, hev, brest, hbrest, rfl⟩ := h
      have hdk := IHk k ek en hek (ev ++ (brest ++ rest))
      have hdv := IHv v ev en hev (brest ++ rest)
      have hrec := ih brest en hbrest (acc ++ [(gk k, gv v)]) rest
      simp only [List.length_cons, rMapElems]
      rw [List.append_assoc, List.append_assoc]
      simp only [StateT.run_bind, hdk, Option.bind_eq_bind, Option.some_bind, hdv, hrec]
      simp [List.append_assoc]

/-- Generalization of `dValue_enc` to shapes that may contain excluded
record fields: decoding any wire encoding of `v` into a fresh default
destination returns `patchExcl` of `v` (excluded fields keep their
defaults), no error, and advances by exactly the encoding's length. -/
theorem dValue_encP (t : Ty) :
    ∀ (ht : tyOk t = true) (hp : noPtr t = true)
      (v : Val) (enc : List Nat) (en : Endian), encodeVal en t v = some enc →
    ∀ (s : DState) (rest : List Nat), s.endian = en → DAt s (enc ++ rest) →
      (dValue t (defaultVal t)).run s =
        some ((patchExcl t v, none), advance s enc.length) := by
  induction t with
  | bool =>
      intro ht hp v enc en henc s rest hen hat
      cases v <;> simp only [encodeVal, Option.some.injEq, reduceCtorEq] at henc
      rename_i b
      subst henc
      have hb := dBool_at (show DAt s (cond b 1 0 :: rest) by simpa using hat)
      simp only [dValue, StateT.run_bind, hb, Option.bind_eq_bind,
        Option.some_bind, StateT.run_pure, Option.pure_def]
      have hdb : decide (cond b 1 0 ≠ 0) = b := by cases b <;> rfl
      simp [hdb, patchExcl]
  | int8 =>
      intro ht hp v enc en henc s rest hen hat
      cases v <;> simp only [encodeVal, Option.ite_none_right_eq_some,
        Option.some.injEq, reduceCtorEq] at henc
      rename_i n
      obtain ⟨⟨h1, h2⟩, rfl⟩ := henc
      have hb := dUint8_at (show DAt s ((n % 256).toNat :: rest) by simpa using hat)
      have hts : toSigned 8 (n % 256).toNat = n := by
        have h256 : (256 : Int) = 2 ^ 8 := by norm_num
        rw [h256]
        exact toSigned_emod 8 (by norm_num) n (by omega) (by omega)
      simp only [dValue, dInt8, StateT.run_bind, hb, Option.bind_eq_bind,
        Option.some_bind, StateT.run_pure, Option.pure_def, hts]
      simp [patchExcl]
  | uint8 =>
      intro ht hp v enc en henc s rest hen hat
      cases v <;> simp only [encodeVal, Option.ite_none_right_eq_some,
        Option.some.injEq, reduceCtorEq] at henc
      rename_i n
      obtain ⟨hlt, rfl⟩ := henc
      have hb := dUint8_at (show DAt s (n :: rest) by simpa using hat)
      simp only [dValue, StateT.run_bind, hb, Option.bind_eq_bind,
        Option.some_bind, StateT.run_pure, Option.pure_def]
      simp [patchExcl]
  | int16 =>
      intro ht hp v enc en henc s rest hen hat
      cases v <;> simp only [encodeVal, Option.ite_none_right_eq_some,
        Option.some.injEq, reduceCtorEq] at henc
      rename_i n
      obtain ⟨⟨h1, h2⟩, rfl⟩ := henc
      have hnn : (0 : Int) ≤ n % ((2 : Int) ^ 16) := Int.emod_nonneg n (by positivity)
      have hlt : n % ((2 : Int) ^ 16) < (2 : Int) ^ 16 :=
        Int.emod_lt_of_pos n (by positivity)
      have hu := dUint16_at hat (by simp [encodeFixed_length])
      rw [hen, toUint_encodeFixed en 2 (n % ((2 : Int) ^ 16)).toNat (by omega)] at hu
      have hts := toSigned_emod 16 (by norm_num) n (by omega) (by omega)
      simp only [dValue, dInt16, StateT.run_bind, hu, Option.bind_eq_bind,
        Option.some_bind, StateT.run_pure, Option.pure_def, hts]
      simp [encodeFixed_length, patchExcl]
  | uint16 =>
      intro ht hp v enc en henc s rest hen hat
      cases v <;> simp only [encodeVal, Option.ite_none_right_eq_some,
        Option.some.injEq, reduceCtorEq] at henc
      rename_i n
      obtain ⟨hlt, rfl⟩ := henc
      have hu := dUint16_at hat (by simp [encodeFixed_length])
      rw [hen, toUint_encodeFixed en 2 n (by omega)] at hu
      simp only [dValue, StateT.run_bind, hu, Option.bind_eq_bind,
        Option.some_bind, StateT.run_pure, Option.pure_def]
      simp [encodeFixed_length, patchExcl]
  | int32 =>
      intro ht hp v enc en henc s rest hen hat
      cases v <;> simp only [encodeVal, Option.ite_none_right_eq_some,
        Option.some.injEq, reduceCtorEq] at henc
      rename_i n
      obtain ⟨⟨h1, h2⟩, rfl⟩ := henc
      have hnn : (0 : Int) ≤ n % ((2 : Int) ^ 32) := Int.emod_nonneg n (by positivity)
      have hlt : n % ((2 : Int) ^ 32) < (2 : Int) ^ 32 :=
        Int.emod_lt_of_pos n (by positivity)
      have hu := dUint32_at hat (by simp [encodeFixed_length])
      rw [hen, toUint_encodeFixed en 4 (n % ((2 : Int) ^ 32)).toNat (by omega)] at hu
      have hts := toSigned_emod 32 (by norm_num) n (by omega) (by omega)
      simp only [dValue, dInt32, StateT.run_bind, hu, Option.bind_eq_bind,
        Option.some_bind, StateT.run_pure, Option.pure_def, hts]
      simp [encodeFixed_length, patchExcl]
  | uint32 =>
      intro ht hp v enc en henc s rest hen hat
      cases v <;> simp only [encodeVal, Option.ite_none_right_eq_some,
        Option.some.injEq, reduceCtorEq] at henc
      rename_i n
      obtain ⟨hlt, rfl⟩ := henc
      have hu := dUint32_at hat (by simp [encodeFixed_length])
      rw [hen, toUint_encodeFixed en 4 n (by omega)] at hu
      simp only [dValue, StateT.run_bind, hu, Option.bind_eq_bind,
        Option.some_bind, StateT.run_pure, Option.pure_def]
      simp [encodeFixed_length, patchExcl]
  | int64 =>
      intro ht hp v enc en henc s rest hen hat
      cases v <;> simp only [encodeVal, Option.ite_none_right_eq_some,
        Option.some.injEq, reduceCtorEq] at henc
      rename_i n
      obtain ⟨⟨h1, h2⟩, rfl⟩ := henc
      have hnn : (0 : Int) ≤ n % ((2 : Int) ^ 64) := Int.emod_nonneg n (by positivity)
      have hlt : n % ((2 : Int) ^ 64) < (2 : Int) ^ 64 :=
        Int.emod_lt_of_pos n (by positivity)
      have hu := dUint64_at hat (by simp [encodeFixed_length])
      rw [hen, toUint_encodeFixed en 8 (n % ((2 : Int) ^ 64)).toNat (by omega)] at hu
      have hts := toSigned_emod 64 (by norm_num) n (by omega) (by omega)
      simp only [dValue, dInt64, StateT.run_bind, hu, Option.bind_eq_bind,
        Option.some_bind, StateT.run_pure, Option.pure_def, hts]
      simp [encodeFixed_length, patchExcl]
  | uint64 =>
      intro ht hp v enc en henc s rest hen hat
      cases v <;> simp only [encodeVal, Option.ite_none_right_eq_some,
        Option.some.injEq, reduceCtorEq] at henc
      rename_i n
      obtain ⟨hlt, rfl⟩ := henc
      have hu := dUint64_at hat (by simp [encodeFixed_length])
      rw [hen, toUint_encodeFixed en 8 n (by omega)] at hu
      simp only [dValue, StateT.run_bind, hu, Option.bind_eq_bind,
        Option.some_bind, StateT.run_pure, Option.pure_def]
      simp [encodeFixed_length, patchExcl]
  | float32 =>
      intro ht hp v enc en henc s rest hen hat
      cases v <;> simp only [encodeVal, Option.ite_none_right_eq_some,
        Option.some.injEq, reduceCtorEq] at henc
      rename_i b
      obtain ⟨hlt, rfl⟩ := henc
      have hu := dUint32_at hat (by simp [encodeFixed_length])
      rw [hen, toUint_encodeFixed en 4 b (by omega)] at hu
      simp only [dValue, dFloat32, StateT.run_bind, hu, Option.bind_eq_bind,
        Option.some_bind, StateT.run_pure, Option.pure_def]
      simp [encodeFixed_length, patchExcl]
  | float64 =>
      intro ht hp v enc en henc s rest hen hat
      cases v <;> simp only [encodeVal, Option.ite_none_right_eq_some,
        Option.some.injEq, reduceCtorEq] at henc
      rename_i b
      obtain ⟨hlt, rfl⟩ := henc
      have hu := dUint64_at hat (by simp [encodeFixed_length])
      rw [hen, toUint_encodeFixed en 8 b (by omega)] at hu
      simp only [dValue, dFloat64, StateT.run_bind, hu, Option.bind_eq_bind,
        Option.some_bind, StateT.run_pure, Option.pure_def]
      simp [encodeFixed_length, patchExcl]
  | complex64 =>
      intro ht hp v enc en henc s rest hen hat
      cases v <;> simp only [encodeVal, Option.ite_none_right_eq_some,
        Option.some.injEq, reduceCtorEq] at henc
      rename_i re im
      obtain ⟨⟨hre, him⟩, rfl⟩ := henc
      have hat1 : DAt s (encodeFixed en 4 re ++ (encodeFixed en 4 im ++ rest)) := by
        simpa [List.append_assoc] using hat
      have hu1 := dUint32_at hat1 (by simp [encodeFixed_length])
      rw [hen, toUint_encodeFixed en 4 re (by omega)] at hu1
      have hat2 : DAt (advance s 4) (encodeFixed en 4 im ++ rest) := by
        have := DAt_advance hat1 (encodeFixed en 4 re).length (by simp)
        simpa [encodeFixed_length] using this
      have hu2 := dUint32_at hat2 (by simp [encodeFixed_length])
      rw [show (advance s 4).endian = en from hen,
        toUint_encodeFixed en 4 im (by omega)] at hu2
      simp only [dValue, dComplex64, dFloat32, StateT.run_bind, hu1, Option.bind_eq_bind,
        Option.some_bind, hu2, StateT.run_pure, Option.pure_def, advance_advance]
      simp [List.length_append, encodeFixed_length, patchExcl]
  | complex128 =>
      intro ht hp v enc en henc s rest hen hat
      cases v <;> simp only [encodeVal, Option.ite_none_right_eq_some,
        Option.some.injEq, reduceCtorEq] at henc
      rename_i re im
      obtain ⟨⟨hre, him⟩, rfl⟩ := henc
      have hat1 : DAt s (encodeFixed en 8 re ++ (encodeFixed en 8 im ++ rest)) := by
        simpa [List.append_assoc] using hat
      have hu1 := dUint64_at hat1 (by simp [encodeFixed_length])
      rw [hen, toUint_encodeFixed en 8 re (by omega)] at hu1
      have hat2 : DAt (advance s 8) (encodeFixed en 8 im ++ rest) := by
        have := DAt_advance hat1 (encodeFixed en 8 re).length (by simp)
        simpa [encodeFixed_length] using this
      have hu2 := dUint64_at hat2 (by simp [encodeFixed_length])
      rw [show (advance s 8).endian = en from hen,
        toUint_encodeFixed en 8 im (by omega)] at hu2
      simp only [dValue, dComplex128, dFloat64, StateT.run_bind, hu1, Option.bind_eq_bind,
        Option.some_bind, hu2, StateT.run_pure, Option.pure_def, advance_advance]
      simp [List.length_append, encodeFixed_length, patchExcl]
  | str =>
      intro ht hp v enc en henc s rest hen hat
      cases v <;> simp only [encodeVal, Option.ite_none_right_eq_some,
        Option.some.injEq, reduceCtorEq] at henc
      rename_i bs
      obtain ⟨hl64, rfl⟩ := henc
      have hat1 : DAt s (uvarintEncode bs.length ++ (bs ++ rest)) := by
        simpa [List.append_assoc] using hat
      have huv := dUvarint_enc hl64 hat1
      have hat2 : DAt (advance s (uvarintEncode bs.length).length) (bs ++ rest) := by
        have := DAt_advance hat1 (uvarintEncode bs.length).length (by simp)
        simpa using this
      have hres := dReserveExact hat2
      simp only [dValue, dString, StateT.run_bind, huv, Option.bind_eq_bind,
        Option.some_bind, hres, StateT.run_pure, Option.pure_def, advance_advance]
      simp [List.length_append, Nat.add_comm, patchExcl]
  | int =>
      intro ht hp v enc en henc s rest hen hat
      cases v <;> simp only [encodeVal, Option.ite_none_right_eq_some,
        Option.some.injEq, reduceCtorEq] at henc
      rename_i n
      obtain ⟨⟨h1, h2⟩, rfl⟩ := henc
      have hlt := FromVarint_lt n h1 h2
      have huv := dUvarint_enc hlt hat
      simp only [dValue, dInt, dVarint, StateT.run_bind, huv, Option.bind_eq_bind,
        Option.some_bind, StateT.run_pure, Option.pure_def, ToVarint_FromVarint]
      simp [patchExcl]
  | uint =>
      intro ht hp v enc en henc s rest hen hat
      cases v <;> simp only [encodeVal, Option.ite_none_right_eq_some,
        Option.some.injEq, reduceCtorEq] at henc
      rename_i n
      obtain ⟨hlt, rfl⟩ := henc
      have huv := dUvarint_enc hlt hat
      simp only [dValue, dUint, StateT.run_bind, huv, Option.bind_eq_bind,
        Option.some_bind, StateT.run_pure, Option.pure_def]
      simp [patchExcl]
  | slice e ih =>
      intro ht hp v enc en henc s rest hen hat
      simp only [tyOk] at ht
      simp only [noPtr] at hp
      cases v <;> simp only [encodeVal, reduceCtorEq] at henc
      rename_i xs
      by_cases hbe : e = Ty.bool
      · subst hbe
        simp only [Option.ite_none_right_eq_some, Option.some.injEq] at henc
        obtain ⟨⟨hl64, hall⟩, rfl⟩ := henc
        have hat1 : DAt s (uvarintEncode xs.length ++
            (packBits (xs.map valBool) ++ rest)) := by
          simpa [List.append_assoc] using hat
        have hba := dBoolArray_slice_run xs.length hl64 [] s (packBits (xs.map valBool))
          rest hat1 (by simp [packBits_length])
        have hw : writeBits (packBits (xs.map valBool)) 0 xs.length
            (if 0 < xs.length then List.replicate xs.length (Val.bool false)
              else ([] : List Val)) = xs := by
          apply writeBits_packBits xs hall
          by_cases h0 : 0 < xs.length
          · simp [h0]
          · simp only [if_neg h0, List.length_nil]
            omega
        rw [hw] at hba
        have hmap : xs.map (patchExcl Ty.bool) = xs := by
          have hid : patchExcl Ty.bool = id := funext patchExcl_bool
          rw [hid, List.map_id]
        simp only [dValue, defaultVal, StateT.run_bind, hba, Option.bind_eq_bind,
          Option.some_bind]
        rw [if_neg (by exact not_lt.mpr (by positivity))]
        simp only [StateT.run_pure, Option.pure_def, patchExcl, hmap]
        simp [List.length_append, packBits_length, sizeofBoolArray, SizeofUvarint]
      · have henc2 : (if xs.length < 2 ^ 64 then do
            let body ← encodeList (encodeVal en e) xs
            pure (uvarintEncode xs.length ++ body) else none) = some enc := by
          cases e
          case bool => exact (hbe rfl).elim
          all_goals exact henc
        simp only [Option.ite_none_right_eq_some, Option.bind_eq_bind, Option.bind_eq_some,
          Option.pure_def, Option.some.injEq] at henc2
        obtain ⟨hl64, body, hbody, rfl⟩ := henc2
        have hat1 : DAt s (uvarintEncode xs.length ++ (body ++ rest)) := by
          simpa [List.append_assoc] using hat
        have huv := dUvarint_enc hl64 hat1
        have hat2 : DAt (advance s (uvarintEncode xs.length).length) (body ++ rest) := by
          have := DAt_advance hat1 (uvarintEncode xs.length).length (by simp)
          simpa using this
        have hfull := dValueElems_exactG e (patchExcl e)
          (fun v2 enc2 en2 h2 s2 rest2 hen2 hat2 => ih ht hp v2 enc2 en2 h2 s2 rest2 hen2 hat2)
          xs body en hbody []
          (advance s (uvarintEncode xs.length).length) rest
          (by simpa [advance] using hen) hat2
        simp only [List.length_nil, List.nil_append] at hfull
        simp only [dValue, defaultVal]
        rw [dBoolArray_slice_nonbool e hbe]
        simp only [StateT.run_bind, StateT.run_pure, Option.pure_def, Option.bind_eq_bind,
          Option.some_bind]
        rw [if_pos (show ((-1 : Int)) < 0 by norm_num)]
        simp only [StateT.run_bind, huv, Option.bind_eq_bind, Option.some_bind, hfull,
          advance_advance, StateT.run_pure, Option.pure_def, patchExcl]
        simp [List.length_append]
  | array nn e ih =>
      intro ht hp v enc en henc s rest hen hat
      simp only [tyOk] at ht
      simp only [noPtr] at hp
      cases v <;> simp only [encodeVal, reduceCtorEq] at henc
      rename_i xs
      by_cases hbe : e = Ty.bool
      · subst hbe
        simp only [Option.ite_none_right_eq_some, Option.some.injEq] at henc
        obtain ⟨⟨hxn, hl64, hall⟩, rfl⟩ := henc
        subst hxn
        have hat1 : DAt s (uvarintEncode xs.length ++
            (packBits (xs.map valBool) ++ rest)) := by
          simpa [List.append_assoc] using hat
        have hba := dBoolArray_array_run xs.length xs.length hl64
          (List.replicate xs.length (Val.bool false)) s (packBits (xs.map valBool))
          rest hat1 (by simp [packBits_length]) (by simp)
        have hw : writeBits (packBits (xs.map valBool)) 0 xs.length
            (List.replicate xs.length (Val.bool false)) = xs :=
          writeBits_packBits xs hall _ (by simp)
        rw [hw] at hba
        have hmap : xs.map (patchExcl Ty.bool) = xs := by
          have hid : patchExcl Ty.bool = id := funext patchExcl_bool
          rw [hid, List.map_id]
        have hdef : defaultVal (Ty.array xs.length Ty.bool) =
            Val.list (List.replicate xs.length (Val.bool false)) := rfl
        simp only [dValue, hdef, StateT.run_bind, hba, Option.bind_eq_bind,
          Option.some_bind]
        rw [if_neg (by exact not_lt.mpr (by positivity))]
        simp only [StateT.run_pure, Option.pure_def, patchExcl, hmap]
        simp [List.length_append, packBits_length, sizeofBoolArray, SizeofUvarint]
      · have henc2 : (if xs.length = nn ∧ nn < 2 ^ 64 then do
            let body ← encodeList (encodeVal en e) xs
            pure (uvarintEncode nn ++ body) else none) = some enc := by
          cases e
          case bool => exact (hbe rfl).elim
          all_goals exact henc
        simp only [Option.ite_none_right_eq_some, Option.bind_eq_bind, Option.bind_eq_some,
          Option.pure_def, Option.some.injEq] at henc2
        obtain ⟨⟨hxn, hl64⟩, body, hbody, rfl⟩ := henc2
        subst hxn
        have hat1 : DAt s (uvarintEncode xs.length ++ (body ++ rest)) := by
          simpa [List.append_assoc] using hat
        have huv := dUvarint_enc hl64 hat1
        have hat2 : DAt (advance s (uvarintEncode xs.length).length) (body ++ rest) := by
          have := DAt_advance hat1 (uvarintEncode xs.length).length (by simp)
          simpa using this
        have hfull := dValueElems_exactG e (patchExcl e)
          (fun v2 enc2 en2 h2 s2 rest2 hen2 hat2 => ih ht hp v2 enc2 en2 h2 s2 rest2 hen2 hat2)
          xs body en hbody []
          (advance s (uvarintEncode xs.length).length) rest
          (by simpa [advance] using hen) hat2
        simp only [List.length_nil, List.nil_append] at hfull
        have hdef : defaultVal (Ty.array xs.length e) =
            Val.list (List.replicate xs.length (defaultVal e)) := rfl
        simp only [dValue, hdef]
        rw [dBoolArray_array_nonbool xs.length e hbe]
        simp only [StateT.run_bind, StateT.run_pure, Option.pure_def, Option.bind_eq_bind,
          Option.some_bind]
        rw [if_pos (show ((-1 : Int)) < 0 by norm_num)]
        simp only [valList, StateT.run_bind, huv, Option.bind_eq_bind, Option.some_bind,
          hfull, advance_advance, StateT.run_pure, Option.pure_def, patchExcl]
        simp [List.length_append]
  | map kt vt ih1 ih2 =>
      intro ht hp v enc en henc s rest hen hat
      simp only [tyOk, Bool.and_eq_true] at ht
      simp only [noPtr, Bool.and_eq_true] at hp
      cases v <;> simp only [encodeVal, reduceCtorEq] at henc
      rename_i es
      simp only [Option.ite_none_right_eq_some, Option.bind_eq_bind, Option.bind_eq_some,
        Option.pure_def, Option.some.injEq] at henc
      obtain ⟨hl64, body, hbody, rfl⟩ := henc
      have hat1 : DAt s (uvarintEncode es.length ++ (body ++ rest)) := by
        simpa [List.append_assoc] using hat
      have huv := dUvarint_enc hl64 hat1
      have hat2 : DAt (advance s (uvarintEncode es.length).length) (body ++ rest) := by
        have := DAt_advance hat1 (uvarintEncode es.length).length (by simp)
        simpa using this
      have hm := dMapElems_encG kt vt (patchExcl kt) (patchExcl vt)
        (fun v2 enc2 en2 h2 s2 rest2 hen2 hat2 =>
          ih1 ht.1 hp.1 v2 enc2 en2 h2 s2 rest2 hen2 hat2)
        (fun v2 enc2 en2 h2 s2 rest2 hen2 hat2 =>
          ih2 ht.2 hp.2 v2 enc2 en2 h2 s2 rest2 hen2 hat2)
        es body en hbody [] (advance s (uvarintEncode es.length).length) rest
        (by simpa [advance] using hen) hat2
      simp only [List.nil_append] at hm
      simp only [dValue, StateT.run_bind, huv, Option.bind_eq_bind, Option.some_bind,
        hm, advance_advance, StateT.run_pure, Option.pure_def, patchExcl]
      simp [List.length_append]
  | fnil =>
      intro ht hp v enc en henc s rest hen hat
      cases v <;> simp only [encodeVal, reduceCtorEq] at henc
      rename_i vs
      cases vs <;> simp only [Option.some.injEq, reduceCtorEq] at henc
      subst henc
      simp [dValue, StateT.run_pure, advance_zero, patchExcl]
  | fcons f incl frest ih1 ih2 =>
      intro ht hp v enc en henc s rest hen hat
      simp only [tyOk, Bool.and_eq_true] at ht
      obtain ⟨⟨htf, htr⟩, hchain⟩ := ht
      simp only [noPtr, Bool.and_eq_true] at hp
      obtain ⟨hpf, hpr⟩ := hp
      cases v <;> simp only [encodeVal, reduceCtorEq] at henc
      rename_i vs
      cases vs with
      | nil => simp at henc
      | cons v1 vrest =>
          cases incl with
          | true =>
              simp only [if_true, Option.bind_eq_bind, Option.bind_eq_some,
                Option.pure_def, Option.some.injEq] at henc
              obtain ⟨e1, he1, er, her, rfl⟩ := henc
              have hat1 : DAt s (e1 ++ (er ++ rest)) := by
                simpa [List.append_assoc] using hat
              have hd1 := ih1 htf hpf v1 e1 en he1 s (er ++ rest) hen hat1
              have hat2 : DAt (advance s e1.length) (er ++ rest) := by
                have := DAt_advance hat1 e1.length (by simp)
                simpa using this
              have hd2 := ih2 htr hpr (.structv vrest) er en her (advance s e1.length)
                rest (by simpa [advance] using hen) hat2
              simp only [dValue, defaultVal_fields, structHeadTail]
              rw [defaultVal_chain frest hchain]
              simp only [if_true, StateT.run_bind, hd1, Option.bind_eq_bind,
                Option.some_bind, StateT.run_pure, Option.pure_def, hd2, advance_advance,
                patchExcl]
              simp [List.length_append]
          | false =>
              simp only [Bool.false_eq_true, if_false, Option.some_bind,
                Option.bind_eq_bind, Option.bind_eq_some, Option.pure_def,
                Option.some.injEq, List.nil_append] at henc
              obtain ⟨er, her, rfl⟩ := henc
              have hd2 := ih2 htr hpr (.structv vrest) er en her s rest hen hat
              simp only [dValue, defaultVal_fields, structHeadTail]
              rw [defaultVal_chain frest hchain]
              simp only [Bool.false_eq_true, if_false, StateT.run_bind, StateT.run_pure,
                Option.pure_def, Option.some_bind, Option.bind_eq_bind, hd2, patchExcl]
  | ptr e ih =>
      intro ht hp
      simp [noPtr] at hp

/-- Stream-backend counterpart of `dValue_encP`: for shapes without
natural int/uint components and without references, decoding any wire
encoding of `v` into a fresh default destination returns `patchExcl`
of `v`, no error, consuming exactly the encoding. -/
theorem rValue_encP (t : Ty) :
    ∀ (ht : tyOk t = true) (hp : noPtr t = true) (hni : noIntUint t = true)
      (v : Val) (enc : List Nat) (en : Endian), encodeVal en t v = some enc →
    ∀ (rest : List Nat),
      (rValue t (defaultVal t)).run ⟨enc ++ rest, en⟩ =
        some ((patchExcl t v, none), ⟨rest, en⟩) := by
  induction t with
  | bool =>
      intro ht hp hni v enc en henc rest
      cases v <;> simp only [encodeVal, Option.some.injEq, reduceCtorEq] at henc
      rename_i b
      subst henc
      have hb := @rBool_pre (cond b 1 0) rest en
      have hdb : decide (cond b 1 0 ≠ 0) = b := by cases b <;> rfl
      simp only [List.singleton_append, rValue, StateT.run_bind, hb, Option.bind_eq_bind,
        Option.some_bind, StateT.run_pure, Option.pure_def, hdb, patchExcl]
  | int8 =>
      intro ht hp hni v enc en henc rest
      cases v <;> simp only [encodeVal, Option.ite_none_right_eq_some,
        Option.some.injEq, reduceCtorEq] at henc
      rename_i n
      obtain ⟨⟨h1, h2⟩, rfl⟩ := henc
      have hb := @rUint8_pre ((n % 256).toNat) rest en
      have hts : toSigned 8 (n % 256).toNat = n := by
        have h256 : (256 : Int) = 2 ^ 8 := by norm_num
        rw [h256]
        exact toSigned_emod 8 (by norm_num) n (by omega) (by omega)
      simp only [List.singleton_append, rValue, rInt8, StateT.run_bind, hb,
        Option.bind_eq_bind, Option.some_bind, StateT.run_pure, Option.pure_def, hts,
        patchExcl]
  | uint8 =>
      intro ht hp hni v enc en henc rest
      cases v <;> simp only [encodeVal, Option.ite_none_right_eq_some,
        Option.some.injEq, reduceCtorEq] at henc
      rename_i n
      obtain ⟨hlt, rfl⟩ := henc
      have hb := @rUint8_pre n rest en
      simp only [List.singleton_append, rValue, StateT.run_bind, hb, Option.bind_eq_bind,
        Option.some_bind, StateT.run_pure, Option.pure_def, patchExcl]
  | int16 =>
      intro ht hp hni v enc en henc rest
      cases v <;> simp only [encodeVal, Option.ite_none_right_eq_some,
        Option.some.injEq, reduceCtorEq] at henc
      rename_i n
      obtain ⟨⟨h1, h2⟩, rfl⟩ := henc
      have hnn : (0 : Int) ≤ n % ((2 : Int) ^ 16) := Int.emod_nonneg n (by positivity)
      have hlt : n % ((2 : Int) ^ 16) < (2 : Int) ^ 16 :=
        Int.emod_lt_of_pos n (by positivity)
      have hu := @rUint16_pre (encodeFixed en 2 (n % ((2 : Int) ^ 16)).toNat) rest en
        (by simp [encodeFixed_length])
      rw [toUint_encodeFixed en 2 (n % ((2 : Int) ^ 16)).toNat (by omega)] at hu
      have hts := toSigned_emod 16 (by norm_num) n (by omega) (by omega)
      simp only [rValue, rInt16, StateT.run_bind, hu, Option.bind_eq_bind,
        Option.some_bind, StateT.run_pure, Option.pure_def, hts, patchExcl]
  | uint16 =>
      intro ht hp hni v enc en henc rest
      cases v <;> simp only [encodeVal, Option.ite_none_right_eq_some,
        Option.some.injEq, reduceCtorEq] at henc
      rename_i n
      obtain ⟨hlt, rfl⟩ := henc
      have hu := @rUint16_pre (encodeFixed en 2 n) rest en (by simp [encodeFixed_length])
      rw [toUint_encodeFixed en 2 n (by omega)] at hu
      simp only [rValue, StateT.run_bind, hu, Option.bind_eq_bind,
        Option.some_bind, StateT.run_pure, Option.pure_def, patchExcl]
  | int32 =>
      intro ht hp hni v enc en henc rest
      cases v <;> simp only [encodeVal, Option.ite_none_right_eq_some,
        Option.some.injEq, reduceCtorEq] at henc
      rename_i n
      obtain ⟨⟨h1, h2⟩, rfl⟩ := henc
      have hnn : (0 : Int) ≤ n % ((2 : Int) ^ 32) := Int.emod_nonneg n (by positivity)
      have hlt : n % ((2 : Int) ^ 32) < (2 : Int) ^ 32 :=
        Int.emod_lt_of_pos n (by positivity)
      have hu := @rUint32_pre (encodeFixed en 4 (n % ((2 : Int) ^ 32)).toNat) rest en
        (by simp [encodeFixed_length])
      rw [toUint_encodeFixed en 4 (n % ((2 : Int) ^ 32)).toNat (by omega)] at hu
      have hts := toSigned_emod 32 (by norm_num) n (by omega) (by omega)
      simp only [rValue, rInt32, StateT.run_bind, hu, Option.bind_eq_bind,
        Option.some_bind, StateT.run_pure, Option.pure_def, hts, patchExcl]
  | uint32 =>
      intro ht hp hni v enc en henc rest
      cases v <;> simp only [encodeVal, Option.ite_none_right_eq_some,
        Option.some.injEq, reduceCtorEq] at henc
      rename_i n
      obtain ⟨hlt, rfl⟩ := henc
      have hu := @rUint32_pre (encodeFixed en 4 n) rest en (by simp [encodeFixed_length])
      rw [toUint_encodeFixed en 4 n (by omega)] at hu
      simp only [rValue, StateT.run_bind, hu, Option.bind_eq_bind,
        Option.some_bind, StateT.run_pure, Option.pure_def, patchExcl]
  | int64 =>
      intro ht hp hni v enc en henc rest
      cases v <;> simp only [encodeVal, Option.ite_none_right_eq_some,
        Option.some.injEq, reduceCtorEq] at henc
      rename_i n
      obtain ⟨⟨h1, h2⟩, rfl⟩ := henc
      have hnn : (0 : Int) ≤ n % ((2 : Int) ^ 64) := Int.emod_nonneg n (by positivity)
      have hlt : n % ((2 : Int) ^ 64) < (2 : Int) ^ 64 :=
        Int.emod_lt_of_pos n (by positivity)
      have hu := @rUint64_pre (encodeFixed en 8 (n % ((2 : Int) ^ 64)).toNat) rest en
        (by simp [encodeFixed_length])
      rw [toUint_encodeFixed en 8 (n % ((2 : Int) ^ 64)).toNat (by omega)] at hu
      have hts := toSigned_emod 64 (by norm_num) n (by omega) (by omega)
      simp only [rValue, rInt64, StateT.run_bind, hu, Option.bind_eq_bind,
        Option.some_bind, StateT.run_pure, Option.pure_def, hts, patchExcl]
  | uint64 =>
      intro ht hp hni v enc en henc rest
      cases v <;> simp only [encodeVal, Option.ite_none_right_eq_some,
        Option.some.injEq, reduceCtorEq] at henc
      rename_i n
      obtain ⟨hlt, rfl⟩ := henc
      have hu := @rUint64_pre (encodeFixed en 8 n) rest en (by simp [encodeFixed_length])
      rw [toUint_encodeFixed en 8 n (by omega)] at hu
      simp only [rValue, StateT.run_bind, hu, Option.bind_eq_bind,
        Option.some_bind, StateT.run_pure, Option.pure_def, patchExcl]
  | float32 =>
      intro ht hp hni v enc en henc rest
      cases v <;> simp only [encodeVal, Option.ite_none_right_eq_some,
        Option.some.injEq, reduceCtorEq] at henc
      rename_i b
      obtain ⟨hlt, rfl⟩ := henc
      have hu := @rUint32_pre (encodeFixed en 4 b) rest en (by simp [encodeFixed_length])
      rw [toUint_encodeFixed en 4 b (by omega)] at hu
      simp only [rValue, rFloat32, StateT.run_bind, hu, Option.bind_eq_bind,
        Option.some_bind, StateT.run_pure, Option.pure_def, patchExcl]
  | float64 =>
      intro ht hp hni v enc en henc rest
      cases v <;> simp only [encodeVal, Option.ite_none_right_eq_some,
        Option.some.injEq, reduceCtorEq] at henc
      rename_i b
      obtain ⟨hlt, rfl⟩ := henc
      have hu := @rUint64_pre (encodeFixed en 8 b) rest en (by simp [encodeFixed_length])
      rw [toUint_encodeFixed en 8 b (by omega)] at hu
      simp only [rValue, rFloat64, StateT.run_bind, hu, Option.bind_eq_bind,
        Option.some_bind, StateT.run_pure, Option.pure_def, patchExcl]
  | complex64 =>
      intro ht hp hni v enc en henc rest
      cases v <;> simp only [encodeVal, Option.ite_none_right_eq_some,
        Option.some.injEq, reduceCtorEq] at henc
      rename_i re im
      obtain ⟨⟨hre, him⟩, rfl⟩ := henc
      have hu1 := @rUint32_pre (encodeFixed en 4 re) (encodeFixed en 4 im ++ rest) en
        (by simp [encodeFixed_length])
      rw [toUint_encodeFixed en 4 re (by omega)] at hu1
      have hu2 := @rUint32_pre (encodeFixed en 4 im) rest en
        (by simp [encodeFixed_length])
      rw [toUint_encodeFixed en 4 im (by omega)] at hu2
      rw [List.append_assoc]
      simp only [rValue, rComplex64, rFloat32, StateT.run_bind, hu1, Option.bind_eq_bind,
        Option.some_bind, hu2, StateT.run_pure, Option.pure_def, patchExcl]
  | complex128 =>
      intro ht hp hni v enc en henc rest
      cases v <;> simp only [encodeVal, Option.ite_none_right_eq_some,
        Option.some.injEq, reduceCtorEq] at henc
      rename_i re im
      obtain ⟨⟨hre, him⟩, rfl⟩ := henc
      have hu1 := @rUint64_pre (encodeFixed en 8 re) (encodeFixed en 8 im ++ rest) en
        (by simp [encodeFixed_length])
      rw [toUint_encodeFixed en 8 re (by omega)] at hu1
      have hu2 := @rUint64_pre (encodeFixed en 8 im) rest en
        (by simp [encodeFixed_length])
      rw [toUint_encodeFixed en 8 im (by omega)] at hu2
      rw [List.append_assoc]
      simp only [rValue, rComplex128, rFloat64, StateT.run_bind, hu1, Option.bind_eq_bind,
        Option.some_bind, hu2, StateT.run_pure, Option.pure_def, patchExcl]
  | str =>
      intro ht hp hni v enc en henc rest
      cases v <;> simp only [encodeVal, Option.ite_none_right_eq_some,
        Option.some.injEq, reduceCtorEq] at henc
      rename_i bs
      obtain ⟨hl64, rfl⟩ := henc
      have huv := @rUvarint_enc bs.length hl64 en (bs ++ rest)
      have hres := @rReserveExact bs rest en
      rw [List.append_assoc]
      simp only [rValue, rString, StateT.run_bind, huv, Option.bind_eq_bind,
        Option.some_bind, hres, StateT.run_pure, Option.pure_def, patchExcl]
  | int =>
      intro ht hp hni
      simp [noIntUint] at hni
  | uint =>
      intro ht hp hni
      simp [noIntUint] at hni
  | slice e ih =>
      intro ht hp hni v enc en henc rest
      simp only [tyOk] at ht
      simp only [noPtr] at hp
      simp only [noIntUint] at hni
      cases v <;> simp only [encodeVal, reduceCtorEq] at henc
      rename_i xs
      by_cases hbe : e = Ty.bool
      · subst hbe
        simp only [Option.ite_none_right_eq_some, Option.some.injEq] at henc
        obtain ⟨⟨hl64, hall⟩, rfl⟩ := henc
        have hba := rBoolArray_slice_run xs.length hl64 [] en
          (packBits (xs.map valBool)) rest (by simp [packBits_length])
        have hw : writeBits (packBits (xs.map valBool)) 0 xs.length
            (if 0 < xs.length then List.replicate xs.length (Val.bool false)
              else ([] : List Val)) = xs := by
          apply writeBits_packBits xs hall
          by_cases h0 : 0 < xs.length
          · simp [h0]
          · simp only [if_neg h0, List.length_nil]
            omega
        rw [hw] at hba
        have hmap : xs.map (patchExcl Ty.bool) = xs := by
          have hid : patchExcl Ty.bool = id := funext patchExcl_bool
          rw [hid, List.map_id]
        rw [List.append_assoc]
        simp only [rValue, defaultVal, StateT.run_bind, hba, Option.bind_eq_bind,
          Option.some_bind]
        rw [if_neg (by exact not_lt.mpr (by positivity))]
        simp only [StateT.run_pure, Option.pure_def, patchExcl, hmap]
        simp
      · have henc2 : (if xs.length < 2 ^ 64 then do
            let body ← encodeList (encodeVal en e) xs
            pure (uvarintEncode xs.length ++ body) else none) = some enc := by
          cases e
          case bool => exact (hbe rfl).elim
          all_goals exact henc
        simp only [Option.ite_none_right_eq_some, Option.bind_eq_bind, Option.bind_eq_some,
          Option.pure_def, Option.some.injEq] at henc2
        obtain ⟨hl64, body, hbody, rfl⟩ := henc2
        have huv := @rUvarint_enc xs.length hl64 en (body ++ rest)
        have hfull := rValueElems_exactG e (patchExcl e)
          (fun v2 enc2 en2 h2 rest2 => ih ht hp hni v2 enc2 en2 h2 rest2)
          xs body en hbody [] rest
        simp only [List.length_nil, List.nil_append] at hfull
        rw [List.append_assoc]
        simp only [rValue, defaultVal]
        rw [rBoolArray_slice_nonbool e hbe]
        simp only [StateT.run_bind, StateT.run_pure, Option.pure_def, Option.bind_eq_bind,
          Option.some_bind]
        rw [if_pos (show ((-1 : Int)) < 0 by norm_num)]
        simp only [StateT.run_bind, huv, Option.bind_eq_bind, Option.some_bind, hfull,
          StateT.run_pure, Option.pure_def, patchExcl]
  | array nn e ih =>
      intro ht hp hni v enc en henc rest
      simp only [tyOk] at ht
      simp only [noPtr] at hp
      simp only [noIntUint] at hni
      cases v <;> simp only [encodeVal, reduceCtorEq] at henc
      rename_i xs
      by_cases hbe : e = Ty.bool
      · subst hbe
        simp only [Option.ite_none_right_eq_some, Option.some.injEq] at henc
        obtain ⟨⟨hxn, hl64, hall⟩, rfl⟩ := henc
        subst hxn
        have hba := rBoolArray_array_run xs.length xs.length hl64
          (List.replicate xs.length (Val.bool false)) en (packBits (xs.map valBool))
          rest (by simp [packBits_length]) (by simp)
        have hw : writeBits (packBits (xs.map valBool)) 0 xs.length
            (List.replicate xs.length (Val.bool false)) = xs :=
          writeBits_packBits xs hall _ (by simp)
        rw [hw] at hba
        have hmap : xs.map (patchExcl Ty.bool) = xs := by
          have hid : patchExcl Ty.bool = id := funext patchExcl_bool
          rw [hid, List.map_id]
        have hdef : defaultVal (Ty.array xs.length Ty.bool) =
            Val.list (List.replicate xs.length (Val.bool false)) := rfl
        rw [List.append_assoc]
        simp only [rValue, hdef, StateT.run_bind, hba, Option.bind_eq_bind,
          Option.some_bind]
        rw [if_neg (by exact not_lt.mpr (by positivity))]
        simp only [StateT.run_pure, Option.pure_def, patchExcl, hmap]
        simp
      · have henc2 : (if xs.length = nn ∧ nn < 2 ^ 64 then do
            let body ← encodeList (encodeVal en e) xs
            pure (uvarintEncode nn ++ body) else none) = some enc := by
          cases e
          case bool => exact (hbe rfl).elim
          all_goals exact henc
        simp only [Option.ite_none_right_eq_some, Option.bind_eq_bind, Option.bind_eq_some,
          Option.pure_def, Option.some.injEq] at henc2
        obtain ⟨⟨hxn, hl64⟩, body, hbody, rfl⟩ := henc2
        subst hxn
        have huv := @rUvarint_enc xs.length hl64 en (body ++ rest)
        have hfull := rValueElems_exactG e (patchExcl e)
          (fun v2 enc2 en2 h2 rest2 => ih ht hp hni v2 enc2 en2 h2 rest2)
          xs body en hbody [] rest
        simp only [List.length_nil, List.nil_append] at hfull
        have hdef : defaultVal (Ty.array xs.length e) =
            Val.list (List.replicate xs.length (defaultVal e)) := rfl
        rw [List.append_assoc]
        simp only [rValue, hdef]
        rw [rBoolArray_array_nonbool xs.length e hbe]
        simp only [StateT.run_bind, StateT.run_pure, Option.pure_def, Option.bind_eq_bind,
          Option.some_bind]
        rw [if_pos (show ((-1 : Int)) < 0 by norm_num)]
        simp only [valList, StateT.run_bind, huv, Option.bind_eq_bind, Option.some_bind,
          hfull, StateT.run_pure, Option.pure_def, patchExcl]
  | map kt vt ih1 ih2 =>
      intro ht hp hni v enc en henc rest
      simp only [tyOk, Bool.and_eq_true] at ht
      simp only [noPtr, Bool.and_eq_true] at hp
      simp only [noIntUint, Bool.and_eq_true] at hni
      cases v <;> simp only [encodeVal, reduceCtorEq] at henc
      rename_i es
      simp only [Option.ite_none_right_eq_some, Option.bind_eq_bind, Option.bind_eq_some,
        Option.pure_def, Option.some.injEq] at henc
      obtain ⟨hl64, body, hbody, rfl⟩ := henc
      have huv := @rUvarint_enc es.length hl64 en (body ++ rest)
      have hm := rMapElems_encG kt vt (patchExcl kt) (patchExcl vt)
        (fun v2 enc2 en2 h2 rest2 => ih1 ht.1 hp.1 hni.1 v2 enc2 en2 h2 rest2)
        (fun v2 enc2 en2 h2 rest2 => ih2 ht.2 hp.2 hni.2 v2 enc2 en2 h2 rest2)
        es body en hbody [] rest
      simp only [List.nil_append] at hm
      rw [List.append_assoc]
      simp only [rValue, StateT.run_bind, huv, Option.bind_eq_bind, Option.some_bind,
        hm, StateT.run_pure, Option.pure_def, patchExcl]
  | fnil =>
      intro ht hp hni v enc en henc rest
      cases v <;> simp only [encodeVal, reduceCtorEq] at henc
      rename_i vs
      cases vs <;> simp only [Option.some.injEq, reduceCtorEq] at henc
      subst henc
      simp [rValue, StateT.run_pure, patchExcl]
  | fcons f incl frest ih1 ih2 =>
      intro ht hp hni v enc en henc rest
      simp only [tyOk, Bool.and_eq_true] at ht
      obtain ⟨⟨htf, htr⟩, hchain⟩ := ht
      simp only [noPtr, Bool.and_eq_true] at hp
      obtain ⟨hpf, hpr⟩ := hp
      simp only [noIntUint, Bool.and_eq_true] at hni
      obtain ⟨hnif, hnir⟩ := hni
      cases v <;> simp only [encodeVal, reduceCtorEq] at henc
      rename_i vs
      cases vs with
      | nil => simp at henc
      | cons v1 vrest =>
          cases incl with
          | true =>
              simp only [if_true, Option.bind_eq_bind, Option.bind_eq_some,
                Option.pure_def, Option.some.injEq] at henc
              obtain ⟨e1, he1, er, her, rfl⟩ := henc
              have hd1 := ih1 htf hpf hnif v1 e1 en he1 (er ++ rest)
              have hd2 := ih2 htr hpr hnir (.structv vrest) er en her rest
              rw [List.append_assoc]
              simp only [rValue, defaultVal_fields, structHeadTail]
              rw [defaultVal_chain frest hchain]
              simp only [if_true, StateT.run_bind, hd1, Option.bind_eq_bind,
                Option.some_bind, StateT.run_pure, Option.pure_def, hd2, patchExcl]
          | false =>
              simp only [Bool.false_eq_true, if_false, Option.some_bind,
                Option.bind_eq_bind, Option.bind_eq_some, Option.pure_def,
                Option.some.injEq, List.nil_append] at henc
              obtain ⟨er, her, rfl⟩ := henc
              have hd2 := ih2 htr hpr hnir (.structv vrest) er en her rest
              simp only [rValue, defaultVal_fields, structHeadTail]
              rw [defaultVal_chain frest hchain]
              simp only [Bool.false_eq_true, if_false, StateT.run_bind, StateT.run_pure,
                Option.pure_def, Option.some_bind, Option.bind_eq_bind, hd2, patchExcl]
  | ptr e ih =>
      intro ht hp
      simp [noPtr] at hp

/-- C2 (amended): on any wire encoding of a shape without natural
int/uint components and without references, the buffer-backed and the
stream-backed `value` engines decode the identical byte sequence to the
identical value with no error, consuming exactly the encoding in both
backends. -/
theorem C2_backend_agreement (t : Ty) (ht : tyOk t = true)
    (hp : noPtr t = true) (hni : noIntUint t = true)
    (v : Val) (enc : List Nat) (en : Endian) (henc : encodeVal en t v = some enc)
    (rest : List Nat) :
    ∃ w : Val,
      (dValue t (defaultVal t)).run ⟨enc ++ rest, 0, en⟩ =
        some ((w, none), ⟨enc ++ rest, enc.length, en⟩) ∧
      (rValue t (defaultVal t)).run ⟨enc ++ rest, en⟩ = some ((w, none), ⟨rest, en⟩) := by
  refine ⟨patchExcl t v, ?_, rValue_encP t ht hp hni v enc en henc rest⟩
  have := dValue_encP t ht hp v enc en henc ⟨enc ++ rest, 0, en⟩ rest rfl
    ⟨by simp, rfl⟩
  simpa [advance] using this

/-- Witness for C2 at a two-field record whose second field is excluded:
both backends decode `[7]` to the same record (second field default)
and stop right after it. -/
theorem C2_backend_agreement_witness :
    ∃ w : Val,
      (dValue (.fcons .uint8 true (.fcons .uint8 false .fnil))
          (defaultVal (.fcons .uint8 true (.fcons .uint8 false .fnil)))).run
          ⟨[7] ++ [5], 0, .little⟩ =
        some ((w, none), ⟨[7] ++ [5], 1, .little⟩) ∧
      (rValue (.fcons .uint8 true (.fcons .uint8 false .fnil))
          (defaultVal (.fcons .uint8 true (.fcons .uint8 false .fnil)))).run
          ⟨[7] ++ [5], .little⟩ =
        some ((w, none), ⟨[5], .little⟩) :=
  C2_backend_agreement (.fcons .uint8 true (.fcons .uint8 false .fnil)) rfl rfl rfl
    (.structv [.u8 7, .u8 9]) [7] .little rfl [5]
